import Mathlib

/-!
Verification development for the `lobby` order-book core
(`src/lobby/orderbook.py`).

Shallow embedding notes.

* Python integers are unbounded, so quantities, prices (internal integer
  ticks) and volumes are modelled as `Int`; ids, timestamps and counters as
  `Nat`.
* The Tick Converter (`clipPrice` / `toFloatPrice`) is a floating-point
  utility that the spec scopes out (spec sections 1 and 4.1); the embedding
  works directly on internal integer ticks.  Tape entries and returned trade
  records store the integer tick where the source stores
  `toFloatPrice(tick)`.
* `_BookSide.priceMap` (a dict keyed by tick) and `_BookSide.prices` (the
  ascending sorted list of the same ticks) are kept in lockstep by every
  operation of the source; the embedding merges them into one ascending list
  of `PriceLevel`s, with `_ensure_level`'s sorted insertion and the pruning
  spots translated one-for-one.
* Python dicts (`orderMap`, `icebergs`) are modelled as association lists
  with dict-assignment semantics (`aset` replaces the binding for a key);
  the source only ever reads them through key lookup.
* The matching loops of the source (`_process_price_level`,
  `_process_market`, `_process_limit`) are `while` loops that do not
  structurally terminate on arbitrary states, so they take a fuel
  parameter; every theorem about them is proved for all fuel values.
* In `_process_price_level` the local `level` aliases the tree's level
  object while the level is still present in the tree.  Once the level is
  pruned (and possibly re-created by an iceberg replenishment) the local
  alias is a detached empty level, so the Python loop exits on its next
  test; the embedding returns at exactly that point.
-/

namespace Lobby

/-- `_Order`: id, owner (tid), internal integer price, remaining qty,
arrival timestamp. -/
structure Order where
  idNum : Nat
  tid : Int
  price : Int
  qty : Int
  timestamp : Nat
deriving DecidableEq

/-- `_PriceLevel`: FIFO queue of orders at one tick plus aggregate volume. -/
structure PriceLevel where
  price : Int
  queue : List Order
  volume : Int
deriving DecidableEq

/-- `_PriceLevel.append`. -/
def PriceLevel.append (l : PriceLevel) (o : Order) : PriceLevel :=
  { l with queue := l.queue ++ [o], volume := l.volume + o.qty }

/-- `_PriceLevel.consume_head`: returns (taken qty, removed order if the
head reached zero, updated level). -/
def PriceLevel.consumeHead (l : PriceLevel) (need : Int) :
    Int × Option Order × PriceLevel :=
  match l.queue with
  | [] => (0, none, l)
  | hd :: tl =>
    if need ≤ 0 then (0, none, l)
    else
      let take := min need hd.qty
      let hd' : Order := { hd with qty := hd.qty - take }
      let vol := l.volume - take
      if hd'.qty = 0 then (take, some hd', { l with queue := tl, volume := vol })
      else (take, none, { l with queue := hd' :: tl, volume := vol })

/-- Association-list lookup, modelling Python dict key lookup. -/
def alookup {α : Type} : List (Nat × α) → Nat → Option α
  | [], _ => none
  | (k', v) :: t, k => if k' = k then some v else alookup t k

/-- Association-list key deletion (dict `pop`/`del`). -/
def aerase {α : Type} : List (Nat × α) → Nat → List (Nat × α)
  | [], _ => []
  | (k', v) :: t, k => if k' = k then t else (k', v) :: aerase t k

/-- Association-list dict assignment `m[k] = v`. -/
def aset {α : Type} (m : List (Nat × α)) (k : Nat) (v : α) : List (Nat × α) :=
  (k, v) :: aerase m k

/-- `_BookSide`, with `priceMap`/`prices` merged into the ascending
`levels` list (see the header comment). -/
structure BookSide where
  levels : List PriceLevel
  orderMap : List (Nat × Order)
  nOrders : Int
deriving DecidableEq

def emptySide : BookSide := ⟨[], [], 0⟩

/-- Lookup of `priceMap[p]`. -/
def findLevel : List PriceLevel → Int → Option PriceLevel
  | [], _ => none
  | l :: ls, p => if l.price = p then some l else findLevel ls p

/-- Membership test `p in priceMap`. -/
def hasLevel : List PriceLevel → Int → Bool
  | [], _ => false
  | l :: ls, p => l.price = p || hasLevel ls p

/-- In-place mutation of the level object stored at tick `p`. -/
def updateLevel (ℓ : List PriceLevel) (p : Int) (f : PriceLevel → PriceLevel) :
    List PriceLevel :=
  ℓ.map (fun l => if l.price = p then f l else l)

/-- The sorted-position insertion of `_BookSide._ensure_level`: a fresh
empty level is placed before the first strictly greater tick, else at the
end. -/
def insertLevelSorted (p : Int) : List PriceLevel → List PriceLevel
  | [] => [⟨p, [], 0⟩]
  | l :: ls => if p < l.price then ⟨p, [], 0⟩ :: l :: ls else l :: insertLevelSorted p ls

/-- `_BookSide._ensure_level` (existence part; the fresh level is filled by
the caller through `updateLevel`). -/
def ensureLevel (ℓ : List PriceLevel) (p : Int) : List PriceLevel :=
  if hasLevel ℓ p then ℓ else insertLevelSorted p ℓ

/-- Deleting the level at tick `p` from the tick index (`del priceMap[p]`
plus removing the first occurrence from `prices`). -/
def dropLevel : List PriceLevel → Int → List PriceLevel
  | [], _ => []
  | l :: ls, p => if l.price = p then ls else l :: dropLevel ls p

/-- `_BookSide._prune_if_empty`. -/
def pruneIfEmpty (ℓ : List PriceLevel) (p : Int) : List PriceLevel :=
  match findLevel ℓ p with
  | some l => if l.queue.isEmpty then dropLevel ℓ p else ℓ
  | none => ℓ

/-- `_BookSide.insert_order`. -/
def BookSide.insertOrder (bs : BookSide) (o : Order) : BookSide :=
  { levels := updateLevel (ensureLevel bs.levels o.price) o.price (fun l => l.append o)
    orderMap := aset bs.orderMap o.idNum o
    nOrders := bs.nOrders + 1 }

/-- Removal of the first queue entry with the given id (the rebuild loop of
`remove_by_id`); returns the new queue and the removed entry's qty. -/
def removeFirstById : List Order → Nat → List Order × Int
  | [], _ => ([], 0)
  | o :: t, i =>
    if o.idNum = i then (t, o.qty)
    else
      let r := removeFirstById t i
      (o :: r.1, r.2)

/-- `_BookSide.remove_by_id`; `none` models the `KeyError`. -/
def BookSide.removeById (bs : BookSide) (i : Nat) : Option (Order × BookSide) :=
  match alookup bs.orderMap i with
  | none => none
  | some ord =>
    let om := aerase bs.orderMap i
    let ℓ :=
      match findLevel bs.levels ord.price with
      | none => bs.levels
      | some _ =>
        pruneIfEmpty
          (updateLevel bs.levels ord.price (fun l =>
            let r := removeFirstById l.queue i
            { l with queue := r.1, volume := l.volume - r.2 }))
          ord.price
    some (ord, { levels := ℓ, orderMap := om, nOrders := bs.nOrders - 1 })

/-- `best_price_min` (asks): head of the ascending tick list. -/
def BookSide.bestPriceMin (bs : BookSide) : Option Int :=
  bs.levels.head?.map (fun l => l.price)

/-- `best_price_max` (bids): last of the ascending tick list. -/
def BookSide.bestPriceMax (bs : BookSide) : Option Int :=
  bs.levels.getLast?.map (fun l => l.price)

inductive Side | bid | ask
deriving DecidableEq

/-- `tif` strings; any string other than IOC / FOK behaves as GTC. -/
inductive TIF | GTC | IOC | FOK
deriving DecidableEq

/-- `post_only_mode`; any string other than reject behaves as reprice. -/
inductive POMode | reject | reprice
deriving DecidableEq

/-- `type`; any string other than market behaves as limit. -/
inductive OType | limit | market
deriving DecidableEq

/-- Trade Tape entry of `_record_trade` (price kept as the internal tick). -/
structure TapeEntry where
  qty : Int
  price : Int
  taker_tid : Int
  maker_tid : Int
deriving DecidableEq

/-- Element of the returned trade list built in `_process_price_level`
(the source appends only qty and price there). -/
structure RetTrade where
  qty : Int
  price : Int
deriving DecidableEq

/-- Iceberg Registry entry. -/
structure IceInfo where
  price : Int
  display : Int
  remaining : Int
  tid : Int
deriving DecidableEq

/-- `OrderBook` state (the float price-digit multiplier of the Tick
Converter is out of the embedding). -/
structure OrderBook where
  tape : List TapeEntry
  bids : BookSide
  asks : BookSide
  time : Nat
  nextQuoteID : Nat
  icebergs : List (Nat × IceInfo)
deriving DecidableEq

def emptyBook : OrderBook := ⟨[], emptySide, emptySide, 0, 1, []⟩

/-- Order-submission request (`quote` dict).  The price field is the
internal integer tick (see the header comment on the Tick Converter). -/
structure Quote where
  type_ : OType
  side : Side
  qty : Int
  price : Int
  tid : Int
  tif : TIF
  post_only : Bool
  post_only_mode : POMode
  iceberg_total : Option Int
  iceberg_display : Option Int
  idNum : Option Nat
  timestamp : Option Nat
deriving DecidableEq

def OrderBook.tree (bk : OrderBook) : Side → BookSide
  | .bid => bk.bids
  | .ask => bk.asks

def OrderBook.setTree (bk : OrderBook) : Side → BookSide → OrderBook
  | .bid, bs => { bk with bids := bs }
  | .ask, bs => { bk with asks := bs }

def OrderBook.getBestAsk (bk : OrderBook) : Option Int := bk.asks.bestPriceMin

def OrderBook.getBestBid (bk : OrderBook) : Option Int := bk.bids.bestPriceMax

/-- `getVolumeAtPrice` (price given as the internal tick). -/
def OrderBook.getVolumeAtPrice (bk : OrderBook) (side : Side) (p : Int) : Int :=
  match findLevel (bk.tree side).levels p with
  | none => 0
  | some l => l.volume

/-- `_record_trade`. -/
def recordTrade (bk : OrderBook) (qty price taker maker : Int) : OrderBook :=
  { bk with tape := bk.tape ++ [⟨qty, price, taker, maker⟩] }

/-- `_is_marketable`. -/
def isMarketable (bk : OrderBook) (side : Side) (p : Int) : Bool :=
  match side with
  | .bid => match bk.getBestAsk with
    | some ba => decide (p ≥ ba)
    | none => false
  | .ask => match bk.getBestBid with
    | some bb => decide (p ≤ bb)
    | none => false

/-- `_sum_depth_fok`: total opposite-side visible volume at ticks
at-or-better than the limit, read off the sorted tick list exactly as the
source's while loops do. -/
def sumDepthFok (bk : OrderBook) (takerSide : Side) (limit : Int) : Int :=
  match takerSide with
  | .bid => ((bk.asks.levels.takeWhile (fun l => decide (l.price ≤ limit))).map
      (fun l => l.volume)).sum
  | .ask => ((bk.bids.levels.reverse.takeWhile (fun l => decide (l.price ≥ limit))).map
      (fun l => l.volume)).sum

/-- `_reprice_to_passive`. -/
def repriceToPassive (bk : OrderBook) (side : Side) (p : Int) : Int :=
  match side with
  | .bid => bk.getBestBid.getD p
  | .ask => bk.getBestAsk.getD p

/-- `_iceberg_replenish_if_needed`: pop the registry entry of the fully
consumed order; if hidden quantity remains, insert a fresh clip with a
brand-new id at the entry's tick and re-register under the new id. -/
def icebergReplenishIfNeeded (bk : OrderBook) (side : Side) (removed : Order) :
    OrderBook :=
  match alookup bk.icebergs removed.idNum with
  | none => bk
  | some info =>
    let bk1 := { bk with icebergs := aerase bk.icebergs removed.idNum }
    if info.remaining ≤ 0 then bk1
    else
      let clip := min info.display info.remaining
      let newId := bk1.nextQuoteID
      let bk2 := { bk1 with nextQuoteID := bk1.nextQuoteID + 1 }
      let o : Order := ⟨newId, info.tid, info.price, clip, bk2.time⟩
      let bk3 := bk2.setTree side ((bk2.tree side).insertOrder o)
      let rem := info.remaining - clip
      if rem > 0 then
        { bk3 with icebergs := aset bk3.icebergs newId { info with remaining := rem } }
      else bk3

/-- `_process_price_level`: consume from the level at tick `price` on book
side `side` while the incoming quantity lasts, recording trades; on each
full removal clean the id index, prune the level if it emptied, and drive
iceberg replenishment.  The pruned-then-replenished case returns
immediately (detached alias, see the header comment).  Returns (book,
remaining incoming qty, returned trade records). -/
def processPriceLevel (bk : OrderBook) (side : Side) (price : Int) (qty : Int)
    (takerTid : Int) : Nat → OrderBook × Int × List RetTrade
  | 0 => (bk, qty, [])
  | fuel + 1 =>
    match findLevel (bk.tree side).levels price with
    | none => (bk, qty, [])
    | some lvl =>
      if qty ≤ 0 ∨ lvl.queue.isEmpty then (bk, qty, [])
      else
        let r := lvl.consumeHead qty
        let taken := r.1
        let removed := r.2.1
        let lvl' := r.2.2
        let bk1 := bk.setTree side
          { bk.tree side with levels := updateLevel (bk.tree side).levels price (fun _ => lvl') }
        if taken = 0 then (bk1, qty, [])
        else
          let qty' := qty - taken
          let makerTid :=
            match removed with
            | some o => o.tid
            | none =>
              match lvl'.queue.head? with
              | some h => h.tid
              | none => takerTid
          let bk2 := recordTrade bk1 taken price takerTid makerTid
          let tr : RetTrade := ⟨taken, price⟩
          match removed with
          | none =>
            let rec' := processPriceLevel bk2 side price qty' takerTid fuel
            (rec'.1, rec'.2.1, tr :: rec'.2.2)
          | some o =>
            let bk3 :=
              match alookup (bk2.tree side).orderMap o.idNum with
              | some _ => bk2.setTree side
                  { bk2.tree side with
                    orderMap := aerase (bk2.tree side).orderMap o.idNum
                    nOrders := (bk2.tree side).nOrders - 1 }
              | none => bk2
            if lvl'.queue.isEmpty then
              let bk4 := bk3.setTree side
                { bk3.tree side with levels := dropLevel (bk3.tree side).levels price }
              let bk5 := icebergReplenishIfNeeded bk4 side o
              (bk5, qty', [tr])
            else
              let bk4 := icebergReplenishIfNeeded bk3 side o
              let rec' := processPriceLevel bk4 side price qty' takerTid fuel
              (rec'.1, rec'.2.1, tr :: rec'.2.2)

/-- The while loop of `_process_market`: repeatedly consume the best
opposite level until the quantity or the opposite side is exhausted. -/
def processMarketLoop (bk : OrderBook) (side : Side) (qty : Int) (tid : Int) :
    Nat → OrderBook × Int × List RetTrade
  | 0 => (bk, qty, [])
  | fuel + 1 =>
    if qty ≤ 0 then (bk, qty, [])
    else
      match side with
      | .bid =>
        match bk.getBestAsk with
        | none => (bk, qty, [])
        | some ba =>
          let r := processPriceLevel bk .ask ba qty tid fuel
          let r2 := processMarketLoop r.1 side r.2.1 tid fuel
          (r2.1, r2.2.1, r.2.2 ++ r2.2.2)
      | .ask =>
        match bk.getBestBid with
        | none => (bk, qty, [])
        | some bb =>
          let r := processPriceLevel bk .bid bb qty tid fuel
          let r2 := processMarketLoop r.1 side r.2.1 tid fuel
          (r2.1, r2.2.1, r.2.2 ++ r2.2.2)

/-- The crossing while loop of `_process_limit` (same as the market loop
but additionally bounded by the limit price). -/
def processLimitLoop (bk : OrderBook) (side : Side) (price : Int) (qty : Int)
    (tid : Int) : Nat → OrderBook × Int × List RetTrade
  | 0 => (bk, qty, [])
  | fuel + 1 =>
    if qty ≤ 0 then (bk, qty, [])
    else
      match side with
      | .bid =>
        match bk.getBestAsk with
        | none => (bk, qty, [])
        | some ba =>
          if ba > price then (bk, qty, [])
          else
            let r := processPriceLevel bk .ask ba qty tid fuel
            let r2 := processLimitLoop r.1 side price r.2.1 tid fuel
            (r2.1, r2.2.1, r.2.2 ++ r2.2.2)
      | .ask =>
        match bk.getBestBid with
        | none => (bk, qty, [])
        | some bb =>
          if bb < price then (bk, qty, [])
          else
            let r := processPriceLevel bk .bid bb qty tid fuel
            let r2 := processLimitLoop r.1 side price r.2.1 tid fuel
            (r2.1, r2.2.1, r.2.2 ++ r2.2.2)

/-- The residual-resting tail of `_process_limit` (iceberg first post or
plain rest).  `idN`/`ts` are the id and timestamp assigned by
`processOrder`.  Returns the updated book and the resting order. -/
def restResidual (bk : OrderBook) (side : Side) (price residual tid : Int)
    (idN ts : Nat) (ice : Option (Int × Int)) : OrderBook × Order :=
  match ice with
  | some (total, display) =>
    let clip := min display (min total residual)
    let o : Order := ⟨idN, tid, price, clip, ts⟩
    let bk1 := bk.setTree side ((bk.tree side).insertOrder o)
    let remaining := total - clip
    let bk2 :=
      if remaining > 0 then
        { bk1 with icebergs := aset bk1.icebergs idN ⟨price, display, remaining, tid⟩ }
      else bk1
    (bk2, o)
  | none =>
    let o : Order := ⟨idN, tid, price, residual, ts⟩
    (bk.setTree side ((bk.tree side).insertOrder o), o)

/-- The `is_iceberg` condition of `_process_limit`: both fields present. -/
def icePair (q : Quote) : Option (Int × Int) :=
  match q.iceberg_total, q.iceberg_display with
  | some t, some d => some (t, d)
  | _, _ => none

/-- `_process_limit` after the FOK and Post-Only guards, entered with the
(possibly repriced) price: crossing loop, IOC discard, residual rest. -/
def processLimitCore (bk : OrderBook) (q : Quote) (idN ts : Nat) (price : Int)
    (fuel : Nat) : OrderBook × List RetTrade × Option Order :=
  let r := processLimitLoop bk q.side price q.qty q.tid fuel
  let bk1 := r.1
  let qtyLeft := r.2.1
  let trades := r.2.2
  if q.tif = TIF.IOC then (bk1, trades, none)
  else if qtyLeft ≤ 0 then (bk1, trades, none)
  else
    let r2 := restResidual bk1 q.side price qtyLeft q.tid idN ts (icePair q)
    (r2.1, trades, some r2.2)

/-- `_process_limit`: FOK depth precheck, Post-Only guard (reject or
reprice-then-recheck), then the core. -/
def processLimit (bk : OrderBook) (q : Quote) (idN ts : Nat) (fuel : Nat) :
    OrderBook × List RetTrade × Option Order :=
  if q.tif = TIF.FOK ∧ q.qty > sumDepthFok bk q.side q.price then (bk, [], none)
  else
    if q.post_only && isMarketable bk q.side q.price then
      if q.post_only_mode = POMode.reject then (bk, [], none)
      else
        let price := repriceToPassive bk q.side q.price
        if isMarketable bk q.side price then (bk, [], none)
        else processLimitCore bk q idN ts price fuel
    else processLimitCore bk q idN ts q.price fuel

/-- `processOrder`: assign timestamp and id (bumping the clock and the id
counter), then dispatch by order type.  Market orders never return a
resting-order descriptor. -/
def processOrder (bk : OrderBook) (q : Quote) (fuel : Nat) :
    OrderBook × List RetTrade × Option Order :=
  let ts := q.timestamp.getD bk.time
  let bk1 := { bk with time := bk.time + 1 }
  let idbk : Nat × OrderBook :=
    match q.idNum with
    | some i => (i, bk1)
    | none => (bk1.nextQuoteID, { bk1 with nextQuoteID := bk1.nextQuoteID + 1 })
  let idN := idbk.1
  let bk2 := idbk.2
  match q.type_ with
  | .market =>
    let r := processMarketLoop bk2 q.side q.qty q.tid fuel
    (r.1, r.2.2, none)
  | .limit => processLimit bk2 q idN ts fuel

/-! ### Concrete-scenario helpers (shared by several examples below) -/

/-- A plain GTC limit quote with engine-assigned id and timestamp. -/
def mkLimit (s : Side) (qty price tid : Int) : Quote :=
  ⟨.limit, s, qty, price, tid, .GTC, false, .reject, none, none, none, none⟩

/-- A market quote with engine-assigned id and timestamp. -/
def mkMarket (s : Side) (qty tid : Int) : Quote :=
  ⟨.market, s, qty, 0, tid, .GTC, false, .reject, none, none, none, none⟩

/-- Submit a quote with ample fuel and keep the book. -/
def run (bk : OrderBook) (q : Quote) : OrderBook := (processOrder bk q 100).1

/-! ### Claim C9: `consumeHead` characterisation -/

/-- C9.  `consumeHead need` on a Price Level: returns zero taken, no
removal and no state change when the level is empty or `need ≤ 0`;
otherwise it takes exactly `min need head.qty` off the head's remaining
quantity, decrements the aggregate volume by the same amount, and removes
and returns the head exactly when its remaining quantity reaches zero. -/
theorem consumeHead_spec (l : PriceLevel) (need : Int) :
    (l.queue = [] ∨ need ≤ 0 → l.consumeHead need = (0, none, l)) ∧
    (∀ hd tl, l.queue = hd :: tl → 0 < need →
      (l.consumeHead need).1 = min need hd.qty ∧
      (l.consumeHead need).2.2.volume = l.volume - min need hd.qty ∧
      (l.consumeHead need).2.2.price = l.price ∧
      (hd.qty - min need hd.qty = 0 →
        (l.consumeHead need).2.1 = some { hd with qty := 0 } ∧
        (l.consumeHead need).2.2.queue = tl) ∧
      (hd.qty - min need hd.qty ≠ 0 →
        (l.consumeHead need).2.1 = none ∧
        (l.consumeHead need).2.2.queue = { hd with qty := hd.qty - min need hd.qty } :: tl)) := by
  obtain ⟨p, queue, vol⟩ := l
  constructor
  · rintro (hq | hn)
    · simp only at hq
      subst hq
      rfl
    · cases queue with
      | nil => rfl
      | cons hd tl =>
        simp only [PriceLevel.consumeHead, if_pos hn]
  · intro hd tl hq hn
    simp only at hq
    subst hq
    have hn' : ¬ need ≤ 0 := not_le.mpr hn
    by_cases hz : hd.qty - min need hd.qty = 0
    · constructor
      · simp [PriceLevel.consumeHead, hn', hz]
      · constructor
        · simp [PriceLevel.consumeHead, hn', hz]
        · constructor
          · simp [PriceLevel.consumeHead, hn', hz]
          · constructor
            · intro _
              constructor
              · simp [PriceLevel.consumeHead, hn', hz]
              · simp [PriceLevel.consumeHead, hn', hz]
            · intro hcon
              exact absurd hz hcon
    · refine ⟨?_, ?_, ?_, ?_, ?_⟩
      · simp [PriceLevel.consumeHead, hn', hz]
      · simp [PriceLevel.consumeHead, hn', hz]
      · simp [PriceLevel.consumeHead, hn', hz]
      · intro hcon
        exact absurd hcon hz
      · intro _
        constructor
        · simp [PriceLevel.consumeHead, hn', hz]
        · simp [PriceLevel.consumeHead, hn', hz]

/-- Witness for C9 at a concrete level and need. -/
theorem consumeHead_spec_witness :
    let l : PriceLevel := ⟨101, [⟨1, 7, 101, 5, 0⟩, ⟨2, 8, 101, 4, 1⟩], 9⟩
    (l.consumeHead 3).1 = 3 ∧ (l.consumeHead 3).2.2.volume = 6 ∧
    (l.consumeHead 3).2.1 = none := by
  intro l
  have h := (consumeHead_spec l 3).2 ⟨1, 7, 101, 5, 0⟩ [⟨2, 8, 101, 4, 1⟩] rfl (by decide)
  refine ⟨?_, ?_, ?_⟩
  · exact h.1.trans (by decide)
  · exact h.2.1.trans (by decide)
  · exact (h.2.2.2.2 (by decide)).1

/-! ### FOK rejection (claims C1 and C10) -/

/-- Shared helper: the FOK precheck returns before any mutation when the
visible opposite depth within the limit is below the requested quantity. -/
theorem processLimit_fok_reject (bk : OrderBook) (q : Quote) (idN ts fuel : Nat)
    (htif : q.tif = TIF.FOK) (hdepth : sumDepthFok bk q.side q.price < q.qty) :
    processLimit bk q idN ts fuel = (bk, [], none) := by
  simp only [processLimit]
  rw [if_pos ⟨htif, hdepth⟩]

/-- Shared helper: `sumDepthFok` reads only the two book sides. -/
theorem sumDepthFok_congr (bk bk' : OrderBook) (s : Side) (p : Int)
    (hb : bk'.bids = bk.bids) (ha : bk'.asks = bk.asks) :
    sumDepthFok bk' s p = sumDepthFok bk s p := by
  cases s <;> simp [sumDepthFok, hb, ha]

/-- C1.  A FOK limit submission whose requested quantity exceeds the total
opposite-side visible depth at ticks at-or-better than the limit returns an
empty trade list and no resting-order descriptor, and leaves both book
sides, the trade tape and the iceberg registry exactly as they were. -/
theorem fok_atomic_reject (bk : OrderBook) (q : Quote) (fuel : Nat)
    (hty : q.type_ = OType.limit) (htif : q.tif = TIF.FOK)
    (hdepth : sumDepthFok bk q.side q.price < q.qty) :
    (processOrder bk q fuel).2.1 = [] ∧ (processOrder bk q fuel).2.2 = none ∧
    (processOrder bk q fuel).1.bids = bk.bids ∧
    (processOrder bk q fuel).1.asks = bk.asks ∧
    (processOrder bk q fuel).1.tape = bk.tape ∧
    (processOrder bk q fuel).1.icebergs = bk.icebergs := by
  cases hid : q.idNum with
  | none =>
    have h := processLimit_fok_reject
      { bk with time := bk.time + 1, nextQuoteID := bk.nextQuoteID + 1 }
      q bk.nextQuoteID (q.timestamp.getD bk.time) fuel htif
      (by
        rw [sumDepthFok_congr bk
          { bk with time := bk.time + 1, nextQuoteID := bk.nextQuoteID + 1 }
          q.side q.price rfl rfl]
        exact hdepth)
    simp [processOrder, hty, hid, h]
  | some i =>
    have h := processLimit_fok_reject { bk with time := bk.time + 1 } q i
      (q.timestamp.getD bk.time) fuel htif
      (by
        rw [sumDepthFok_congr bk { bk with time := bk.time + 1 } q.side q.price rfl rfl]
        exact hdepth)
    simp [processOrder, hty, hid, h]

/-- Book with one resting iceberg ask: visible clip 3 at tick 101 (order id
1, owner 2), hidden remainder 5 in the registry under key 1. -/
def iceBook1 : OrderBook :=
  run emptyBook { mkLimit .ask 8 101 2 with
    iceberg_total := some 8, iceberg_display := some 3 }

/-- Witness for C1: a FOK bid for 5 at 101 against 3 visible is rejected
with the book untouched. -/
theorem fok_atomic_reject_witness :
    (processOrder iceBook1 { mkLimit .bid 5 101 9 with tif := .FOK } 20).2.1 = [] ∧
    (processOrder iceBook1 { mkLimit .bid 5 101 9 with tif := .FOK } 20).1.asks =
      iceBook1.asks := by
  have h := fok_atomic_reject iceBook1 { mkLimit .bid 5 101 9 with tif := .FOK } 20
    rfl rfl (by decide)
  exact ⟨h.1, h.2.2.2.1⟩

/-- Total hidden (undisclosed) iceberg quantity recorded in the registry. -/
def hiddenRemSum (bk : OrderBook) : Int :=
  (bk.icebergs.map (fun p => p.2.remaining)).sum

/-- C10.  The FOK depth check sums only the visible aggregate volumes of
the opposite side's levels: it is invariant under any change of the
iceberg registry, and a FOK order whose quantity exceeds the visible depth
is rejected even when the hidden registry quantity would have covered the
shortfall. -/
theorem fok_depth_visible_only :
    (∀ (bk : OrderBook) (reg : List (Nat × IceInfo)) (s : Side) (p : Int),
      sumDepthFok { bk with icebergs := reg } s p = sumDepthFok bk s p) ∧
    (∀ (bk : OrderBook) (q : Quote) (fuel : Nat),
      q.type_ = OType.limit → q.tif = TIF.FOK →
      sumDepthFok bk q.side q.price < q.qty →
      q.qty ≤ sumDepthFok bk q.side q.price + hiddenRemSum bk →
      (processOrder bk q fuel).2.1 = [] ∧ (processOrder bk q fuel).2.2 = none ∧
      (processOrder bk q fuel).1.bids = bk.bids ∧
      (processOrder bk q fuel).1.asks = bk.asks) := by
  constructor
  · intro bk reg s p
    exact sumDepthFok_congr bk _ s p rfl rfl
  · intro bk q fuel hty htif hdepth _
    cases hid : q.idNum with
    | none =>
      have h := processLimit_fok_reject
        { bk with time := bk.time + 1, nextQuoteID := bk.nextQuoteID + 1 }
        q bk.nextQuoteID (q.timestamp.getD bk.time) fuel htif
        (by
          rw [sumDepthFok_congr bk
            { bk with time := bk.time + 1, nextQuoteID := bk.nextQuoteID + 1 }
            q.side q.price rfl rfl]
          exact hdepth)
      simp [processOrder, hty, hid, h]
    | some i =>
      have h := processLimit_fok_reject { bk with time := bk.time + 1 } q i
        (q.timestamp.getD bk.time) fuel htif
        (by
          rw [sumDepthFok_congr bk { bk with time := bk.time + 1 } q.side q.price rfl rfl]
          exact hdepth)
      simp [processOrder, hty, hid, h]

/-- Witness for C10: visible depth 3, hidden 5; a FOK bid for 5 (which the
hidden quantity would cover) is still rejected. -/
theorem fok_depth_visible_only_witness :
    sumDepthFok { iceBook1 with icebergs := [] } Side.bid 101 =
      sumDepthFok iceBook1 Side.bid 101 ∧
    (processOrder iceBook1 { mkLimit .bid 5 101 9 with tif := .FOK } 20).2.2 = none := by
  constructor
  · exact fok_depth_visible_only.1 iceBook1 [] Side.bid 101
  · exact (fok_depth_visible_only.2 iceBook1 { mkLimit .bid 5 101 9 with tif := .FOK } 20
      rfl rfl (by decide) (by decide)).2.1

/-! ### Level-list toolkit lemmas -/

theorem consumeHead_price (l : PriceLevel) (need : Int) :
    ((l.consumeHead need).2.2).price = l.price := by
  obtain ⟨p, queue, v⟩ := l
  cases queue with
  | nil => rfl
  | cons hd tl =>
    by_cases h : need ≤ 0
    · simp [PriceLevel.consumeHead, h]
    · by_cases hz : hd.qty - min need hd.qty = 0 <;>
        simp [PriceLevel.consumeHead, h, hz]

@[simp] theorem append_price (l : PriceLevel) (o : Order) :
    (l.append o).price = l.price := rfl

theorem updateLevel_nil (p : Int) (f : PriceLevel → PriceLevel) :
    updateLevel [] p f = [] := rfl

theorem updateLevel_cons (a : PriceLevel) (as : List PriceLevel) (p : Int)
    (f : PriceLevel → PriceLevel) :
    updateLevel (a :: as) p f =
      (if a.price = p then f a else a) :: updateLevel as p f := rfl

theorem insertLevelSorted_cons_lt (p : Int) (a : PriceLevel)
    (as : List PriceLevel) (h : p < a.price) :
    insertLevelSorted p (a :: as) = ⟨p, [], 0⟩ :: a :: as := by
  simp [insertLevelSorted, h]

theorem insertLevelSorted_cons_ge (p : Int) (a : PriceLevel)
    (as : List PriceLevel) (h : ¬ p < a.price) :
    insertLevelSorted p (a :: as) = a :: insertLevelSorted p as := by
  simp [insertLevelSorted, h]

theorem findLevel_some_price (ℓ : List PriceLevel) (p : Int) (l : PriceLevel)
    (h : findLevel ℓ p = some l) : l.price = p := by
  induction ℓ with
  | nil => simp [findLevel] at h
  | cons a as ih =>
    by_cases ha : a.price = p
    · simp [findLevel, ha] at h
      rw [← h]
      exact ha
    · simp [findLevel, ha] at h
      exact ih h

theorem findLevel_none_of_hasLevel_false (ℓ : List PriceLevel) (p : Int)
    (h : hasLevel ℓ p = false) : findLevel ℓ p = none := by
  induction ℓ with
  | nil => rfl
  | cons a as ih =>
    simp only [hasLevel, Bool.or_eq_false_iff, decide_eq_false_iff_not] at h
    simp [findLevel, h.1, ih h.2]

theorem findLevel_isSome_of_hasLevel (ℓ : List PriceLevel) (p : Int)
    (h : hasLevel ℓ p = true) : (findLevel ℓ p).isSome := by
  induction ℓ with
  | nil => simp [hasLevel] at h
  | cons a as ih =>
    by_cases ha : a.price = p
    · simp [findLevel, ha]
    · simp only [hasLevel, Bool.or_eq_true, decide_eq_true_eq] at h
      rcases h with h | h
      · exact absurd h ha
      · simp [findLevel, ha, ih h]

theorem findLevel_insertLevelSorted_self (p : Int) (ℓ : List PriceLevel)
    (h : findLevel ℓ p = none) :
    findLevel (insertLevelSorted p ℓ) p = some ⟨p, [], 0⟩ := by
  induction ℓ with
  | nil => simp [insertLevelSorted, findLevel]
  | cons a as ih =>
    have ha : ¬ a.price = p := by
      intro e
      simp [findLevel, e] at h
    have h' : findLevel as p = none := by
      simpa [findLevel, ha] using h
    by_cases hlt : p < a.price
    · rw [insertLevelSorted_cons_lt p a as hlt]
      simp [findLevel]
    · rw [insertLevelSorted_cons_ge p a as hlt]
      simp [findLevel, ha, ih h']

theorem findLevel_insertLevelSorted_other (p p' : Int) (ℓ : List PriceLevel)
    (h : p' ≠ p) :
    findLevel (insertLevelSorted p ℓ) p' = findLevel ℓ p' := by
  have h' : ¬ (p = p') := fun e => h e.symm
  induction ℓ with
  | nil => simp [insertLevelSorted, findLevel, h']
  | cons a as ih =>
    by_cases hlt : p < a.price
    · rw [insertLevelSorted_cons_lt p a as hlt]
      simp [findLevel, h']
    · rw [insertLevelSorted_cons_ge p a as hlt]
      by_cases ha : a.price = p'
      · simp [findLevel, ha]
      · simp [findLevel, ha, ih]

theorem findLevel_ensureLevel_self (ℓ : List PriceLevel) (p : Int) :
    findLevel (ensureLevel ℓ p) p =
      some ((findLevel ℓ p).getD ⟨p, [], 0⟩) := by
  unfold ensureLevel
  cases hh : hasLevel ℓ p with
  | true =>
    have hs := findLevel_isSome_of_hasLevel ℓ p hh
    obtain ⟨l, hl⟩ := Option.isSome_iff_exists.mp hs
    simp [hl]
  | false =>
    have hn := findLevel_none_of_hasLevel_false ℓ p hh
    simp [findLevel_insertLevelSorted_self p ℓ hn, hn]

theorem findLevel_ensureLevel_other (ℓ : List PriceLevel) (p p' : Int)
    (h : p' ≠ p) :
    findLevel (ensureLevel ℓ p) p' = findLevel ℓ p' := by
  unfold ensureLevel
  cases hh : hasLevel ℓ p with
  | true => simp
  | false => simp [findLevel_insertLevelSorted_other p p' ℓ h]

theorem findLevel_updateLevel_self (ℓ : List PriceLevel) (p : Int)
    (f : PriceLevel → PriceLevel) (hf : ∀ l, (f l).price = l.price) :
    findLevel (updateLevel ℓ p f) p = (findLevel ℓ p).map f := by
  induction ℓ with
  | nil => simp [updateLevel_nil, findLevel]
  | cons a as ih =>
    rw [updateLevel_cons]
    by_cases ha : a.price = p
    · simp [findLevel, ha, hf a]
    · simp [findLevel, ha, ih]

theorem findLevel_updateLevel_other (ℓ : List PriceLevel) (p p' : Int)
    (f : PriceLevel → PriceLevel) (hf : ∀ l, (f l).price = l.price)
    (h : p' ≠ p) :
    findLevel (updateLevel ℓ p f) p' = findLevel ℓ p' := by
  induction ℓ with
  | nil => simp [updateLevel_nil]
  | cons a as ih =>
    rw [updateLevel_cons]
    by_cases ha : a.price = p
    · rw [if_pos ha]
      have hfa : (f a).price = a.price := hf a
      have ha' : ¬ (f a).price = p' := by
        rw [hfa, ha]
        exact fun e => h e.symm
      have ha'' : ¬ a.price = p' := by
        rw [ha]
        exact fun e => h e.symm
      simp [findLevel, ha', ha'', ih]
    · rw [if_neg ha]
      by_cases hap : a.price = p'
      · simp [findLevel, hap]
      · simp [findLevel, hap, ih]

theorem dropLevel_cons (a : PriceLevel) (as : List PriceLevel) (p : Int) :
    dropLevel (a :: as) p = if a.price = p then as else a :: dropLevel as p := rfl

theorem findLevel_dropLevel_other (ℓ : List PriceLevel) (p p' : Int)
    (h : p' ≠ p) :
    findLevel (dropLevel ℓ p) p' = findLevel ℓ p' := by
  induction ℓ with
  | nil => rfl
  | cons a as ih =>
    rw [dropLevel_cons]
    by_cases ha : a.price = p
    · rw [if_pos ha]
      have ha' : ¬ a.price = p' := by
        rw [ha]
        exact fun e => h e.symm
      simp [findLevel, ha']
    · rw [if_neg ha]
      by_cases hap : a.price = p'
      · simp [findLevel, hap]
      · simp [findLevel, hap, ih]

/-- Aggregate visible volume of the level at tick `p` (0 if absent). -/
def volAt (ℓ : List PriceLevel) (p : Int) : Int :=
  match findLevel ℓ p with
  | none => 0
  | some l => l.volume

theorem volAt_insertOrder (bs : BookSide) (o : Order) :
    volAt (bs.insertOrder o).levels o.price = volAt bs.levels o.price + o.qty := by
  unfold volAt BookSide.insertOrder
  rw [findLevel_updateLevel_self (ensureLevel bs.levels o.price) o.price
    (fun l => l.append o) (fun l => rfl), findLevel_ensureLevel_self]
  cases h : findLevel bs.levels o.price with
  | none => simp [h, PriceLevel.append]
  | some l => simp [h, PriceLevel.append]

/-! ### Frame lemmas for the state-threading helpers -/

@[simp] theorem setTree_tape (bk : OrderBook) (s : Side) (bs : BookSide) :
    (bk.setTree s bs).tape = bk.tape := by cases s <;> rfl

@[simp] theorem setTree_icebergs (bk : OrderBook) (s : Side) (bs : BookSide) :
    (bk.setTree s bs).icebergs = bk.icebergs := by cases s <;> rfl

@[simp] theorem setTree_time (bk : OrderBook) (s : Side) (bs : BookSide) :
    (bk.setTree s bs).time = bk.time := by cases s <;> rfl

@[simp] theorem setTree_nextQuoteID (bk : OrderBook) (s : Side) (bs : BookSide) :
    (bk.setTree s bs).nextQuoteID = bk.nextQuoteID := by cases s <;> rfl

@[simp] theorem tree_setTree_same (bk : OrderBook) (s : Side) (bs : BookSide) :
    (bk.setTree s bs).tree s = bs := by cases s <;> rfl

theorem tree_setTree_other (bk : OrderBook) (s s' : Side) (bs : BookSide)
    (h : s' ≠ s) : (bk.setTree s bs).tree s' = bk.tree s' := by
  cases s <;> cases s' <;> first | rfl | exact absurd rfl h

@[simp] theorem recordTrade_tape (bk : OrderBook) (qty price tk mk : Int) :
    (recordTrade bk qty price tk mk).tape = bk.tape ++ [⟨qty, price, tk, mk⟩] := rfl

@[simp] theorem recordTrade_tree (bk : OrderBook) (qty price tk mk : Int) (s : Side) :
    (recordTrade bk qty price tk mk).tree s = bk.tree s := by cases s <;> rfl

@[simp] theorem recordTrade_icebergs (bk : OrderBook) (qty price tk mk : Int) :
    (recordTrade bk qty price tk mk).icebergs = bk.icebergs := rfl

@[simp] theorem recordTrade_time (bk : OrderBook) (qty price tk mk : Int) :
    (recordTrade bk qty price tk mk).time = bk.time := rfl

@[simp] theorem recordTrade_nextQuoteID (bk : OrderBook) (qty price tk mk : Int) :
    (recordTrade bk qty price tk mk).nextQuoteID = bk.nextQuoteID := rfl

theorem icebergReplenish_tape (bk : OrderBook) (s : Side) (o : Order) :
    (icebergReplenishIfNeeded bk s o).tape = bk.tape := by
  unfold icebergReplenishIfNeeded
  split
  · rfl
  · split
    · rfl
    · simp [apply_ite (fun b : OrderBook => b.tape)]

/-! ### Claim C2: absence of InvalidRequest validation -/

theorem processLimitLoop_nonpos (bk : OrderBook) (side : Side) (price qty tid : Int)
    (fuel : Nat) (h : qty ≤ 0) :
    processLimitLoop bk side price qty tid fuel = (bk, qty, []) := by
  cases fuel with
  | zero => rfl
  | succ n => simp [processLimitLoop, h]

theorem processLimit_nonpos (bk : OrderBook) (q : Quote) (idN ts fuel : Nat)
    (h : q.qty ≤ 0) : processLimit bk q idN ts fuel = (bk, [], none) := by
  have hcore : ∀ price, processLimitCore bk q idN ts price fuel = (bk, [], none) := by
    intro price
    simp [processLimitCore, processLimitLoop_nonpos bk q.side price q.qty q.tid fuel h, h]
  simp only [processLimit]
  split
  · rfl
  · split
    · split
      · rfl
      · split
        · rfl
        · exact hcore _
    · exact hcore _

/-- C2 (amended).  The engine performs no InvalidRequest validation: a
limit submission with non-positive quantity is processed normally — empty
trade list, no resting order, book sides, tape and registry untouched —
while the engine's clock counter still advances (so the engine state is not
left fully unchanged, and no error is raised). -/
theorem nonpos_qty_no_validation (bk : OrderBook) (q : Quote) (fuel : Nat)
    (hty : q.type_ = OType.limit) (hq : q.qty ≤ 0) :
    (processOrder bk q fuel).2.1 = [] ∧ (processOrder bk q fuel).2.2 = none ∧
    (processOrder bk q fuel).1.bids = bk.bids ∧
    (processOrder bk q fuel).1.asks = bk.asks ∧
    (processOrder bk q fuel).1.tape = bk.tape ∧
    (processOrder bk q fuel).1.icebergs = bk.icebergs ∧
    (processOrder bk q fuel).1.time = bk.time + 1 := by
  cases hid : q.idNum with
  | none => simp [processOrder, hty, hid, processLimit_nonpos _ q _ _ fuel hq]
  | some i => simp [processOrder, hty, hid, processLimit_nonpos _ q _ _ fuel hq]

/-- Witness for C2 (amended) at a concrete zero-quantity submission. -/
theorem nonpos_qty_no_validation_witness :
    (processOrder emptyBook (mkLimit .ask 0 50 3) 10).2.1 = [] ∧
    (processOrder emptyBook (mkLimit .ask 0 50 3) 10).1.time = emptyBook.time + 1 :=
  ⟨(nonpos_qty_no_validation emptyBook (mkLimit .ask 0 50 3) 10 rfl (by decide)).1,
   (nonpos_qty_no_validation emptyBook (mkLimit .ask 0 50 3) 10 rfl (by decide)).2.2.2.2.2.2⟩

/-- Counterexample to C2 as stated: a zero-quantity limit submission does
not raise any error before state mutation — the call completes normally and
the engine's counters do change (time 0 becomes 1, next id 1 becomes 2);
likewise an iceberg submission with display 0 is accepted and even rests. -/
theorem invalid_request_counterexample :
    (processOrder emptyBook (mkLimit .bid 0 100 5) 10).2.1 = [] ∧
    (processOrder emptyBook (mkLimit .bid 0 100 5) 10).2.2 = none ∧
    (processOrder emptyBook (mkLimit .bid 0 100 5) 10).1.time = 1 ∧
    (processOrder emptyBook (mkLimit .bid 0 100 5) 10).1.nextQuoteID = 2 ∧
    emptyBook.time = 0 ∧ emptyBook.nextQuoteID = 1 ∧
    (processOrder emptyBook { mkLimit .ask 5 101 2 with
      iceberg_total := some 5, iceberg_display := some 0 } 10).2.2.isSome = true := by
  decide

/-! ### Claim C3: remove-by-id and the Iceberg Registry -/

/-- C3 (code bug).  In `iceBook1` the iceberg's visible clip rests as order
id 1 and the registry holds hidden remainder 5 under key 1.
`remove_by_id(1)` removes the resting order (the id index and the level
are cleared) but the Iceberg Registry entry keyed by the cancelled id
survives untouched, violating the registry invariant the claim states. -/
theorem removeById_leaves_registry_entry :
    (iceBook1.asks.removeById 1).map (fun r => alookup r.2.orderMap 1) = some none ∧
    (iceBook1.asks.removeById 1).map (fun r => r.2.levels) = some [] ∧
    alookup iceBook1.icebergs 1 = some ⟨101, 3, 5, 2⟩ := by
  decide

/-! ### Claim C5: contents of returned trade records -/

/-- Book with a single resting ask of 5 at tick 101 owned by 1. -/
def askBook1 : OrderBook := run emptyBook (mkLimit .ask 5 101 1)

/-- Counterexample to C5 as stated: two submissions identical except for
the taker's owner identifier return identical trade lists, so the returned
trade records cannot contain the taker (or maker) owner; those are recorded
only on the trade tape. -/
theorem returned_trades_lack_owners :
    (processOrder askBook1 (mkMarket .bid 5 7) 20).2.1 = [⟨5, 101⟩] ∧
    (processOrder askBook1 (mkMarket .bid 5 8) 20).2.1 = [⟨5, 101⟩] ∧
    (7 : Int) ≠ 8 ∧
    (processOrder askBook1 (mkMarket .bid 5 7) 20).1.tape =
      askBook1.tape ++ [⟨5, 101, 7, 1⟩] := by
  decide

/-! ### Claim C4: iceberg conservation -/

theorem alookup_aset_self {α : Type} (m : List (Nat × α)) (k : Nat) (v : α) :
    alookup (aset m k v) k = some v := by
  simp [aset, alookup]

/-- Counterexample to C4 as stated: against a resting ask of 5 at 101, an
iceberg bid (total 12, display 5) first executes 5 on arrival, then rests a
visible clip of 5 and registers hidden remainder 12 − 5 = 7: the registered
remainder ignores the arrival execution, so visible 5 + hidden 7 +
executed 5 = 17 exceeds the declared total 12. -/
theorem iceberg_total_overcount_counterexample :
    (processOrder askBook1 { mkLimit .bid 12 101 2 with
      iceberg_total := some 12, iceberg_display := some 5 } 20).2.1 = [⟨5, 101⟩] ∧
    (processOrder askBook1 { mkLimit .bid 12 101 2 with
      iceberg_total := some 12, iceberg_display := some 5 } 20).2.2.map
        (fun o => o.qty) = some 5 ∧
    (processOrder askBook1 { mkLimit .bid 12 101 2 with
      iceberg_total := some 12, iceberg_display := some 5 } 20).1.icebergs.map
        (fun p => p.2.remaining) = [7] ∧
    (5 : Int) + 7 + 5 ≠ 12 := by
  decide

/-- C4 (amended).  The conservation the code actually maintains relates the
declared total to the resting clip and the registered remainder only —
quantity executed by the incoming iceberg before it first rests is not
deducted.  (a) At first post, the visible clip plus the registered hidden
remainder equals the declared total.  (b) Each replenishment moves exactly
`min(display, remaining)` from the hidden remainder to the visible level
volume, and the moved clip plus the re-registered remainder equals the
previous remainder (the entry being deleted when it reaches zero). -/
theorem iceberg_conservation :
    (∀ (bk : OrderBook) (side : Side) (price residual tid total display : Int)
        (idN ts : Nat),
      alookup bk.icebergs idN = none →
      (restResidual bk side price residual tid idN ts (some (total, display))).2.qty +
        (match alookup (restResidual bk side price residual tid idN ts
            (some (total, display))).1.icebergs idN with
         | some info => info.remaining
         | none => 0) = total) ∧
    (∀ (bk : OrderBook) (side : Side) (o : Order) (info : IceInfo),
      alookup bk.icebergs o.idNum = some info →
      0 < info.remaining →
      alookup (aerase bk.icebergs o.idNum) bk.nextQuoteID = none →
      volAt ((icebergReplenishIfNeeded bk side o).tree side).levels info.price =
        volAt (bk.tree side).levels info.price + min info.display info.remaining ∧
      min info.display info.remaining +
        (match alookup (icebergReplenishIfNeeded bk side o).icebergs bk.nextQuoteID with
         | some info' => info'.remaining
         | none => 0) = info.remaining) := by
  constructor
  · intro bk side price residual tid total display idN ts hnone
    have hclip : min display (min total residual) ≤ total :=
      le_trans (min_le_right _ _) (min_le_left _ _)
    by_cases hrem : total - min display (min total residual) > 0
    · simp only [restResidual]
      rw [if_pos hrem]
      simp [alookup_aset_self]
    · simp only [restResidual]
      rw [if_neg hrem]
      simp [hnone]
      all_goals omega
  · intro bk side o info hinfo hpos hfresh
    have hclip : min info.display info.remaining ≤ info.remaining :=
      min_le_right _ _
    have hnle : ¬ info.remaining ≤ 0 := not_le.mpr hpos
    cases side with
    | bid =>
      by_cases hrem : info.remaining - min info.display info.remaining > 0
      · constructor
        · simp only [icebergReplenishIfNeeded, hinfo]
          rw [if_neg hnle, if_pos hrem]
          simpa using volAt_insertOrder bk.bids ⟨bk.nextQuoteID, info.tid,
            info.price, min info.display info.remaining, bk.time⟩
        · simp only [icebergReplenishIfNeeded, hinfo]
          rw [if_neg hnle, if_pos hrem]
          simp [alookup_aset_self]
      · constructor
        · simp only [icebergReplenishIfNeeded, hinfo]
          rw [if_neg hnle, if_neg hrem]
          simpa using volAt_insertOrder bk.bids ⟨bk.nextQuoteID, info.tid,
            info.price, min info.display info.remaining, bk.time⟩
        · simp only [icebergReplenishIfNeeded, hinfo]
          rw [if_neg hnle, if_neg hrem]
          simp [hfresh]
          all_goals omega
    | ask =>
      by_cases hrem : info.remaining - min info.display info.remaining > 0
      · constructor
        · simp only [icebergReplenishIfNeeded, hinfo]
          rw [if_neg hnle, if_pos hrem]
          simpa using volAt_insertOrder bk.asks ⟨bk.nextQuoteID, info.tid,
            info.price, min info.display info.remaining, bk.time⟩
        · simp only [icebergReplenishIfNeeded, hinfo]
          rw [if_neg hnle, if_pos hrem]
          simp [alookup_aset_self]
      · constructor
        · simp only [icebergReplenishIfNeeded, hinfo]
          rw [if_neg hnle, if_neg hrem]
          simpa using volAt_insertOrder bk.asks ⟨bk.nextQuoteID, info.tid,
            info.price, min info.display info.remaining, bk.time⟩
        · simp only [icebergReplenishIfNeeded, hinfo]
          rw [if_neg hnle, if_neg hrem]
          simp [hfresh]
          all_goals omega

/-- Witness for C4 (amended) at concrete registration and replenishment
steps. -/
theorem iceberg_conservation_witness :
    ((restResidual emptyBook .ask 101 5 2 1 0 (some (8, 3))).2.qty +
      (match alookup (restResidual emptyBook .ask 101 5 2 1 0
          (some (8, 3))).1.icebergs 1 with
       | some info => info.remaining
       | none => 0) = 8) ∧
    (min (3 : Int) 5 +
      (match alookup (icebergReplenishIfNeeded iceBook1 .ask
          ⟨1, 2, 101, 3, 0⟩).icebergs iceBook1.nextQuoteID with
       | some info' => info'.remaining
       | none => 0) = 5) :=
  ⟨iceberg_conservation.1 emptyBook .ask 101 5 2 8 3 1 0 (by decide),
   (iceberg_conservation.2 iceBook1 .ask ⟨1, 2, 101, 3, 0⟩ ⟨101, 3, 5, 2⟩
     (by decide) (by decide) (by decide)).2⟩

/-! ### Claim C7: Post-Only reprice -/

theorem getBest_congr (bk bk' : OrderBook)
    (hb : bk'.bids = bk.bids) (ha : bk'.asks = bk.asks) :
    bk'.getBestAsk = bk.getBestAsk ∧ bk'.getBestBid = bk.getBestBid := by
  simp [OrderBook.getBestAsk, OrderBook.getBestBid, hb, ha]

theorem isMarketable_congr (bk bk' : OrderBook) (s : Side) (p : Int)
    (hb : bk'.bids = bk.bids) (ha : bk'.asks = bk.asks) :
    isMarketable bk' s p = isMarketable bk s p := by
  cases s <;>
    simp [isMarketable, (getBest_congr bk bk' hb ha).1, (getBest_congr bk bk' hb ha).2]

theorem processLimitLoop_not_marketable (bk : OrderBook) (side : Side)
    (price qty tid : Int) (fuel : Nat)
    (h : isMarketable bk side price = false) :
    processLimitLoop bk side price qty tid fuel = (bk, qty, []) := by
  cases fuel with
  | zero => rfl
  | succ n =>
    by_cases hq : qty ≤ 0
    · simp [processLimitLoop, hq]
    · cases side with
      | bid =>
        cases hba : bk.getBestAsk with
        | none => simp [processLimitLoop, hq, hba]
        | some ba =>
          have : ¬ price ≥ ba := by
            simpa [isMarketable, hba] using h
          simp [processLimitLoop, hq, hba, (show ba > price by omega)]
      | ask =>
        cases hbb : bk.getBestBid with
        | none => simp [processLimitLoop, hq, hbb]
        | some bb =>
          have : ¬ price ≤ bb := by
            simpa [isMarketable, hbb] using h
          simp [processLimitLoop, hq, hbb, (show bb < price by omega)]

/-- The own-side best price consulted by `_reprice_to_passive`. -/
def ownBest (bk : OrderBook) : Side → Option Int
  | .bid => bk.getBestBid
  | .ask => bk.getBestAsk

theorem restResidual_price (bk : OrderBook) (side : Side)
    (price residual tid : Int) (idN ts : Nat) (ice : Option (Int × Int)) :
    (restResidual bk side price residual tid idN ts ice).2.price = price := by
  cases ice with
  | none => rfl
  | some p =>
    obtain ⟨t, d⟩ := p
    rfl

theorem repriceToPassive_eq_ownBest (bk : OrderBook) (s : Side) (p b : Int)
    (h : ownBest bk s = some b) : repriceToPassive bk s p = b := by
  cases s <;> simp_all [repriceToPassive, ownBest]

theorem post_only_reprice_core (bk2 bk : OrderBook) (q : Quote) (fuel : Nat)
    (b : Int) (idN ts : Nat)
    (hb : bk2.bids = bk.bids) (ha : bk2.asks = bk.asks)
    (htif : q.tif = TIF.GTC) (hpo : q.post_only = true)
    (hmode : q.post_only_mode = POMode.reprice) (hqty : 0 < q.qty)
    (hmk : isMarketable bk q.side q.price = true)
    (hbest : ownBest bk q.side = some b) :
    (processLimit bk2 q idN ts fuel).2.1 = [] ∧
    (isMarketable bk q.side b = true →
      (processLimit bk2 q idN ts fuel).2.2 = none ∧
      (processLimit bk2 q idN ts fuel).1.bids = bk.bids ∧
      (processLimit bk2 q idN ts fuel).1.asks = bk.asks) ∧
    (isMarketable bk q.side b = false →
      (processLimit bk2 q idN ts fuel).2.2.map (fun o => o.price) = some b) := by
  have hbest2 : ownBest bk2 q.side = some b := by
    cases hs : q.side <;>
      simp_all [ownBest, OrderBook.getBestAsk, OrderBook.getBestBid]
  have hnfok : ¬ (q.tif = TIF.FOK ∧ q.qty > sumDepthFok bk2 q.side q.price) := by
    intro hc
    rw [htif] at hc
    exact absurd hc.1 (by decide)
  have hmk2 : isMarketable bk2 q.side q.price = true := by
    rw [isMarketable_congr bk bk2 q.side q.price hb ha]
    exact hmk
  have hguard : (q.post_only && isMarketable bk2 q.side q.price) = true := by
    rw [hpo, hmk2]
    rfl
  have hnreject : ¬ q.post_only_mode = POMode.reject := by
    rw [hmode]
    exact (by decide)
  have hrp : repriceToPassive bk2 q.side q.price = b :=
    repriceToPassive_eq_ownBest bk2 q.side q.price b hbest2
  have hmkb : isMarketable bk2 q.side b = isMarketable bk q.side b :=
    isMarketable_congr bk bk2 q.side b hb ha
  simp only [processLimit, if_neg hnfok, hguard, if_true, if_neg hnreject, hrp, hmkb]
  cases hM : isMarketable bk q.side b with
  | true =>
    simp only [if_true]
    refine ⟨by trivial, ?_, ?_⟩
    · intro _
      exact ⟨by trivial, hb, ha⟩
    · intro hfalse
      simp [hM] at hfalse
  | false =>
    simp only [Bool.false_eq_true, if_false]
    have hloop := processLimitLoop_not_marketable bk2 q.side b q.qty q.tid fuel
      (by rw [hmkb]; exact hM)
    have hnioc : ¬ q.tif = TIF.IOC := by
      rw [htif]
      exact (by decide)
    have hnqle : ¬ q.qty ≤ 0 := not_le.mpr hqty
    simp only [processLimitCore, hloop, if_neg hnioc, if_neg hnqle]
    refine ⟨by trivial, ?_, ?_⟩
    · intro htrue
      simp [hM] at htrue
    · intro _
      simp [restResidual_price]

/-- C7 (amended).  A marketable Post-Only "reprice" limit submission with
positive quantity and GTC time-in-force whose own side is non-empty (best
price `b`) produces no trade; if the repriced order is still marketable it
is rejected in full (book sides unchanged, no resting order), otherwise it
rests at `b`, the own side's pre-submission best price.  (The restriction
to GTC and positive quantity is forced by the counterexample: an IOC — or
non-positive-quantity — Post-Only reprice submission does not rest.) -/
theorem post_only_reprice_rests_at_own_best (bk : OrderBook) (q : Quote)
    (fuel : Nat) (b : Int)
    (hty : q.type_ = OType.limit) (htif : q.tif = TIF.GTC)
    (hpo : q.post_only = true) (hmode : q.post_only_mode = POMode.reprice)
    (hqty : 0 < q.qty)
    (hmk : isMarketable bk q.side q.price = true)
    (hbest : ownBest bk q.side = some b) :
    (processOrder bk q fuel).2.1 = [] ∧
    (isMarketable bk q.side b = true →
      (processOrder bk q fuel).2.2 = none ∧
      (processOrder bk q fuel).1.bids = bk.bids ∧
      (processOrder bk q fuel).1.asks = bk.asks) ∧
    (isMarketable bk q.side b = false →
      (processOrder bk q fuel).2.2.map (fun o => o.price) = some b) := by
  cases hid : q.idNum with
  | none =>
    have key := post_only_reprice_core
      { bk with time := bk.time + 1, nextQuoteID := bk.nextQuoteID + 1 }
      bk q fuel b bk.nextQuoteID (q.timestamp.getD bk.time) rfl rfl htif hpo hmode
      hqty hmk hbest
    simp only [processOrder, hty, hid]
    exact key
  | some i =>
    have key := post_only_reprice_core { bk with time := bk.time + 1 }
      bk q fuel b i (q.timestamp.getD bk.time) rfl rfl htif hpo hmode
      hqty hmk hbest
    simp only [processOrder, hty, hid]
    exact key

/-- Book with a resting ask 5 at 101 (owner 1) and a resting bid 3 at 99
(owner 2). -/
def poBook : OrderBook :=
  run (run emptyBook (mkLimit .ask 5 101 1)) (mkLimit .bid 3 99 2)

/-- Witness for C7 (amended): a marketable GTC Post-Only reprice bid at 102
with own best 99 rests at 99 without trading. -/
theorem post_only_reprice_rests_at_own_best_witness :
    (processOrder poBook { mkLimit .bid 3 102 4 with
      post_only := true, post_only_mode := .reprice } 20).2.1 = [] ∧
    (processOrder poBook { mkLimit .bid 3 102 4 with
      post_only := true, post_only_mode := .reprice } 20).2.2.map
        (fun o => o.price) = some 99 := by
  have h := post_only_reprice_rests_at_own_best poBook
    { mkLimit .bid 3 102 4 with post_only := true, post_only_mode := .reprice }
    20 99 rfl rfl rfl rfl (by decide) (by decide) (by decide)
  exact ⟨h.1, h.2.2 (by decide)⟩

/-- Counterexample to C7 as stated: an IOC Post-Only reprice bid that is
marketable (102 would cross the ask at 101) with a non-empty own side
(best bid 99) is discarded by the IOC disposition and does not rest. -/
theorem post_only_reprice_ioc_counterexample :
    isMarketable poBook .bid 101 = true ∧
    poBook.getBestBid = some 99 ∧
    (processOrder poBook { mkLimit .bid 2 101 3 with
      tif := .IOC, post_only := true, post_only_mode := .reprice } 20).2.1 = [] ∧
    (processOrder poBook { mkLimit .bid 2 101 3 with
      tif := .IOC, post_only := true, post_only_mode := .reprice } 20).2.2 = none := by
  decide

/-! ### Claim C5 (amended): tape / returned-trade correspondence -/

/-- Each `_process_price_level` call appends to the tape exactly one entry
per returned trade record, matching it in quantity and (tick) price, with
the taker field equal to the incoming order's owner. -/
theorem ppl_tape (side : Side) (price tid : Int) :
    ∀ (fuel : Nat) (bk : OrderBook) (qty : Int),
      ∃ delta : List TapeEntry,
        (processPriceLevel bk side price qty tid fuel).1.tape = bk.tape ++ delta ∧
        delta.map (fun t => (t.qty, t.price)) =
          ((processPriceLevel bk side price qty tid fuel).2.2).map
            (fun t => (t.qty, t.price)) ∧
        ∀ t ∈ delta, t.taker_tid = tid := by
  intro fuel
  induction fuel with
  | zero =>
    intro bk qty
    exact ⟨[], by simp [processPriceLevel], by simp [processPriceLevel], by simp⟩
  | succ fuel ih =>
    intro bk qty
    cases hfl : findLevel ((bk.tree side).levels) price with
    | none =>
      exact ⟨[], by simp [processPriceLevel, hfl], by simp [processPriceLevel, hfl],
        by simp⟩
    | some lvl =>
      by_cases hq0 : qty ≤ 0 ∨ lvl.queue.isEmpty = true
      · have hq0' : qty ≤ 0 ∨ lvl.queue = [] := by simpa using hq0
        exact ⟨[], by simp [processPriceLevel, hfl, hq0'],
          by simp [processPriceLevel, hfl, hq0'], by simp⟩
      · rcases hch : lvl.consumeHead qty with ⟨taken, removed, lvl'⟩
        have hq0' : ¬ (qty ≤ 0 ∨ lvl.queue = []) := by simpa using hq0
        by_cases ht0 : taken = 0
        · refine ⟨[], ?_, ?_, by simp⟩ <;>
            simp [processPriceLevel, hfl, hq0', hch, ht0]
        · simp only [processPriceLevel, hfl, hch, if_neg hq0, if_neg ht0]
          set bk1 := bk.setTree side
            { bk.tree side with
              levels := updateLevel (bk.tree side).levels price (fun _ => lvl') }
            with hbk1
          cases removed with
          | none =>
            set mTid := (match lvl'.queue.head? with
              | some h => h.tid
              | none => tid) with hmTid
            set bk2 := recordTrade bk1 taken price tid mTid with hbk2
            obtain ⟨d', h1, h2, h3⟩ := ih bk2 (qty - taken)
            refine ⟨⟨taken, price, tid, mTid⟩ :: d', ?_, ?_, ?_⟩
            · simp only [h1, hbk2, recordTrade_tape, hbk1, setTree_tape]
              simp
            · simpa using h2
            · intro t ht
              rcases List.mem_cons.mp ht with h | h
              · rw [h]
              · exact h3 t h
          | some o =>
            set bk2 := recordTrade bk1 taken price tid o.tid with hbk2
            have hbk2tape : bk2.tape = bk.tape ++ [⟨taken, price, tid, o.tid⟩] := by
              simp [hbk2, hbk1]
            cases halo : alookup (bk2.tree side).orderMap o.idNum with
            | none =>
              simp only [halo]
              by_cases hpe : lvl'.queue.isEmpty = true
              · simp only [if_pos hpe]
                refine ⟨[⟨taken, price, tid, o.tid⟩], ?_, by simp, ?_⟩
                · rw [icebergReplenish_tape, setTree_tape, hbk2tape]
                · intro t ht
                  rcases List.mem_cons.mp ht with h | h
                  · rw [h]
                  · simp at h
              · simp only [if_neg hpe]
                set bk4 := icebergReplenishIfNeeded bk2 side o with hbk4
                have hbk4tape : bk4.tape = bk.tape ++ [⟨taken, price, tid, o.tid⟩] := by
                  rw [hbk4, icebergReplenish_tape, hbk2tape]
                obtain ⟨d', h1, h2, h3⟩ := ih bk4 (qty - taken)
                refine ⟨⟨taken, price, tid, o.tid⟩ :: d', ?_, ?_, ?_⟩
                · rw [h1, hbk4tape]
                  simp
                · simpa using h2
                · intro t ht
                  rcases List.mem_cons.mp ht with h | h
                  · rw [h]
                  · exact h3 t h
            | some o' =>
              simp only [halo]
              set bk3 := bk2.setTree side
                { bk2.tree side with
                  orderMap := aerase (bk2.tree side).orderMap o.idNum
                  nOrders := (bk2.tree side).nOrders - 1 } with hbk3
              have hbk3tape : bk3.tape = bk.tape ++ [⟨taken, price, tid, o.tid⟩] := by
                rw [hbk3, setTree_tape, hbk2tape]
              by_cases hpe : lvl'.queue.isEmpty = true
              · simp only [if_pos hpe]
                refine ⟨[⟨taken, price, tid, o.tid⟩], ?_, by simp, ?_⟩
                · rw [icebergReplenish_tape, setTree_tape, hbk3tape]
                · intro t ht
                  rcases List.mem_cons.mp ht with h | h
                  · rw [h]
                  · simp at h
              · simp only [if_neg hpe]
                set bk4 := icebergReplenishIfNeeded bk3 side o with hbk4
                have hbk4tape : bk4.tape = bk.tape ++ [⟨taken, price, tid, o.tid⟩] := by
                  rw [hbk4, icebergReplenish_tape, hbk3tape]
                obtain ⟨d', h1, h2, h3⟩ := ih bk4 (qty - taken)
                refine ⟨⟨taken, price, tid, o.tid⟩ :: d', ?_, ?_, ?_⟩
                · rw [h1, hbk4tape]
                  simp
                · simpa using h2
                · intro t ht
                  rcases List.mem_cons.mp ht with h | h
                  · rw [h]
                  · exact h3 t h

theorem pml_tape (side : Side) (tid : Int) :
    ∀ (fuel : Nat) (bk : OrderBook) (qty : Int),
      ∃ delta : List TapeEntry,
        (processMarketLoop bk side qty tid fuel).1.tape = bk.tape ++ delta ∧
        delta.map (fun t => (t.qty, t.price)) =
          ((processMarketLoop bk side qty tid fuel).2.2).map
            (fun t => (t.qty, t.price)) ∧
        ∀ t ∈ delta, t.taker_tid = tid := by
  intro fuel
  induction fuel with
  | zero =>
    intro bk qty
    exact ⟨[], by simp [processMarketLoop], by simp [processMarketLoop], by simp⟩
  | succ fuel ih =>
    intro bk qty
    by_cases hq : qty ≤ 0
    · exact ⟨[], by simp [processMarketLoop, hq], by simp [processMarketLoop, hq],
        by simp⟩
    · cases side with
      | bid =>
        cases hba : bk.getBestAsk with
        | none =>
          exact ⟨[], by simp [processMarketLoop, hq, hba],
            by simp [processMarketLoop, hq, hba], by simp⟩
        | some ba =>
          obtain ⟨d1, g1, g2, g3⟩ := ppl_tape .ask ba tid fuel bk qty
          obtain ⟨d2, k1, k2, k3⟩ := ih (processPriceLevel bk .ask ba qty tid fuel).1
            (processPriceLevel bk .ask ba qty tid fuel).2.1
          refine ⟨d1 ++ d2, ?_, ?_, ?_⟩
          · simp only [processMarketLoop, if_neg hq, hba]
            rw [k1, g1, List.append_assoc]
          · simp only [processMarketLoop, if_neg hq, hba, List.map_append, g2, k2]
          · intro t ht
            rcases List.mem_append.mp ht with h | h
            · exact g3 t h
            · exact k3 t h
      | ask =>
        cases hbb : bk.getBestBid with
        | none =>
          exact ⟨[], by simp [processMarketLoop, hq, hbb],
            by simp [processMarketLoop, hq, hbb], by simp⟩
        | some bb =>
          obtain ⟨d1, g1, g2, g3⟩ := ppl_tape .bid bb tid fuel bk qty
          obtain ⟨d2, k1, k2, k3⟩ := ih (processPriceLevel bk .bid bb qty tid fuel).1
            (processPriceLevel bk .bid bb qty tid fuel).2.1
          refine ⟨d1 ++ d2, ?_, ?_, ?_⟩
          · simp only [processMarketLoop, if_neg hq, hbb]
            rw [k1, g1, List.append_assoc]
          · simp only [processMarketLoop, if_neg hq, hbb, List.map_append, g2, k2]
          · intro t ht
            rcases List.mem_append.mp ht with h | h
            · exact g3 t h
            · exact k3 t h

theorem pll_tape (side : Side) (price tid : Int) :
    ∀ (fuel : Nat) (bk : OrderBook) (qty : Int),
      ∃ delta : List TapeEntry,
        (processLimitLoop bk side price qty tid fuel).1.tape = bk.tape ++ delta ∧
        delta.map (fun t => (t.qty, t.price)) =
          ((processLimitLoop bk side price qty tid fuel).2.2).map
            (fun t => (t.qty, t.price)) ∧
        ∀ t ∈ delta, t.taker_tid = tid := by
  intro fuel
  induction fuel with
  | zero =>
    intro bk qty
    exact ⟨[], by simp [processLimitLoop], by simp [processLimitLoop], by simp⟩
  | succ fuel ih =>
    intro bk qty
    by_cases hq : qty ≤ 0
    · exact ⟨[], by simp [processLimitLoop, hq], by simp [processLimitLoop, hq],
        by simp⟩
    · cases side with
      | bid =>
        cases hba : bk.getBestAsk with
        | none =>
          exact ⟨[], by simp [processLimitLoop, hq, hba],
            by simp [processLimitLoop, hq, hba], by simp⟩
        | some ba =>
          by_cases hgt : ba > price
          · exact ⟨[], by simp [processLimitLoop, hq, hba, hgt],
              by simp [processLimitLoop, hq, hba, hgt], by simp⟩
          · obtain ⟨d1, g1, g2, g3⟩ := ppl_tape .ask ba tid fuel bk qty
            obtain ⟨d2, k1, k2, k3⟩ := ih (processPriceLevel bk .ask ba qty tid fuel).1
              (processPriceLevel bk .ask ba qty tid fuel).2.1
            refine ⟨d1 ++ d2, ?_, ?_, ?_⟩
            · simp only [processLimitLoop, if_neg hq, hba, if_neg hgt]
              rw [k1, g1, List.append_assoc]
            · simp only [processLimitLoop, if_neg hq, hba, if_neg hgt,
                List.map_append, g2, k2]
            · intro t ht
              rcases List.mem_append.mp ht with h | h
              · exact g3 t h
              · exact k3 t h
      | ask =>
        cases hbb : bk.getBestBid with
        | none =>
          exact ⟨[], by simp [processLimitLoop, hq, hbb],
            by simp [processLimitLoop, hq, hbb], by simp⟩
        | some bb =>
          by_cases hlt : bb < price
          · exact ⟨[], by simp [processLimitLoop, hq, hbb, hlt],
              by simp [processLimitLoop, hq, hbb, hlt], by simp⟩
          · obtain ⟨d1, g1, g2, g3⟩ := ppl_tape .bid bb tid fuel bk qty
            obtain ⟨d2, k1, k2, k3⟩ := ih (processPriceLevel bk .bid bb qty tid fuel).1
              (processPriceLevel bk .bid bb qty tid fuel).2.1
            refine ⟨d1 ++ d2, ?_, ?_, ?_⟩
            · simp only [processLimitLoop, if_neg hq, hbb, if_neg hlt]
              rw [k1, g1, List.append_assoc]
            · simp only [processLimitLoop, if_neg hq, hbb, if_neg hlt,
                List.map_append, g2, k2]
            · intro t ht
              rcases List.mem_append.mp ht with h | h
              · exact g3 t h
              · exact k3 t h

theorem restResidual_tape (bk : OrderBook) (side : Side)
    (price residual tid : Int) (idN ts : Nat) (ice : Option (Int × Int)) :
    (restResidual bk side price residual tid idN ts ice).1.tape = bk.tape := by
  cases ice with
  | none => simp [restResidual]
  | some p =>
    obtain ⟨t, d⟩ := p
    by_cases hrem : t - min d (min t residual) > 0 <;>
      simp [restResidual, hrem]

theorem processLimitCore_tape (bk : OrderBook) (q : Quote) (idN ts : Nat)
    (price : Int) (fuel : Nat) :
    ∃ delta : List TapeEntry,
      (processLimitCore bk q idN ts price fuel).1.tape = bk.tape ++ delta ∧
      delta.map (fun t => (t.qty, t.price)) =
        ((processLimitCore bk q idN ts price fuel).2.1).map
          (fun t => (t.qty, t.price)) ∧
      ∀ t ∈ delta, t.taker_tid = q.tid := by
  obtain ⟨d, h1, h2, h3⟩ := pll_tape q.side price q.tid fuel bk q.qty
  by_cases hioc : q.tif = TIF.IOC
  · exact ⟨d, by simp [processLimitCore, hioc, h1], by simp [processLimitCore, hioc, h2],
      h3⟩
  · by_cases hqL : (processLimitLoop bk q.side price q.qty q.tid fuel).2.1 ≤ 0
    · exact ⟨d, by simp [processLimitCore, hioc, hqL, h1],
        by simp [processLimitCore, hioc, hqL, h2], h3⟩
    · refine ⟨d, ?_, ?_, h3⟩
      · simp only [processLimitCore, if_neg hioc, if_neg hqL]
        rw [restResidual_tape, h1]
      · simp [processLimitCore, hioc, hqL, h2]

theorem processLimit_tape (bk : OrderBook) (q : Quote) (idN ts fuel : Nat) :
    ∃ delta : List TapeEntry,
      (processLimit bk q idN ts fuel).1.tape = bk.tape ++ delta ∧
      delta.map (fun t => (t.qty, t.price)) =
        ((processLimit bk q idN ts fuel).2.1).map (fun t => (t.qty, t.price)) ∧
      ∀ t ∈ delta, t.taker_tid = q.tid := by
  by_cases hfok : q.tif = TIF.FOK ∧ q.qty > sumDepthFok bk q.side q.price
  · exact ⟨[], by simp [processLimit, hfok], by simp [processLimit, hfok], by simp⟩
  · by_cases hguard : (q.post_only && isMarketable bk q.side q.price) = true
    · by_cases hmode : q.post_only_mode = POMode.reject
      · exact ⟨[], by simp [processLimit, hfok, hguard, hmode],
          by simp [processLimit, hfok, hguard, hmode], by simp⟩
      · by_cases hmk2 : isMarketable bk q.side
          (repriceToPassive bk q.side q.price) = true
        · exact ⟨[], by simp [processLimit, hfok, hguard, hmode, hmk2],
            by simp [processLimit, hfok, hguard, hmode, hmk2], by simp⟩
        · obtain ⟨d, h1, h2, h3⟩ := processLimitCore_tape bk q idN ts
            (repriceToPassive bk q.side q.price) fuel
          refine ⟨d, ?_, ?_, h3⟩
          · simp only [processLimit, if_neg hfok, hguard, if_true, if_neg hmode]
            rw [if_neg (by simpa using hmk2)]
            exact h1
          · simp only [processLimit, if_neg hfok, hguard, if_true, if_neg hmode]
            rw [if_neg (by simpa using hmk2)]
            exact h2
    · obtain ⟨d, h1, h2, h3⟩ := processLimitCore_tape bk q idN ts q.price fuel
      refine ⟨d, ?_, ?_, h3⟩
      · simp only [processLimit, if_neg hfok]
        rw [if_neg (by simpa using hguard)]
        exact h1
      · simp only [processLimit, if_neg hfok]
        rw [if_neg (by simpa using hguard)]
        exact h2

/-- C5 (amended).  For every submission, the returned trade record holds
the executed quantity and the (tick) price; the taker and maker owner
identifiers live on the Trade Tape: the call appends exactly one tape entry
per returned trade, in the same order, agreeing with it on quantity and
price, and carrying the submitting order's owner as the taker. -/
theorem trades_tape_correspondence (bk : OrderBook) (q : Quote) (fuel : Nat) :
    ∃ delta : List TapeEntry,
      (processOrder bk q fuel).1.tape = bk.tape ++ delta ∧
      delta.map (fun t => (t.qty, t.price)) =
        ((processOrder bk q fuel).2.1).map (fun t => (t.qty, t.price)) ∧
      ∀ t ∈ delta, t.taker_tid = q.tid := by
  cases hid : q.idNum with
  | none =>
    cases hty : q.type_ with
    | market =>
      obtain ⟨d, h1, h2, h3⟩ := pml_tape q.side q.tid fuel
        { bk with time := bk.time + 1, nextQuoteID := bk.nextQuoteID + 1 } q.qty
      exact ⟨d, by simpa [processOrder, hid, hty] using h1,
        by simpa [processOrder, hid, hty] using h2, h3⟩
    | limit =>
      obtain ⟨d, h1, h2, h3⟩ := processLimit_tape
        { bk with time := bk.time + 1, nextQuoteID := bk.nextQuoteID + 1 } q
        bk.nextQuoteID (q.timestamp.getD bk.time) fuel
      exact ⟨d, by simpa [processOrder, hid, hty] using h1,
        by simpa [processOrder, hid, hty] using h2, h3⟩
  | some i =>
    cases hty : q.type_ with
    | market =>
      obtain ⟨d, h1, h2, h3⟩ := pml_tape q.side q.tid fuel
        { bk with time := bk.time + 1 } q.qty
      exact ⟨d, by simpa [processOrder, hid, hty] using h1,
        by simpa [processOrder, hid, hty] using h2, h3⟩
    | limit =>
      obtain ⟨d, h1, h2, h3⟩ := processLimit_tape { bk with time := bk.time + 1 } q
        i (q.timestamp.getD bk.time) fuel
      exact ⟨d, by simpa [processOrder, hid, hty] using h1,
        by simpa [processOrder, hid, hty] using h2, h3⟩

/-! ### Claim C8: Book Side structural invariant -/

/-- The Price Level invariant of the claim (non-empty FIFO queue, aggregate
volume equal to the sum of the queued remaining quantities) together with
the data-model requirement of spec section 3 that remaining quantity is
strictly positive while resting. -/
def levelOk (l : PriceLevel) : Prop :=
  l.queue ≠ [] ∧ l.volume = (l.queue.map (fun o => o.qty)).sum ∧
    ∀ o ∈ l.queue, 0 < o.qty

/-- Book Side invariant: every indexed level satisfies `levelOk`, and the
tick index is keyed (one level per tick, as for the source's dict). -/
def sideOk (bs : BookSide) : Prop :=
  (∀ l ∈ bs.levels, levelOk l) ∧ (bs.levels.map (fun l => l.price)).Nodup

/-- Registry invariant: positive display clip and positive hidden
remainder (spec section 3). -/
def regOk (bk : OrderBook) : Prop :=
  ∀ p ∈ bk.icebergs, 0 < p.2.display ∧ 0 < p.2.remaining

def bookOk (bk : OrderBook) : Prop := sideOk bk.bids ∧ sideOk bk.asks ∧ regOk bk

/-- Declared iceberg parameters, when present, are positive. -/
def icePosB (q : Quote) : Bool :=
  match q.iceberg_total, q.iceberg_display with
  | some t, some d => decide (0 < t) && decide (0 < d)
  | _, _ => true

instance levelOk_decidable (l : PriceLevel) : Decidable (levelOk l) := by
  unfold levelOk
  infer_instance

instance sideOk_decidable (bs : BookSide) : Decidable (sideOk bs) := by
  unfold sideOk
  infer_instance

instance bookOk_decidable (bk : OrderBook) : Decidable (bookOk bk) := by
  unfold bookOk regOk
  infer_instance

theorem alookup_mem {α : Type} (m : List (Nat × α)) (k : Nat) (v : α)
    (h : alookup m k = some v) : (k, v) ∈ m := by
  induction m with
  | nil => simp [alookup] at h
  | cons a t ih =>
    by_cases hk : a.1 = k
    · obtain ⟨k', v'⟩ := a
      simp only [alookup] at h
      simp only at hk
      rw [if_pos hk] at h
      simp only [Option.some.injEq] at h
      rw [hk, h]
      exact List.mem_cons_self _ _
    · obtain ⟨k', v'⟩ := a
      simp only [alookup] at h
      simp only at hk
      rw [if_neg hk] at h
      exact List.mem_cons_of_mem _ (ih h)

theorem mem_aerase {α : Type} (m : List (Nat × α)) (k : Nat) (p : Nat × α)
    (h : p ∈ aerase m k) : p ∈ m := by
  induction m with
  | nil => simp [aerase] at h
  | cons a t ih =>
    obtain ⟨k', v'⟩ := a
    simp only [aerase] at h
    by_cases hk : k' = k
    · rw [if_pos hk] at h
      exact List.mem_cons_of_mem _ h
    · rw [if_neg hk] at h
      rcases List.mem_cons.mp h with h | h
      · rw [h]
        exact List.mem_cons_self _ _
      · exact List.mem_cons_of_mem _ (ih h)

theorem mem_updateLevel (ℓ : List PriceLevel) (p : Int)
    (f : PriceLevel → PriceLevel) (l' : PriceLevel)
    (h : l' ∈ updateLevel ℓ p f) :
    ∃ l ∈ ℓ, l' = if l.price = p then f l else l := by
  obtain ⟨l, hl, he⟩ := List.mem_map.mp h
  exact ⟨l, hl, he.symm⟩

theorem mem_insertLevelSorted (p : Int) (ℓ : List PriceLevel) (l' : PriceLevel)
    (h : l' ∈ insertLevelSorted p ℓ) : l' = ⟨p, [], 0⟩ ∨ l' ∈ ℓ := by
  induction ℓ with
  | nil =>
    simp [insertLevelSorted] at h
    exact Or.inl h
  | cons a as ih =>
    by_cases hlt : p < a.price
    · rw [insertLevelSorted_cons_lt p a as hlt] at h
      rcases List.mem_cons.mp h with h | h
      · exact Or.inl h
      · exact Or.inr h
    · rw [insertLevelSorted_cons_ge p a as hlt] at h
      rcases List.mem_cons.mp h with h | h
      · exact Or.inr (h ▸ List.mem_cons_self _ _)
      · rcases ih h with h | h
        · exact Or.inl h
        · exact Or.inr (List.mem_cons_of_mem _ h)

theorem mem_dropLevel (ℓ : List PriceLevel) (p : Int) (l' : PriceLevel)
    (h : l' ∈ dropLevel ℓ p) : l' ∈ ℓ := by
  induction ℓ with
  | nil => simp [dropLevel] at h
  | cons a as ih =>
    rw [dropLevel_cons] at h
    by_cases ha : a.price = p
    · rw [if_pos ha] at h
      exact List.mem_cons_of_mem _ h
    · rw [if_neg ha] at h
      rcases List.mem_cons.mp h with h | h
      · exact h ▸ List.mem_cons_self _ _
      · exact List.mem_cons_of_mem _ (ih h)

theorem updateLevel_map_price (ℓ : List PriceLevel) (p : Int)
    (f : PriceLevel → PriceLevel)
    (hf : ∀ l, l.price = p → (f l).price = l.price) :
    (updateLevel ℓ p f).map (fun l => l.price) = ℓ.map (fun l => l.price) := by
  unfold updateLevel
  rw [List.map_map]
  apply List.map_congr_left
  intro l _
  by_cases hl : l.price = p <;> simp [hl, hf l]

theorem insertLevelSorted_map_price (p : Int) (ℓ : List PriceLevel) :
    ((insertLevelSorted p ℓ).map (fun l => l.price)).Perm
      (p :: ℓ.map (fun l => l.price)) := by
  induction ℓ with
  | nil => simp [insertLevelSorted]
  | cons a as ih =>
    by_cases hlt : p < a.price
    · rw [insertLevelSorted_cons_lt p a as hlt]
      simp
    · rw [insertLevelSorted_cons_ge p a as hlt]
      simp only [List.map_cons]
      exact (ih.cons a.price).trans (List.Perm.swap p a.price _)

theorem hasLevel_false_not_mem (ℓ : List PriceLevel) (p : Int)
    (h : hasLevel ℓ p = false) : p ∉ ℓ.map (fun l => l.price) := by
  induction ℓ with
  | nil => simp
  | cons a as ih =>
    simp only [hasLevel, Bool.or_eq_false_iff, decide_eq_false_iff_not] at h
    simp only [List.map_cons, List.mem_cons]
    push_neg
    exact ⟨fun e => h.1 e.symm, ih h.2⟩

theorem dropLevel_map_price_sublist (ℓ : List PriceLevel) (p : Int) :
    ((dropLevel ℓ p).map (fun l => l.price)).Sublist
      (ℓ.map (fun l => l.price)) := by
  induction ℓ with
  | nil => simp [dropLevel]
  | cons a as ih =>
    rw [dropLevel_cons]
    by_cases ha : a.price = p
    · rw [if_pos ha]
      simp only [List.map_cons]
      exact (List.sublist_cons_self _ _)
    · rw [if_neg ha]
      simp only [List.map_cons]
      exact ih.cons₂ _

theorem levelOk_append (l : PriceLevel) (o : Order) (hv : l.volume =
    (l.queue.map (fun x => x.qty)).sum) (hq : ∀ x ∈ l.queue, 0 < x.qty)
    (ho : 0 < o.qty) : levelOk (l.append o) := by
  refine ⟨by simp [PriceLevel.append], ?_, ?_⟩
  · simp [PriceLevel.append, hv]
  · intro x hx
    have hx' : x ∈ l.queue ∨ x = o := by simpa [PriceLevel.append] using hx
    rcases hx' with h | h
    · exact hq x h
    · rw [h]
      exact ho

theorem sideOk_insertOrder (bs : BookSide) (o : Order) (h : sideOk bs)
    (ho : 0 < o.qty) : sideOk (bs.insertOrder o) := by
  obtain ⟨hmem, hnd⟩ := h
  constructor
  · intro l' hl'
    obtain ⟨l, hl, he⟩ := mem_updateLevel _ _ _ _ hl'
    have hens : l = ⟨o.price, [], 0⟩ ∨ l ∈ bs.levels := by
      unfold ensureLevel at hl
      by_cases hh : hasLevel bs.levels o.price = true
      · rw [if_pos hh] at hl
        exact Or.inr hl
      · rw [if_neg hh] at hl
        exact mem_insertLevelSorted _ _ _ hl
    rcases hens with hfresh | hold
    · have he' : l' = (⟨o.price, [], 0⟩ : PriceLevel).append o := by
        rw [hfresh] at he
        simpa using he
      rw [he']
      exact levelOk_append _ _ (by simp) (by simp) ho
    · have hok := hmem l hold
      by_cases hp : l.price = o.price
      · rw [if_pos hp] at he
        rw [he]
        exact levelOk_append _ _ hok.2.1 hok.2.2 ho
      · rw [if_neg hp] at he
        rw [he]
        exact hok
  · show (List.map (fun l => l.price)
      (updateLevel (ensureLevel bs.levels o.price) o.price
        (fun l => l.append o))).Nodup
    rw [updateLevel_map_price (ensureLevel bs.levels o.price) o.price
      (fun l => l.append o) (fun l _ => rfl)]
    unfold ensureLevel
    by_cases hh : hasLevel bs.levels o.price = true
    · rw [if_pos hh]
      exact hnd
    · rw [if_neg hh]
      have hperm := insertLevelSorted_map_price o.price bs.levels
      refine hperm.nodup_iff.mpr ?_
      exact List.Nodup.cons (hasLevel_false_not_mem _ _ (by simpa using hh)) hnd

theorem consumeHead_ok (l : PriceLevel) (need : Int) (h : levelOk l)
    (hn : 0 < need) :
    0 < (l.consumeHead need).1 ∧
    (l.consumeHead need).2.2.volume =
      ((l.consumeHead need).2.2.queue.map (fun x => x.qty)).sum ∧
    (∀ x ∈ (l.consumeHead need).2.2.queue, 0 < x.qty) := by
  obtain ⟨hne, hv, hq⟩ := h
  obtain ⟨p, queue, v⟩ := l
  cases queue with
  | nil => exact absurd rfl hne
  | cons hd tl =>
    have hhd : 0 < hd.qty := hq hd (List.mem_cons_self _ _)
    have htk : 0 < min need hd.qty := lt_min hn hhd
    have hn' : ¬ need ≤ 0 := not_le.mpr hn
    simp only [List.map_cons, List.sum_cons] at hv
    by_cases hz : hd.qty - min need hd.qty = 0
    · refine ⟨?_, ?_, ?_⟩
      · simpa [PriceLevel.consumeHead, hn', hz] using htk
      · simp [PriceLevel.consumeHead, hn', hz]
        omega
      · intro x hx
        simp [PriceLevel.consumeHead, hn', hz] at hx
        exact hq x (List.mem_cons_of_mem _ hx)
    · refine ⟨?_, ?_, ?_⟩
      · simpa [PriceLevel.consumeHead, hn', hz] using htk
      · simp [PriceLevel.consumeHead, hn', hz]
        omega
      · intro x hx
        simp [PriceLevel.consumeHead, hn', hz] at hx
        rcases hx with hx | hx
        · rw [hx]
          simp only
          omega
        · exact hq x (List.mem_cons_of_mem _ hx)

theorem regOk_replenish (bk : OrderBook) (side : Side) (o : Order)
    (hreg : regOk bk) (hb : sideOk bk.bids) (ha : sideOk bk.asks) :
    regOk (icebergReplenishIfNeeded bk side o) ∧
    sideOk (icebergReplenishIfNeeded bk side o).bids ∧
    sideOk (icebergReplenishIfNeeded bk side o).asks := by
  cases hlk : alookup bk.icebergs o.idNum with
  | none =>
    simp only [icebergReplenishIfNeeded, hlk]
    exact ⟨hreg, hb, ha⟩
  | some info =>
    have hinfo := hreg _ (alookup_mem _ _ _ hlk)
    simp only at hinfo
    have hrem : ¬ info.remaining ≤ 0 := not_le.mpr hinfo.2
    have hclip : 0 < min info.display info.remaining := lt_min hinfo.1 hinfo.2
    have hregE : ∀ p ∈ aerase bk.icebergs o.idNum,
        0 < p.2.display ∧ 0 < p.2.remaining :=
      fun p hp => hreg p (mem_aerase _ _ _ hp)
    simp only [icebergReplenishIfNeeded, hlk]
    rw [if_neg hrem]
    by_cases hr : info.remaining - min info.display info.remaining > 0
    · rw [if_pos hr]
      cases side with
      | bid =>
        refine ⟨?_, sideOk_insertOrder _ _ hb hclip, ha⟩
        intro p hp
        rcases List.mem_cons.mp hp with hp | hp
        · rw [hp]
          exact ⟨hinfo.1, hr⟩
        · exact hregE p (mem_aerase _ _ _ hp)
      | ask =>
        refine ⟨?_, hb, sideOk_insertOrder _ _ ha hclip⟩
        intro p hp
        rcases List.mem_cons.mp hp with hp | hp
        · rw [hp]
          exact ⟨hinfo.1, hr⟩
        · exact hregE p (mem_aerase _ _ _ hp)
    · rw [if_neg hr]
      cases side with
      | bid => exact ⟨hregE, sideOk_insertOrder _ _ hb hclip, ha⟩
      | ask => exact ⟨hregE, hb, sideOk_insertOrder _ _ ha hclip⟩

theorem findLevel_mem (ℓ : List PriceLevel) (p : Int) (l : PriceLevel)
    (h : findLevel ℓ p = some l) : l ∈ ℓ := by
  induction ℓ with
  | nil => simp [findLevel] at h
  | cons a as ih =>
    by_cases ha : a.price = p
    · simp [findLevel, ha] at h
      rw [← h]
      exact List.mem_cons_self _ _
    · simp only [findLevel, if_neg ha] at h
      exact List.mem_cons_of_mem _ (ih h)

theorem mem_dropLevel_price (ℓ : List PriceLevel) (p : Int)
    (hnd : (ℓ.map (fun l => l.price)).Nodup) (l' : PriceLevel)
    (h : l' ∈ dropLevel ℓ p) : l' ∈ ℓ ∧ l'.price ≠ p := by
  induction ℓ with
  | nil => simp [dropLevel] at h
  | cons a as ih =>
    have hnd' : (as.map (fun l => l.price)).Nodup := (List.nodup_cons.mp hnd).2
    have hna : a.price ∉ as.map (fun l => l.price) := (List.nodup_cons.mp hnd).1
    rw [dropLevel_cons] at h
    by_cases ha : a.price = p
    · rw [if_pos ha] at h
      refine ⟨List.mem_cons_of_mem _ h, ?_⟩
      intro he
      exact hna (by
        rw [ha, ← he]
        exact List.mem_map.mpr ⟨l', h, rfl⟩)
    · rw [if_neg ha] at h
      rcases List.mem_cons.mp h with h | h
      · exact ⟨h ▸ List.mem_cons_self _ _, h ▸ ha⟩
      · obtain ⟨h1, h2⟩ := ih hnd' h
        exact ⟨List.mem_cons_of_mem _ h1, h2⟩

theorem consumeHead_none_nonempty (l : PriceLevel) (need : Int)
    (hne : l.queue ≠ []) (hn : 0 < need)
    (h : (l.consumeHead need).2.1 = none) :
    (l.consumeHead need).2.2.queue ≠ [] := by
  obtain ⟨p, queue, v⟩ := l
  cases queue with
  | nil => exact absurd rfl hne
  | cons hd tl =>
    have hn' : ¬ need ≤ 0 := not_le.mpr hn
    by_cases hz : hd.qty - min need hd.qty = 0
    · simp [PriceLevel.consumeHead, hn', hz] at h
    · simp [PriceLevel.consumeHead, hn', hz]

theorem levels_writeback_ok (ℓ : List PriceLevel) (p : Int) (lvl' : PriceLevel)
    (hmem : ∀ l ∈ ℓ, levelOk l) (hnd : (ℓ.map (fun l => l.price)).Nodup)
    (hlp : lvl'.price = p) (hok : levelOk lvl') :
    (∀ l ∈ updateLevel ℓ p (fun _ => lvl'), levelOk l) ∧
    ((updateLevel ℓ p (fun _ => lvl')).map (fun l => l.price)).Nodup := by
  constructor
  · intro l' hl'
    obtain ⟨l, hl, he⟩ := mem_updateLevel _ _ _ _ hl'
    by_cases hp : l.price = p
    · rw [if_pos hp] at he
      rw [he]
      exact hok
    · rw [if_neg hp] at he
      rw [he]
      exact hmem l hl
  · rw [updateLevel_map_price ℓ p (fun _ => lvl') (fun l hl => by rw [hlp, hl])]
    exact hnd

theorem levels_writeback_drop_ok (ℓ : List PriceLevel) (p : Int)
    (lvl' : PriceLevel)
    (hmem : ∀ l ∈ ℓ, levelOk l) (hnd : (ℓ.map (fun l => l.price)).Nodup)
    (hlp : lvl'.price = p) :
    (∀ l ∈ dropLevel (updateLevel ℓ p (fun _ => lvl')) p, levelOk l) ∧
    ((dropLevel (updateLevel ℓ p (fun _ => lvl')) p).map
      (fun l => l.price)).Nodup := by
  have hnd1 : ((updateLevel ℓ p (fun _ => lvl')).map
      (fun l => l.price)).Nodup := by
    rw [updateLevel_map_price ℓ p (fun _ => lvl') (fun l hl => by rw [hlp, hl])]
    exact hnd
  constructor
  · intro l' hl'
    obtain ⟨hl'mem, hl'ne⟩ := mem_dropLevel_price _ _ hnd1 _ hl'
    obtain ⟨l, hl, he⟩ := mem_updateLevel _ _ _ _ hl'mem
    by_cases hp : l.price = p
    · rw [if_pos hp] at he
      rw [he] at hl'ne
      exact absurd hlp hl'ne
    · rw [if_neg hp] at he
      rw [he]
      exact hmem l hl
  · exact List.Sublist.nodup (dropLevel_map_price_sublist _ _) hnd1

theorem setTree_sides_ok (bk : OrderBook) (side : Side) (bs : BookSide)
    (hb : sideOk bk.bids) (ha : sideOk bk.asks) (hs : sideOk bs) :
    sideOk (bk.setTree side bs).bids ∧ sideOk (bk.setTree side bs).asks := by
  cases side
  · exact ⟨hs, ha⟩
  · exact ⟨hb, hs⟩

theorem regOk_setTree (bk : OrderBook) (s : Side) (bs : BookSide)
    (h : regOk bk) : regOk (bk.setTree s bs) := by
  cases s <;> exact h

def otherSide : Side → Side
  | .bid => .ask
  | .ask => .bid

theorem tree_setTree_flip (bk : OrderBook) (s : Side) (bs : BookSide) :
    (bk.setTree s bs).tree (otherSide s) = bk.tree (otherSide s) := by
  cases s <;> rfl

theorem bookOk_of_parts (bk : OrderBook) (side : Side)
    (h1 : sideOk (bk.tree side)) (h2 : sideOk (bk.tree (otherSide side)))
    (h3 : regOk bk) : bookOk bk := by
  cases side
  · exact ⟨h1, h2, h3⟩
  · exact ⟨h2, h1, h3⟩

theorem bookOk_tree (bk : OrderBook) (side : Side) (h : bookOk bk) :
    sideOk (bk.tree side) := by
  cases side
  · exact h.1
  · exact h.2.1

theorem bookOk_setTree (bk : OrderBook) (side : Side) (bs : BookSide)
    (h : bookOk bk) (hs : sideOk bs) : bookOk (bk.setTree side bs) := by
  cases side
  · exact ⟨hs, h.2.1, h.2.2⟩
  · exact ⟨h.1, hs, h.2.2⟩

theorem regOk_congr (bk bk' : OrderBook) (h : bk'.icebergs = bk.icebergs)
    (hr : regOk bk) : regOk bk' := by
  intro p hp
  exact hr p (h ▸ hp)

theorem replenish_bookOk (bk : OrderBook) (side : Side) (o : Order)
    (h : bookOk bk) : bookOk (icebergReplenishIfNeeded bk side o) := by
  obtain ⟨r1, r2, r3⟩ := regOk_replenish bk side o h.2.2 h.1 h.2.1
  exact ⟨r2, r3, r1⟩

/-- `_process_price_level` preserves the Book Side and registry
invariants. -/
theorem ppl_ok (side : Side) (price tid : Int) :
    ∀ (fuel : Nat) (bk : OrderBook) (qty : Int), bookOk bk →
      bookOk (processPriceLevel bk side price qty tid fuel).1 := by
  intro fuel
  induction fuel with
  | zero =>
    intro bk qty h
    simpa [processPriceLevel] using h
  | succ fuel ih =>
    intro bk qty h
    cases hfl : findLevel ((bk.tree side).levels) price with
    | none => simpa [processPriceLevel, hfl] using h
    | some lvl =>
      by_cases hq0 : qty ≤ 0 ∨ lvl.queue.isEmpty = true
      · have hq0' : qty ≤ 0 ∨ lvl.queue = [] := by simpa using hq0
        simpa [processPriceLevel, hfl, hq0'] using h
      · have hqpos : 0 < qty := by
          rcases not_or.mp hq0 with ⟨h1, _⟩
          omega
        have hos : sideOk (bk.tree side) := bookOk_tree bk side h
        have hlvlok : levelOk lvl := hos.1 lvl (findLevel_mem _ _ _ hfl)
        have hlp : lvl.price = price := findLevel_some_price _ _ _ hfl
        rcases hch : lvl.consumeHead qty with ⟨taken, removed, lvl'⟩
        have hcok := consumeHead_ok lvl qty hlvlok hqpos
        rw [hch] at hcok
        simp only at hcok
        have hlp' : lvl'.price = price := by
          have hcp := consumeHead_price lvl qty
          rw [hch] at hcp
          simp only at hcp
          rw [hcp]
          exact hlp
        by_cases ht0 : taken = 0
        · exfalso
          have h1 := hcok.1
          omega
        · simp only [processPriceLevel, hfl, hch, if_neg hq0, if_neg ht0]
          cases removed with
          | none =>
            have hne' : lvl'.queue ≠ [] := by
              have hx := consumeHead_none_nonempty lvl qty hlvlok.1 hqpos
                (by rw [hch])
              rw [hch] at hx
              simpa using hx
            have hok' : levelOk lvl' := ⟨hne', hcok.2.1, hcok.2.2⟩
            have hsb : sideOk { bk.tree side with
                levels := updateLevel (bk.tree side).levels price (fun _ => lvl') } :=
              levels_writeback_ok (bk.tree side).levels price lvl'
                hos.1 hos.2 hlp' hok'
            apply ih
            exact bookOk_setTree bk side _ h hsb
          | some o =>
            set bs1 := { bk.tree side with
              levels := updateLevel (bk.tree side).levels price (fun _ => lvl') }
              with hbs1
            set bk2 := recordTrade (bk.setTree side bs1) taken price tid o.tid
              with hbk2
            cases halo : alookup ((bk2.tree side).orderMap) o.idNum with
            | none =>
              simp only [halo]
              by_cases hpe : lvl'.queue.isEmpty = true
              · simp only [if_pos hpe]
                apply replenish_bookOk
                have hlv : (bk2.tree side).levels =
                    updateLevel (bk.tree side).levels price (fun _ => lvl') := by
                  rw [hbk2, recordTrade_tree, tree_setTree_same, hbs1]
                apply bookOk_of_parts _ side
                · rw [tree_setTree_same, hlv]
                  exact levels_writeback_drop_ok (bk.tree side).levels price lvl'
                    hos.1 hos.2 hlp'
                · rw [tree_setTree_flip, hbk2, recordTrade_tree, tree_setTree_flip]
                  exact bookOk_tree bk (otherSide side) h
                · refine regOk_congr bk _ ?_ h.2.2
                  simp only [setTree_icebergs, hbk2, recordTrade_icebergs]
              · simp only [if_neg hpe]
                have hok' : levelOk lvl' := ⟨by simpa using hpe, hcok.2.1, hcok.2.2⟩
                have hsb : sideOk bs1 := by
                  rw [hbs1]
                  exact levels_writeback_ok (bk.tree side).levels price lvl'
                    hos.1 hos.2 hlp' hok'
                have h2 : bookOk bk2 := by
                  rw [hbk2]
                  exact bookOk_setTree bk side _ h hsb
                apply ih
                exact replenish_bookOk _ side o h2
            | some o' =>
              simp only [halo]
              set bs2 := { bk2.tree side with
                orderMap := aerase (bk2.tree side).orderMap o.idNum
                nOrders := (bk2.tree side).nOrders - 1 } with hbs2
              set bk3 := bk2.setTree side bs2 with hbk3
              by_cases hpe : lvl'.queue.isEmpty = true
              · simp only [if_pos hpe]
                apply replenish_bookOk
                have hlv : (bk3.tree side).levels =
                    updateLevel (bk.tree side).levels price (fun _ => lvl') := by
                  rw [hbk3, tree_setTree_same, hbs2]
                  show (bk2.tree side).levels = _
                  rw [hbk2, recordTrade_tree, tree_setTree_same, hbs1]
                apply bookOk_of_parts _ side
                · rw [tree_setTree_same, hlv]
                  exact levels_writeback_drop_ok (bk.tree side).levels price lvl'
                    hos.1 hos.2 hlp'
                · rw [tree_setTree_flip, hbk3, tree_setTree_flip, hbk2,
                    recordTrade_tree, tree_setTree_flip]
                  exact bookOk_tree bk (otherSide side) h
                · refine regOk_congr bk _ ?_ h.2.2
                  simp only [setTree_icebergs, hbk3, hbk2, recordTrade_icebergs]
              · simp only [if_neg hpe]
                have hok' : levelOk lvl' := ⟨by simpa using hpe, hcok.2.1, hcok.2.2⟩
                have hsb : sideOk bs1 := by
                  rw [hbs1]
                  exact levels_writeback_ok (bk.tree side).levels price lvl'
                    hos.1 hos.2 hlp' hok'
                have h2 : bookOk bk2 := by
                  rw [hbk2]
                  exact bookOk_setTree bk side _ h hsb
                have h3 : bookOk bk3 := by
                  rw [hbk3]
                  refine bookOk_setTree bk2 side bs2 h2 ?_
                  rw [hbs2]
                  exact bookOk_tree bk2 side h2
                apply ih
                exact replenish_bookOk _ side o h3

theorem removeFirstById_sum (q : List Order) (i : Nat) :
    ((removeFirstById q i).1.map (fun o => o.qty)).sum =
      (q.map (fun o => o.qty)).sum - (removeFirstById q i).2 := by
  induction q with
  | nil => simp [removeFirstById]
  | cons a t ih =>
    by_cases ha : a.idNum = i
    · simp [removeFirstById, ha]
    · simp only [removeFirstById, if_neg ha, List.map_cons, List.sum_cons]
      omega

theorem removeFirstById_subset (q : List Order) (i : Nat) (x : Order)
    (h : x ∈ (removeFirstById q i).1) : x ∈ q := by
  induction q with
  | nil => simp [removeFirstById] at h
  | cons a t ih =>
    by_cases ha : a.idNum = i
    · simp only [removeFirstById, if_pos ha] at h
      exact List.mem_cons_of_mem _ h
    · simp only [removeFirstById, if_neg ha] at h
      rcases List.mem_cons.mp h with h | h
      · exact h ▸ List.mem_cons_self _ _
      · exact List.mem_cons_of_mem _ (ih h)

theorem mem_price_eq_findLevel (ℓ : List PriceLevel) (p : Int) (l : PriceLevel)
    (hl : l ∈ ℓ) (hp : l.price = p)
    (hnd : (ℓ.map (fun x => x.price)).Nodup) : findLevel ℓ p = some l := by
  induction ℓ with
  | nil => simp at hl
  | cons a as ih =>
    have hnd' := List.nodup_cons.mp hnd
    rcases List.mem_cons.mp hl with he | hm
    · rw [he] at hp ⊢
      simp [findLevel, hp]
    · by_cases ha : a.price = p
      · exfalso
        apply hnd'.1
        show a.price ∈ List.map (fun x => x.price) as
        rw [ha, ← hp]
        exact List.mem_map.mpr ⟨l, hm, rfl⟩
      · simp only [findLevel, if_neg ha]
        exact ih hm hnd'.2

/-- `remove_by_id`'s level rebuild followed by `_prune_if_empty` preserves
the level invariants. -/
theorem levels_update_prune_ok (ℓ : List PriceLevel) (p : Int)
    (f : PriceLevel → PriceLevel)
    (hmem : ∀ l ∈ ℓ, levelOk l) (hnd : (ℓ.map (fun x => x.price)).Nodup)
    (hf : ∀ l, l.price = p → (f l).price = l.price)
    (hfok : ∀ l ∈ ℓ, l.price = p →
      (f l).volume = ((f l).queue.map (fun o => o.qty)).sum ∧
      ∀ o ∈ (f l).queue, 0 < o.qty) :
    (∀ l ∈ pruneIfEmpty (updateLevel ℓ p f) p, levelOk l) ∧
    ((pruneIfEmpty (updateLevel ℓ p f) p).map (fun x => x.price)).Nodup := by
  have hnd1 : ((updateLevel ℓ p f).map (fun x => x.price)).Nodup := by
    rw [updateLevel_map_price ℓ p f hf]
    exact hnd
  cases hfind : findLevel (updateLevel ℓ p f) p with
  | none =>
    simp only [pruneIfEmpty, hfind]
    refine ⟨?_, hnd1⟩
    intro l' hl'
    obtain ⟨l, hl, he⟩ := mem_updateLevel _ _ _ _ hl'
    by_cases hp : l.price = p
    · exfalso
      have : findLevel (updateLevel ℓ p f) p = some (f l) := by
        refine mem_price_eq_findLevel _ _ _ ?_ ?_ hnd1
        · exact List.mem_map.mpr ⟨l, hl, by rw [if_pos hp]⟩
        · rw [hf l hp, hp]
      rw [this] at hfind
      exact Option.noConfusion hfind
    · rw [if_neg hp] at he
      rw [he]
      exact hmem l hl
  | some fl =>
    simp only [pruneIfEmpty, hfind]
    by_cases hfe : fl.queue.isEmpty = true
    · rw [if_pos hfe]
      constructor
      · intro l' hl'
        obtain ⟨hl'mem, hl'ne⟩ := mem_dropLevel_price _ _ hnd1 _ hl'
        obtain ⟨l, hl, he⟩ := mem_updateLevel _ _ _ _ hl'mem
        by_cases hp : l.price = p
        · exfalso
          rw [if_pos hp] at he
          apply hl'ne
          rw [he, hf l hp, hp]
        · rw [if_neg hp] at he
          rw [he]
          exact hmem l hl
      · exact List.Sublist.nodup (dropLevel_map_price_sublist _ _) hnd1
    · rw [if_neg hfe]
      refine ⟨?_, hnd1⟩
      intro l' hl'
      obtain ⟨l, hl, he⟩ := mem_updateLevel _ _ _ _ hl'
      by_cases hp : l.price = p
      · rw [if_pos hp] at he
        have hflv : findLevel (updateLevel ℓ p f) p = some (f l) := by
          refine mem_price_eq_findLevel _ _ _ ?_ ?_ hnd1
          · exact List.mem_map.mpr ⟨l, hl, by rw [if_pos hp]⟩
          · rw [hf l hp, hp]
        rw [hflv] at hfind
        have hfl2 : fl = f l := by
          exact (Option.some.injEq _ _ ▸ hfind.symm : _)
        rw [he]
        refine ⟨?_, (hfok l hl hp).1, (hfok l hl hp).2⟩
        rw [← hfl2]
        intro hc
        rw [hc] at hfe
        simp at hfe
      · rw [if_neg hp] at he
        rw [he]
        exact hmem l hl

/-- `remove_by_id` preserves the Book Side invariant. -/
theorem removeById_sideOk (bs : BookSide) (i : Nat) (o : Order)
    (bs' : BookSide) (h : sideOk bs)
    (hrm : bs.removeById i = some (o, bs')) : sideOk bs' := by
  unfold BookSide.removeById at hrm
  cases hlk : alookup bs.orderMap i with
  | none =>
    rw [hlk] at hrm
    exact Option.noConfusion hrm
  | some ord =>
    rw [hlk] at hrm
    simp only [Option.some.injEq, Prod.mk.injEq] at hrm
    obtain ⟨_, hbs'⟩ := hrm
    cases hfl : findLevel bs.levels ord.price with
    | none =>
      rw [hfl] at hbs'
      rw [← hbs']
      exact h
    | some l0 =>
      rw [hfl] at hbs'
      rw [← hbs']
      refine levels_update_prune_ok bs.levels ord.price _ h.1 h.2
        (fun l _ => rfl) ?_
      intro l hl _
      obtain ⟨_, hv, hq⟩ := h.1 l hl
      constructor
      · simp only [removeFirstById_sum l.queue i, hv]
      · intro x hx
        exact hq x (removeFirstById_subset l.queue i x hx)

theorem pml_ok (side : Side) (tid : Int) :
    ∀ (fuel : Nat) (bk : OrderBook) (qty : Int), bookOk bk →
      bookOk (processMarketLoop bk side qty tid fuel).1 := by
  intro fuel
  induction fuel with
  | zero =>
    intro bk qty h
    simpa [processMarketLoop] using h
  | succ fuel ih =>
    intro bk qty h
    by_cases hq : qty ≤ 0
    · simpa [processMarketLoop, hq] using h
    · cases side with
      | bid =>
        cases hba : bk.getBestAsk with
        | none => simpa [processMarketLoop, hq, hba] using h
        | some ba =>
          simp only [processMarketLoop, if_neg hq, hba]
          exact ih _ _ (ppl_ok .ask ba tid fuel bk qty h)
      | ask =>
        cases hbb : bk.getBestBid with
        | none => simpa [processMarketLoop, hq, hbb] using h
        | some bb =>
          simp only [processMarketLoop, if_neg hq, hbb]
          exact ih _ _ (ppl_ok .bid bb tid fuel bk qty h)

theorem pll_ok (side : Side) (price tid : Int) :
    ∀ (fuel : Nat) (bk : OrderBook) (qty : Int), bookOk bk →
      bookOk (processLimitLoop bk side price qty tid fuel).1 := by
  intro fuel
  induction fuel with
  | zero =>
    intro bk qty h
    simpa [processLimitLoop] using h
  | succ fuel ih =>
    intro bk qty h
    by_cases hq : qty ≤ 0
    · simpa [processLimitLoop, hq] using h
    · cases side with
      | bid =>
        cases hba : bk.getBestAsk with
        | none => simpa [processLimitLoop, hq, hba] using h
        | some ba =>
          by_cases hgt : ba > price
          · simpa [processLimitLoop, hq, hba, hgt] using h
          · simp only [processLimitLoop, if_neg hq, hba, if_neg hgt]
            exact ih _ _ (ppl_ok .ask ba tid fuel bk qty h)
      | ask =>
        cases hbb : bk.getBestBid with
        | none => simpa [processLimitLoop, hq, hbb] using h
        | some bb =>
          by_cases hlt : bb < price
          · simpa [processLimitLoop, hq, hbb, hlt] using h
          · simp only [processLimitLoop, if_neg hq, hbb, if_neg hlt]
            exact ih _ _ (ppl_ok .bid bb tid fuel bk qty h)

theorem restResidual_ok (bk : OrderBook) (side : Side)
    (price residual tid : Int) (idN ts : Nat) (ice : Option (Int × Int))
    (h : bookOk bk) (hres : 0 < residual)
    (hice : ∀ t d, ice = some (t, d) → 0 < t ∧ 0 < d) :
    bookOk (restResidual bk side price residual tid idN ts ice).1 := by
  cases ice with
  | none =>
    simp only [restResidual]
    exact bookOk_setTree bk side _ h
      (sideOk_insertOrder _ _ (bookOk_tree bk side h) hres)
  | some p =>
    obtain ⟨t, d⟩ := p
    obtain ⟨ht, hd⟩ := hice t d rfl
    have hclip : 0 < min d (min t residual) := lt_min hd (lt_min ht hres)
    have h1 : bookOk (bk.setTree side ((bk.tree side).insertOrder
        ⟨idN, tid, price, min d (min t residual), ts⟩)) :=
      bookOk_setTree bk side _ h
        (sideOk_insertOrder _ _ (bookOk_tree bk side h) hclip)
    simp only [restResidual]
    by_cases hrem : t - min d (min t residual) > 0
    · rw [if_pos hrem]
      refine ⟨h1.1, h1.2.1, ?_⟩
      intro p hp
      rcases List.mem_cons.mp hp with hp | hp
      · rw [hp]
        exact ⟨hd, hrem⟩
      · exact h1.2.2 p
          (by simpa [setTree_icebergs] using mem_aerase _ _ _ hp)
    · rw [if_neg hrem]
      exact h1

theorem icePair_pos (q : Quote) (h : icePosB q = true) :
    ∀ t d, icePair q = some (t, d) → 0 < t ∧ 0 < d := by
  intro t d hp
  cases hqt : q.iceberg_total with
  | none => simp [icePair, hqt] at hp
  | some t' =>
    cases hqd : q.iceberg_display with
    | none => simp [icePair, hqt, hqd] at hp
    | some d' =>
      simp only [icePair, hqt, hqd, Option.some.injEq, Prod.mk.injEq] at hp
      simp only [icePosB, hqt, hqd, Bool.and_eq_true, decide_eq_true_eq] at h
      rw [← hp.1, ← hp.2]
      exact h

theorem processLimitCore_ok (bk : OrderBook) (q : Quote) (idN ts : Nat)
    (price : Int) (fuel : Nat) (h : bookOk bk) (hice : icePosB q = true) :
    bookOk (processLimitCore bk q idN ts price fuel).1 := by
  have hloop := pll_ok q.side price q.tid fuel bk q.qty h
  by_cases hioc : q.tif = TIF.IOC
  · simpa [processLimitCore, hioc] using hloop
  · by_cases hqL : (processLimitLoop bk q.side price q.qty q.tid fuel).2.1 ≤ 0
    · simpa [processLimitCore, hioc, hqL] using hloop
    · simp only [processLimitCore, if_neg hioc, if_neg hqL]
      exact restResidual_ok _ q.side price _ q.tid idN ts (icePair q) hloop
        (by omega) (icePair_pos q hice)

theorem processLimit_ok (bk : OrderBook) (q : Quote) (idN ts fuel : Nat)
    (h : bookOk bk) (hice : icePosB q = true) :
    bookOk (processLimit bk q idN ts fuel).1 := by
  by_cases hfok : q.tif = TIF.FOK ∧ q.qty > sumDepthFok bk q.side q.price
  · simpa [processLimit, hfok] using h
  · by_cases hguard : (q.post_only && isMarketable bk q.side q.price) = true
    · by_cases hmode : q.post_only_mode = POMode.reject
      · simpa [processLimit, hfok, hguard, hmode] using h
      · by_cases hmk2 : isMarketable bk q.side
            (repriceToPassive bk q.side q.price) = true
        · simpa [processLimit, hfok, hguard, hmode, hmk2] using h
        · simp only [processLimit, if_neg hfok, hguard, if_true, if_neg hmode]
          rw [if_neg (by simpa using hmk2)]
          exact processLimitCore_ok bk q idN ts _ fuel h hice
    · simp only [processLimit, if_neg hfok]
      rw [if_neg (by simpa using hguard)]
      exact processLimitCore_ok bk q idN ts q.price fuel h hice

/-- `processOrder` preserves the Book Side and registry invariants. -/
theorem processOrder_ok (bk : OrderBook) (q : Quote) (fuel : Nat)
    (h : bookOk bk) (hice : icePosB q = true) :
    bookOk (processOrder bk q fuel).1 := by
  cases hid : q.idNum with
  | none =>
    cases hty : q.type_ with
    | market =>
      have := pml_ok q.side q.tid fuel
        { bk with time := bk.time + 1, nextQuoteID := bk.nextQuoteID + 1 } q.qty h
      simpa [processOrder, hid, hty] using this
    | limit =>
      have := processLimit_ok
        { bk with time := bk.time + 1, nextQuoteID := bk.nextQuoteID + 1 } q
        bk.nextQuoteID (q.timestamp.getD bk.time) fuel h hice
      simpa [processOrder, hid, hty] using this
  | some i =>
    cases hty : q.type_ with
    | market =>
      have := pml_ok q.side q.tid fuel { bk with time := bk.time + 1 } q.qty h
      simpa [processOrder, hid, hty] using this
    | limit =>
      have := processLimit_ok { bk with time := bk.time + 1 } q i
        (q.timestamp.getD bk.time) fuel h hice
      simpa [processOrder, hid, hty] using this

/-- C8.  The Book Side structural invariant — every indexed Price Level
has a non-empty FIFO queue (empty levels are pruned) and an aggregate
volume equal to the sum of its orders' remaining quantities, with one level
per tick — together with the registry-positivity invariant, is preserved by
every submission whose declared iceberg parameters (if any) are positive,
and by remove-by-id.  (Positivity of resting quantities is part of the
spec's data model, section 3.) -/
theorem book_side_invariant :
    (∀ (bk : OrderBook) (q : Quote) (fuel : Nat),
      bookOk bk → icePosB q = true → bookOk (processOrder bk q fuel).1) ∧
    (∀ (bs : BookSide) (i : Nat) (o : Order) (bs' : BookSide),
      sideOk bs → bs.removeById i = some (o, bs') → sideOk bs') :=
  ⟨fun bk q fuel h hice => processOrder_ok bk q fuel h hice,
   fun bs i o bs' h hrm => removeById_sideOk bs i o bs' h hrm⟩

/-- Witness for C8: a concrete iceberg submission and a concrete removal,
both preserving the invariants. -/
theorem book_side_invariant_witness :
    bookOk (processOrder poBook { mkLimit .ask 8 105 6 with
      iceberg_total := some 8, iceberg_display := some 3 } 20).1 ∧
    sideOk (((iceBook1.asks.removeById 1).map (fun r => r.2)).getD emptySide) := by
  constructor
  · exact book_side_invariant.1 poBook _ 20 (by decide) (by decide)
  · have h := book_side_invariant.2 iceBook1.asks 1
      ⟨1, 2, 101, 3, 0⟩ emptySide (by decide) (by decide)
    simpa using h

/-! ### Claim C6: price and time priority -/

/-- The list of ticks of a book side (the source's `prices` list). -/
def pricesOf (bk : OrderBook) (side : Side) : List Int :=
  ((bk.tree side).levels).map (fun l => l.price)

/-- Well-formedness needed for the price-priority argument on the consumed
side: strictly ascending tick index; every resting order carries its
level's tick; every registry entry's tick agrees with any resting order it
keys; all resting ids and registry keys are below the id counter. -/
def sideWF (bk : OrderBook) (side : Side) : Prop :=
  List.Chain' (· < ·) (pricesOf bk side) ∧
  (∀ l ∈ (bk.tree side).levels, ∀ o ∈ l.queue, o.price = l.price) ∧
  (∀ p ∈ bk.icebergs, ∀ l ∈ (bk.tree side).levels, ∀ o ∈ l.queue,
    o.idNum = p.1 → p.2.price = o.price) ∧
  (∀ l ∈ (bk.tree side).levels, ∀ o ∈ l.queue, o.idNum < bk.nextQuoteID) ∧
  (∀ p ∈ bk.icebergs, p.1 < bk.nextQuoteID)

instance sideWF_decidable (bk : OrderBook) (side : Side) :
    Decidable (sideWF bk side) :=
  inferInstanceAs (Decidable (
    List.Chain' (· < ·) (pricesOf bk side) ∧
    (∀ l ∈ (bk.tree side).levels, ∀ o ∈ l.queue, o.price = l.price) ∧
    (∀ p ∈ bk.icebergs, ∀ l ∈ (bk.tree side).levels, ∀ o ∈ l.queue,
      o.idNum = p.1 → p.2.price = o.price) ∧
    (∀ l ∈ (bk.tree side).levels, ∀ o ∈ l.queue, o.idNum < bk.nextQuoteID) ∧
    (∀ p ∈ bk.icebergs, p.1 < bk.nextQuoteID)))

theorem sorted_head_min (x : Int) (xs : List Int)
    (h : List.Chain' (· < ·) (x :: xs)) : ∀ y ∈ x :: xs, x ≤ y := by
  induction xs generalizing x with
  | nil =>
    intro y hy
    simp at hy
    omega
  | cons b bs ih =>
    intro y hy
    rcases List.mem_cons.mp hy with he | hm
    · omega
    · have hxb : x < b := (List.chain'_cons.mp h).1
      have := ih b (List.chain'_cons.mp h).2 y hm
      omega

theorem sorted_last_max (x : Int) (xs : List Int)
    (h : List.Chain' (· < ·) (x :: xs)) :
    ∀ y ∈ x :: xs, ∀ m ∈ (x :: xs).getLast?, y ≤ m := by
  induction xs generalizing x with
  | nil =>
    intro y hy m hm
    simp at hy hm
    omega
  | cons b bs ih =>
    intro y hy m hm
    have hxb : x < b := (List.chain'_cons.mp h).1
    have hm' : m ∈ (b :: bs).getLast? := by
      simpa [List.getLast?_cons_cons] using hm
    rcases List.mem_cons.mp hy with he | hmem
    · have := ih b (List.chain'_cons.mp h).2 b (List.mem_cons_self _ _) m hm'
      omega
    · exact ih b (List.chain'_cons.mp h).2 y hmem m hm'

theorem insertLevelSorted_head_price (p : Int) (ℓ : List PriceLevel) :
    ((insertLevelSorted p ℓ).map (fun l => l.price)).head? = some p ∨
    ((insertLevelSorted p ℓ).map (fun l => l.price)).head? =
      (ℓ.map (fun l => l.price)).head? := by
  cases ℓ with
  | nil => exact Or.inl rfl
  | cons a as =>
    by_cases hlt : p < a.price
    · rw [insertLevelSorted_cons_lt p a as hlt]
      exact Or.inl rfl
    · rw [insertLevelSorted_cons_ge p a as hlt]
      exact Or.inr rfl

theorem insertLevelSorted_sorted (p : Int) (ℓ : List PriceLevel)
    (h : List.Chain' (· < ·) (ℓ.map (fun l => l.price)))
    (hnm : p ∉ ℓ.map (fun l => l.price)) :
    List.Chain' (· < ·) ((insertLevelSorted p ℓ).map (fun l => l.price)) := by
  induction ℓ with
  | nil => simp [insertLevelSorted]
  | cons a as ih =>
    have hnm1 : ¬ p = a.price := by
      intro e
      exact hnm (by simp [e])
    have hnm2 : p ∉ as.map (fun l => l.price) := by
      intro hc
      exact hnm (List.mem_cons_of_mem _ hc)
    by_cases hlt : p < a.price
    · rw [insertLevelSorted_cons_lt p a as hlt]
      simp only [List.map_cons]
      exact List.chain'_cons.mpr ⟨hlt, h⟩
    · have hgt : a.price < p := by omega
      rw [insertLevelSorted_cons_ge p a as hlt]
      simp only [List.map_cons]
      have htail := (List.chain'_cons'.mp h).2
      have hhead := (List.chain'_cons'.mp h).1
      refine List.chain'_cons'.mpr ⟨?_, ih htail hnm2⟩
      intro y hy
      rcases insertLevelSorted_head_price p as with hh | hh
      · rw [hh] at hy
        simp at hy
        omega
      · rw [hh] at hy
        exact hhead y hy

theorem consumeHead_queue_sub (l : PriceLevel) (need : Int) (x : Order)
    (hx : x ∈ (l.consumeHead need).2.2.queue) :
    ∃ y ∈ l.queue, x.price = y.price ∧ x.idNum = y.idNum := by
  obtain ⟨p, queue, v⟩ := l
  cases queue with
  | nil => simp [PriceLevel.consumeHead] at hx
  | cons hd tl =>
    by_cases hn : need ≤ 0
    · simp only [PriceLevel.consumeHead, if_pos hn] at hx
      rcases List.mem_cons.mp hx with hx | hx
      · exact ⟨hd, List.mem_cons_self _ _, by rw [hx], by rw [hx]⟩
      · exact ⟨x, List.mem_cons_of_mem _ hx, rfl, rfl⟩
    · by_cases hz : hd.qty - min need hd.qty = 0
      · simp [PriceLevel.consumeHead, hn, hz] at hx
        exact ⟨x, List.mem_cons_of_mem _ hx, rfl, rfl⟩
      · simp [PriceLevel.consumeHead, hn, hz] at hx
        rcases hx with hx | hx
        · exact ⟨hd, List.mem_cons_self _ _, by rw [hx], by rw [hx]⟩
        · exact ⟨x, List.mem_cons_of_mem _ hx, rfl, rfl⟩

theorem consumeHead_removed_mem (l : PriceLevel) (need : Int) (o : Order)
    (h : (l.consumeHead need).2.1 = some o) :
    ∃ y ∈ l.queue, o.price = y.price ∧ o.idNum = y.idNum := by
  obtain ⟨p, queue, v⟩ := l
  cases queue with
  | nil => simp [PriceLevel.consumeHead] at h
  | cons hd tl =>
    by_cases hn : need ≤ 0
    · simp [PriceLevel.consumeHead, hn] at h
    · by_cases hz : hd.qty - min need hd.qty = 0
      · simp only [PriceLevel.consumeHead, if_neg hn, hz, if_pos] at h
        simp only [Option.some.injEq] at h
        exact ⟨hd, List.mem_cons_self _ _, by rw [← h], by rw [← h]⟩
      · simp [PriceLevel.consumeHead, hn, hz] at h

/-- Every trade record returned by `_process_price_level` executes at the
tick of the level being consumed. -/
theorem ppl_trades_price (side : Side) (price tid : Int) :
    ∀ (fuel : Nat) (bk : OrderBook) (qty : Int),
      ∀ t ∈ (processPriceLevel bk side price qty tid fuel).2.2, t.price = price := by
  intro fuel
  induction fuel with
  | zero =>
    intro bk qty t ht
    simp [processPriceLevel] at ht
  | succ fuel ih =>
    intro bk qty t ht
    cases hfl : findLevel ((bk.tree side).levels) price with
    | none => simp [processPriceLevel, hfl] at ht
    | some lvl =>
      by_cases hq0 : qty ≤ 0 ∨ lvl.queue.isEmpty = true
      · have hq0' : qty ≤ 0 ∨ lvl.queue = [] := by simpa using hq0
        simp [processPriceLevel, hfl, hq0'] at ht
      · have hq0' : ¬ (qty ≤ 0 ∨ lvl.queue = []) := by simpa using hq0
        rcases hch : lvl.consumeHead qty with ⟨taken, removed, lvl'⟩
        by_cases ht0 : taken = 0
        · simp [processPriceLevel, hfl, hch, hq0', ht0] at ht
        · cases removed with
          | none =>
            simp only [processPriceLevel, hfl, hch, if_neg hq0, if_neg ht0] at ht
            rcases List.mem_cons.mp ht with he | hm
            · rw [he]
            · exact ih _ _ t hm
          | some o =>
            simp only [processPriceLevel, hfl, hch, if_neg hq0, if_neg ht0] at ht
            by_cases hpe : lvl'.queue.isEmpty = true
            · rw [if_pos hpe] at ht
              simp at ht
              rw [ht]
            · rw [if_neg hpe] at ht
              rcases List.mem_cons.mp ht with he | hm
              · rw [he]
              · exact ih _ _ t hm

/-- Transfer of `sideWF` along a state change that only shrinks the tick
list, only drops registry entries, keeps the id counter, and maps every
resting order back to an original one with the same id and price at a
level of the same tick. -/
theorem sideWF_transfer (bk bk' : OrderBook) (side : Side) (h : sideWF bk side)
    (hpr : (pricesOf bk' side).Sublist (pricesOf bk side))
    (hreg : ∀ p ∈ bk'.icebergs, p ∈ bk.icebergs)
    (hqid : bk'.nextQuoteID = bk.nextQuoteID)
    (hmaps : ∀ l' ∈ (bk'.tree side).levels, ∀ o' ∈ l'.queue,
      ∃ l ∈ (bk.tree side).levels, ∃ o ∈ l.queue,
        o'.price = o.price ∧ o'.idNum = o.idNum ∧ l'.price = l.price) :
    sideWF bk' side := by
  refine ⟨?_, ?_, ?_, ?_, ?_⟩
  · exact List.Chain'.sublist h.1 hpr
  · intro l' hl' o' ho'
    obtain ⟨l, hl, o, ho, hp, _, hlp⟩ := hmaps l' hl' o' ho'
    rw [hp, hlp]
    exact h.2.1 l hl o ho
  · intro p hp l' hl' o' ho' hid'
    obtain ⟨l, hl, o, ho, hpe, hide, _⟩ := hmaps l' hl' o' ho'
    rw [hpe]
    exact h.2.2.1 p (hreg p hp) l hl o ho (by rw [← hide, hid'])
  · intro l' hl' o' ho'
    obtain ⟨l, hl, o, ho, _, hide, _⟩ := hmaps l' hl' o' ho'
    rw [hide, hqid]
    exact h.2.2.2.1 l hl o ho
  · intro p hp
    rw [hqid]
    exact h.2.2.2.2 p (hreg p hp)

theorem insertOrder_sorted (bs : BookSide) (o : Order)
    (h : List.Chain' (· < ·) (bs.levels.map (fun l => l.price))) :
    List.Chain' (· < ·) ((bs.insertOrder o).levels.map (fun l => l.price)) := by
  show List.Chain' (· < ·) ((updateLevel (ensureLevel bs.levels o.price) o.price
    (fun l => l.append o)).map (fun l => l.price))
  rw [updateLevel_map_price (ensureLevel bs.levels o.price) o.price
    (fun l => l.append o) (fun l _ => rfl)]
  unfold ensureLevel
  by_cases hh : hasLevel bs.levels o.price = true
  · rw [if_pos hh]
    exact h
  · rw [if_neg hh]
    exact insertLevelSorted_sorted o.price bs.levels h
      (hasLevel_false_not_mem _ _ (by simpa using hh))

theorem insertOrder_mem_price (bs : BookSide) (o : Order) (p' : Int)
    (h : p' ∈ (bs.insertOrder o).levels.map (fun l => l.price)) :
    p' = o.price ∨ p' ∈ bs.levels.map (fun l => l.price) := by
  have h' : p' ∈ (ensureLevel bs.levels o.price).map (fun l => l.price) := by
    have : (updateLevel (ensureLevel bs.levels o.price) o.price
        (fun l => l.append o)).map (fun l => l.price) =
        (ensureLevel bs.levels o.price).map (fun l => l.price) :=
      updateLevel_map_price _ _ _ (fun l _ => rfl)
    rw [← this]
    exact h
  unfold ensureLevel at h'
  by_cases hh : hasLevel bs.levels o.price = true
  · rw [if_pos hh] at h'
    exact Or.inr h'
  · rw [if_neg hh] at h'
    obtain ⟨l, hl, he⟩ := List.mem_map.mp h'
    rcases mem_insertLevelSorted _ _ _ hl with hf | hm
    · left
      rw [← he, hf]
    · right
      exact List.mem_map.mpr ⟨l, hm, he⟩

theorem insertOrder_order_mem (bs : BookSide) (o : Order) (l' : PriceLevel)
    (hl' : l' ∈ (bs.insertOrder o).levels) (x : Order) (hx : x ∈ l'.queue) :
    (∃ l ∈ bs.levels, x ∈ l.queue ∧ l'.price = l.price) ∨
      (x = o ∧ l'.price = o.price) := by
  obtain ⟨l, hl, he⟩ := mem_updateLevel _ _ _ _ hl'
  have hens : l = ⟨o.price, [], 0⟩ ∨ l ∈ bs.levels := by
    unfold ensureLevel at hl
    by_cases hh : hasLevel bs.levels o.price = true
    · rw [if_pos hh] at hl
      exact Or.inr hl
    · rw [if_neg hh] at hl
      exact mem_insertLevelSorted _ _ _ hl
  by_cases hp : l.price = o.price
  · rw [if_pos hp] at he
    rw [he] at hx
    have hx' : x ∈ l.queue ∨ x = o := by
      simpa [PriceLevel.append] using hx
    rcases hx' with hx' | hx'
    · rcases hens with hf | hm
      · rw [hf] at hx'
        simp at hx'
      · exact Or.inl ⟨l, hm, hx', by rw [he, append_price, hp]⟩
    · exact Or.inr ⟨hx', by rw [he, append_price, hp]⟩
  · rw [if_neg hp] at he
    rcases hens with hf | hm
    · exfalso
      apply hp
      rw [hf]
    · exact Or.inl ⟨l, hm, he ▸ hx, by rw [he]⟩

theorem tree_congr_fields (bk bk' : OrderBook) (hb : bk'.bids = bk.bids)
    (ha : bk'.asks = bk.asks) (s : Side) : bk'.tree s = bk.tree s := by
  cases s
  · exact hb
  · exact ha

/-- Inserting one fresh-id order and replacing the registry with entries
that are either the fresh re-registration (same tick as the new order) or
old entries preserves `sideWF`; the only new tick is the new order's. -/
theorem wf_insert_reg (bk : OrderBook) (side : Side) (onew : Order)
    (reg' : List (Nat × IceInfo)) (h : sideWF bk side)
    (hid : onew.idNum = bk.nextQuoteID)
    (hreg' : ∀ p ∈ reg',
      (p.1 = bk.nextQuoteID ∧ p.2.price = onew.price) ∨ p ∈ bk.icebergs)
    (bk' : OrderBook)
    (htr : bk'.tree side = (bk.tree side).insertOrder onew)
    (hic : bk'.icebergs = reg')
    (hqid : bk'.nextQuoteID = bk.nextQuoteID + 1) :
    sideWF bk' side ∧
    (∀ p' ∈ pricesOf bk' side, p' = onew.price ∨ p' ∈ pricesOf bk side) := by
  constructor
  · refine ⟨?_, ?_, ?_, ?_, ?_⟩
    · show List.Chain' (· < ·) (((bk'.tree side).levels).map (fun l => l.price))
      rw [htr]
      exact insertOrder_sorted _ _ h.1
    · intro l' hl' o' ho'
      rw [htr] at hl'
      rcases insertOrder_order_mem _ _ _ hl' _ ho' with ⟨l, hl, hol, hlp⟩ | ⟨he, hlp⟩
      · rw [hlp]
        exact h.2.1 l hl o' hol
      · rw [he, hlp]
    · intro p hp l' hl' o' ho' hidk
      rw [htr] at hl'
      rw [hic] at hp
      rcases insertOrder_order_mem _ _ _ hl' _ ho' with ⟨l, hl, hol, _⟩ | ⟨he, _⟩
      · rcases hreg' p hp with ⟨hk, _⟩ | hold
        · exfalso
          have := h.2.2.2.1 l hl o' hol
          rw [hidk, hk] at this
          omega
        · exact h.2.2.1 p hold l hl o' hol hidk
      · rcases hreg' p hp with ⟨_, hpp⟩ | hold
        · rw [hpp, he]
        · exfalso
          have := h.2.2.2.2 p hold
          rw [← hidk, he, hid] at this
          omega
    · intro l' hl' o' ho'
      rw [htr] at hl'
      rw [hqid]
      rcases insertOrder_order_mem _ _ _ hl' _ ho' with ⟨l, hl, hol, _⟩ | ⟨he, _⟩
      · have := h.2.2.2.1 l hl o' hol
        omega
      · rw [he, hid]
        omega
    · intro p hp
      rw [hic] at hp
      rw [hqid]
      rcases hreg' p hp with ⟨hk, _⟩ | hold
      · omega
      · have := h.2.2.2.2 p hold
        omega
  · intro p' hp'
    have hp'' : p' ∈ ((bk.tree side).insertOrder onew).levels.map
        (fun l => l.price) := by
      rw [pricesOf, htr] at hp'
      exact hp'
    exact insertOrder_mem_price _ _ _ hp''

/-- Iceberg replenishment preserves the side well-formedness, and the only
tick it can add to the side is the replenished entry's tick. -/
theorem wf_replenish (bk : OrderBook) (side : Side) (o : Order)
    (h : sideWF bk side) :
    sideWF (icebergReplenishIfNeeded bk side o) side ∧
    (∀ p' ∈ pricesOf (icebergReplenishIfNeeded bk side o) side,
      (∃ info, alookup bk.icebergs o.idNum = some info ∧ p' = info.price) ∨
        p' ∈ pricesOf bk side) := by
  cases hlk : alookup bk.icebergs o.idNum with
  | none =>
    simp only [icebergReplenishIfNeeded, hlk]
    exact ⟨h, fun p' hp' => Or.inr hp'⟩
  | some info =>
    simp only [icebergReplenishIfNeeded, hlk]
    by_cases hrem : info.remaining ≤ 0
    · rw [if_pos hrem]
      refine ⟨⟨h.1, h.2.1, ?_, h.2.2.2.1, ?_⟩, fun p' hp' => Or.inr hp'⟩
      · intro p hp l hl o' ho' hidk
        exact h.2.2.1 p (mem_aerase _ _ _ hp) l hl o' ho' hidk
      · intro p hp
        exact h.2.2.2.2 p (mem_aerase _ _ _ hp)
    · rw [if_neg hrem]
      by_cases hr : info.remaining - (info.display ⊓ info.remaining) > 0
      · rw [if_pos hr]
        have hregp : ∀ p ∈ aset (aerase bk.icebergs o.idNum) bk.nextQuoteID
            { info with
              remaining := info.remaining - min info.display info.remaining },
            (p.1 = bk.nextQuoteID ∧ p.2.price =
              (⟨bk.nextQuoteID, info.tid, info.price,
                min info.display info.remaining, bk.time⟩ : Order).price) ∨
              p ∈ bk.icebergs := by
          intro p hp
          rcases List.mem_cons.mp hp with hp | hp
          · exact Or.inl ⟨by rw [hp], by rw [hp]⟩
          · exact Or.inr (mem_aerase _ _ _ (mem_aerase _ _ _ hp))
        constructor
        · exact (wf_insert_reg bk side
            ⟨bk.nextQuoteID, info.tid, info.price,
              min info.display info.remaining, bk.time⟩
            (aset (aerase bk.icebergs o.idNum) bk.nextQuoteID
              { info with
                remaining := info.remaining - min info.display info.remaining })
            h rfl hregp _ (by cases side <;> rfl) (by cases side <;> rfl)
            (by cases side <;> rfl)).1
        · intro p' hp'
          rcases (wf_insert_reg bk side
              ⟨bk.nextQuoteID, info.tid, info.price,
                min info.display info.remaining, bk.time⟩
              (aset (aerase bk.icebergs o.idNum) bk.nextQuoteID
                { info with
                  remaining := info.remaining - min info.display info.remaining })
              h rfl hregp _ (by cases side <;> rfl) (by cases side <;> rfl)
              (by cases side <;> rfl)).2 p' hp' with he | hm
          · exact Or.inl ⟨info, rfl, he⟩
          · exact Or.inr hm
      · rw [if_neg hr]
        have hregp : ∀ p ∈ aerase bk.icebergs o.idNum,
            (p.1 = bk.nextQuoteID ∧ p.2.price =
              (⟨bk.nextQuoteID, info.tid, info.price,
                min info.display info.remaining, bk.time⟩ : Order).price) ∨
              p ∈ bk.icebergs :=
          fun p hp => Or.inr (mem_aerase _ _ _ hp)
        constructor
        · exact (wf_insert_reg bk side
            ⟨bk.nextQuoteID, info.tid, info.price,
              min info.display info.remaining, bk.time⟩
            (aerase bk.icebergs o.idNum)
            h rfl hregp _ (by cases side <;> rfl) (by cases side <;> rfl)
            (by cases side <;> rfl)).1
        · intro p' hp'
          rcases (wf_insert_reg bk side
              ⟨bk.nextQuoteID, info.tid, info.price,
                min info.display info.remaining, bk.time⟩
              (aerase bk.icebergs o.idNum)
              h rfl hregp _ (by cases side <;> rfl) (by cases side <;> rfl)
              (by cases side <;> rfl)).2 p' hp' with he | hm
          · exact Or.inl ⟨info, rfl, he⟩
          · exact Or.inr hm

theorem mem_of_head_opt {α : Type} (l : List α) (x : α) (h : l.head? = some x) :
    x ∈ l := by
  cases l with
  | nil => simp at h
  | cons a as =>
    simp at h
    simp [h]

theorem mem_of_getLast_opt {α : Type} (l : List α) (x : α)
    (h : l.getLast? = some x) : x ∈ l := by
  induction l with
  | nil => simp at h
  | cons a as ih =>
    cases as with
    | nil =>
      simp at h
      simp [h]
    | cons b bs =>
      rw [List.getLast?_cons_cons] at h
      exact List.mem_cons_of_mem _ (ih h)

/-- A constant list is `Chain'`-monotone for any reflexive order. -/
theorem chain_le_of_const (c : Int) (l : List Int) (hc : ∀ x ∈ l, x = c) :
    List.Chain' (fun a b => a ≤ b) l := by
  induction l with
  | nil => simp
  | cons a as ih =>
    refine List.chain'_cons'.mpr
      ⟨?_, ih (fun x hx => hc x (List.mem_cons_of_mem _ hx))⟩
    intro y hy
    have hya : y ∈ as := mem_of_head_opt _ _ hy
    rw [hc y (List.mem_cons_of_mem _ hya), hc a (List.mem_cons_self _ _)]

theorem chain_ge_of_const (c : Int) (l : List Int) (hc : ∀ x ∈ l, x = c) :
    List.Chain' (fun a b => b ≤ a) l := by
  induction l with
  | nil => simp
  | cons a as ih =>
    refine List.chain'_cons'.mpr
      ⟨?_, ih (fun x hx => hc x (List.mem_cons_of_mem _ hx))⟩
    intro y hy
    have hya : y ∈ as := mem_of_head_opt _ _ hy
    rw [hc y (List.mem_cons_of_mem _ hya), hc a (List.mem_cons_self _ _)]

/-- `sideWF` survives a state change that keeps both trees and the
registry and only bumps the id counter (time/tape changes included). -/
theorem sideWF_bump (bk bk' : OrderBook) (side : Side) (h : sideWF bk side)
    (hb : bk'.bids = bk.bids) (ha : bk'.asks = bk.asks)
    (hi : bk'.icebergs = bk.icebergs)
    (hq : bk.nextQuoteID ≤ bk'.nextQuoteID) : sideWF bk' side := by
  have ht : bk'.tree side = bk.tree side := tree_congr_fields bk bk' hb ha side
  refine ⟨?_, ?_, ?_, ?_, ?_⟩
  · show List.Chain' (· < ·) (((bk'.tree side).levels).map (fun l => l.price))
    rw [ht]
    exact h.1
  · intro l hl o ho
    rw [ht] at hl
    exact h.2.1 l hl o ho
  · intro p hp l hl o ho hid
    rw [hi] at hp
    rw [ht] at hl
    exact h.2.2.1 p hp l hl o ho hid
  · intro l hl o ho
    rw [ht] at hl
    have := h.2.2.2.1 l hl o ho
    omega
  · intro p hp
    rw [hi] at hp
    have := h.2.2.2.2 p hp
    omega

theorem getBestAsk_mem (bk : OrderBook) (ba : Int)
    (h : bk.getBestAsk = some ba) : ba ∈ pricesOf bk Side.ask := by
  unfold OrderBook.getBestAsk BookSide.bestPriceMin at h
  cases hl : bk.asks.levels with
  | nil =>
    rw [hl] at h
    simp at h
  | cons a as =>
    rw [hl] at h
    simp at h
    show ba ∈ (bk.asks.levels).map (fun l => l.price)
    rw [hl]
    simp [h]

theorem getBestBid_mem (bk : OrderBook) (bb : Int)
    (h : bk.getBestBid = some bb) : bb ∈ pricesOf bk Side.bid := by
  unfold OrderBook.getBestBid BookSide.bestPriceMax at h
  cases hg : bk.bids.levels.getLast? with
  | none =>
    rw [hg] at h
    simp at h
  | some l =>
    rw [hg] at h
    simp at h
    show bb ∈ (bk.bids.levels).map (fun l => l.price)
    exact List.mem_map.mpr ⟨l, mem_of_getLast_opt _ _ hg, h⟩

/-- Under `sideWF`, the best ask is a lower bound on every ask tick. -/
theorem getBestAsk_le (bk : OrderBook) (ba : Int) (h : sideWF bk Side.ask)
    (hba : bk.getBestAsk = some ba) : ∀ p ∈ pricesOf bk Side.ask, ba ≤ p := by
  have h1 : List.Chain' (· < ·) (pricesOf bk Side.ask) := h.1
  have hpr : pricesOf bk Side.ask = (bk.asks.levels).map (fun l => l.price) := rfl
  unfold OrderBook.getBestAsk BookSide.bestPriceMin at hba
  cases hl : bk.asks.levels with
  | nil =>
    rw [hl] at hba
    simp at hba
  | cons a as =>
    rw [hl] at hba
    simp at hba
    rw [hpr, hl] at h1 ⊢
    simp only [List.map_cons] at h1 ⊢
    rw [← hba]
    exact sorted_head_min a.price (as.map (fun l => l.price)) h1

/-- Under `sideWF`, the best bid is an upper bound on every bid tick. -/
theorem getBestBid_ge (bk : OrderBook) (bb : Int) (h : sideWF bk Side.bid)
    (hbb : bk.getBestBid = some bb) : ∀ p ∈ pricesOf bk Side.bid, p ≤ bb := by
  have h1 : List.Chain' (· < ·) (pricesOf bk Side.bid) := h.1
  have hpr : pricesOf bk Side.bid = (bk.bids.levels).map (fun l => l.price) := rfl
  unfold OrderBook.getBestBid BookSide.bestPriceMax at hbb
  cases hl : bk.bids.levels with
  | nil =>
    rw [hl] at hbb
    simp at hbb
  | cons a as =>
    rw [hl] at hbb
    rw [hpr, hl] at h1 ⊢
    intro p hp
    simp only [List.map_cons] at h1 hp
    refine sorted_last_max a.price (as.map (fun l => l.price)) h1 p hp bb ?_
    show bb ∈ ((a :: as).map (fun l => l.price)).getLast?
    rw [List.getLast?_map]
    rw [hbb]
    rfl

/-- `sideWF` transfer to the write-back state of `_process_price_level`
(consumed level written back, optionally followed by the empty-level
drop): the tick list only shrinks and every surviving order existed
before with the same id at the same tick. -/
theorem wf_consume_state (bk bk' : OrderBook) (side : Side) (price : Int)
    (lvl lvl' : PriceLevel) (h : sideWF bk side)
    (hfl : findLevel ((bk.tree side).levels) price = some lvl)
    (hsub : ∀ x ∈ lvl'.queue, ∃ y ∈ lvl.queue,
      x.price = y.price ∧ x.idNum = y.idNum)
    (hlp' : lvl'.price = price)
    (hlv : (bk'.tree side).levels =
        updateLevel ((bk.tree side).levels) price (fun _ => lvl') ∨
      (bk'.tree side).levels =
        dropLevel (updateLevel ((bk.tree side).levels) price (fun _ => lvl'))
          price)
    (hic : bk'.icebergs = bk.icebergs)
    (hqid : bk'.nextQuoteID = bk.nextQuoteID) :
    sideWF bk' side ∧ (pricesOf bk' side).Sublist (pricesOf bk side) := by
  have hupd : (updateLevel ((bk.tree side).levels) price (fun _ => lvl')).map
      (fun l => l.price) = ((bk.tree side).levels).map (fun l => l.price) :=
    updateLevel_map_price _ _ _ (fun l hl => by rw [hlp', hl])
  have hpr : (pricesOf bk' side).Sublist (pricesOf bk side) := by
    show ((bk'.tree side).levels.map (fun l => l.price)).Sublist
      ((bk.tree side).levels.map (fun l => l.price))
    rcases hlv with hlv | hlv
    · rw [hlv, hupd]
    · rw [hlv]
      exact hupd ▸ dropLevel_map_price_sublist _ _
  refine ⟨sideWF_transfer bk bk' side h hpr ?_ hqid ?_, hpr⟩
  · rw [hic]
    exact fun p hp => hp
  · intro l' hl' o' ho'
    have hl'' : l' ∈ updateLevel ((bk.tree side).levels) price (fun _ => lvl') := by
      rcases hlv with hlv | hlv
      · rw [hlv] at hl'
        exact hl'
      · rw [hlv] at hl'
        exact mem_dropLevel _ _ _ hl'
    obtain ⟨l, hl, he⟩ := mem_updateLevel _ _ _ _ hl''
    by_cases hp : l.price = price
    · rw [if_pos hp] at he
      rw [he] at ho'
      obtain ⟨y, hy, hyp, hyid⟩ := hsub o' ho'
      refine ⟨lvl, findLevel_mem _ _ _ hfl, y, hy, hyp, hyid, ?_⟩
      rw [he, hlp', findLevel_some_price _ _ _ hfl]
    · rw [if_neg hp] at he
      exact ⟨l, hl, o', he ▸ ho', rfl, rfl, by rw [he]⟩

/-- `_process_price_level` preserves `sideWF` on the consumed side, and
every tick of the final state is either the consumed tick (re-added by an
iceberg replenishment) or a tick that was already present. -/
theorem ppl_wf (side : Side) (price tid : Int) :
    ∀ (fuel : Nat) (bk : OrderBook) (qty : Int), sideWF bk side →
      sideWF (processPriceLevel bk side price qty tid fuel).1 side ∧
      ∀ p' ∈ pricesOf (processPriceLevel bk side price qty tid fuel).1 side,
        p' = price ∨ p' ∈ pricesOf bk side := by
  intro fuel
  induction fuel with
  | zero =>
    intro bk qty h
    exact ⟨h, fun p' hp' => Or.inr hp'⟩
  | succ fuel ih =>
    intro bk qty h
    cases hfl : findLevel ((bk.tree side).levels) price with
    | none =>
      have hres : processPriceLevel bk side price qty tid (fuel + 1) =
          (bk, qty, []) := by
        simp [processPriceLevel, hfl]
      rw [hres]
      exact ⟨h, fun p' hp' => Or.inr hp'⟩
    | some lvl =>
      by_cases hq0 : qty ≤ 0 ∨ lvl.queue.isEmpty = true
      · have hq0' : qty ≤ 0 ∨ lvl.queue = [] := by simpa using hq0
        have hres : processPriceLevel bk side price qty tid (fuel + 1) =
            (bk, qty, []) := by
          simp [processPriceLevel, hfl, hq0']
        rw [hres]
        exact ⟨h, fun p' hp' => Or.inr hp'⟩
      · rcases hch : lvl.consumeHead qty with ⟨taken, removed, lvl'⟩
        have hsub : ∀ x ∈ lvl'.queue, ∃ y ∈ lvl.queue,
            x.price = y.price ∧ x.idNum = y.idNum := by
          intro x hx
          exact consumeHead_queue_sub lvl qty x (by rw [hch]; exact hx)
        have hlp' : lvl'.price = price := by
          have hcp := consumeHead_price lvl qty
          rw [hch] at hcp
          simp only at hcp
          rw [hcp]
          exact findLevel_some_price _ _ _ hfl
        have hstep : ∀ bk2 : OrderBook, sideWF bk2 side →
            (∀ p2 ∈ pricesOf bk2 side, p2 = price ∨ p2 ∈ pricesOf bk side) →
            sideWF (processPriceLevel bk2 side price (qty - taken) tid fuel).1
              side ∧
            ∀ p' ∈ pricesOf
                (processPriceLevel bk2 side price (qty - taken) tid fuel).1 side,
              p' = price ∨ p' ∈ pricesOf bk side := by
          intro bk2 h2 hsubset
          refine ⟨(ih bk2 _ h2).1, ?_⟩
          intro p' hp'
          rcases (ih bk2 _ h2).2 p' hp' with he | hm
          · exact Or.inl he
          · exact hsubset p' hm
        by_cases ht0 : taken = 0
        · simp only [processPriceLevel, hfl, hch, if_neg hq0, if_pos ht0]
          refine ⟨(wf_consume_state bk _ side price lvl lvl' h hfl hsub hlp'
            (Or.inl (by simp)) (by simp) (by simp)).1, ?_⟩
          intro p' hp'
          exact Or.inr ((wf_consume_state bk _ side price lvl lvl' h hfl hsub
            hlp' (Or.inl (by simp)) (by simp) (by simp)).2.subset hp')
        · simp only [processPriceLevel, hfl, hch, if_neg hq0, if_neg ht0]
          cases removed with
          | none =>
            refine hstep _ (wf_consume_state bk _ side price lvl lvl' h hfl
              hsub hlp' (Or.inl (by simp)) (by simp) (by simp)).1 ?_
            intro p2 hp2
            exact Or.inr ((wf_consume_state bk _ side price lvl lvl' h hfl hsub
              hlp' (Or.inl (by simp)) (by simp) (by simp)).2.subset hp2)
          | some o =>
            have hinfo : ∀ info, alookup bk.icebergs o.idNum = some info →
                info.price = price := by
              intro info halk
              obtain ⟨y, hy, hyp, hyid⟩ :=
                consumeHead_removed_mem lvl qty o (by rw [hch])
              have hmem := alookup_mem bk.icebergs o.idNum info halk
              have hpe : info.price = y.price :=
                h.2.2.1 (o.idNum, info) hmem lvl (findLevel_mem _ _ _ hfl) y hy
                  (by rw [← hyid])
              have hyl : y.price = lvl.price :=
                h.2.1 lvl (findLevel_mem _ _ _ hfl) y hy
              rw [hpe, hyl]
              exact findLevel_some_price _ _ _ hfl
            set bs1 := { bk.tree side with
              levels := updateLevel (bk.tree side).levels price (fun _ => lvl') }
              with hbs1
            set bk2 := recordTrade (bk.setTree side bs1) taken price tid o.tid
              with hbk2
            have hl2 : (bk2.tree side).levels =
                updateLevel ((bk.tree side).levels) price (fun _ => lvl') := by
              rw [hbk2, recordTrade_tree, tree_setTree_same, hbs1]
            have hi2 : bk2.icebergs = bk.icebergs := by
              rw [hbk2, recordTrade_icebergs, setTree_icebergs]
            have hq2 : bk2.nextQuoteID = bk.nextQuoteID := by
              rw [hbk2, recordTrade_nextQuoteID, setTree_nextQuoteID]
            have hwf2 := wf_consume_state bk bk2 side price lvl lvl' h hfl hsub
              hlp' (Or.inl hl2) hi2 hq2
            cases halo : alookup ((bk2.tree side).orderMap) o.idNum with
            | none =>
              simp only [halo]
              by_cases hpe : lvl'.queue.isEmpty = true
              · simp only [if_pos hpe]
                set bk4 := bk2.setTree side { bk2.tree side with
                  levels := dropLevel (bk2.tree side).levels price } with hbk4
                have hl4 : (bk4.tree side).levels =
                    dropLevel (updateLevel ((bk.tree side).levels) price
                      (fun _ => lvl')) price := by
                  rw [hbk4, tree_setTree_same]
                  show dropLevel (bk2.tree side).levels price = _
                  rw [hl2]
                have hi4 : bk4.icebergs = bk.icebergs := by
                  rw [hbk4, setTree_icebergs]
                  exact hi2
                have hq4 : bk4.nextQuoteID = bk.nextQuoteID := by
                  rw [hbk4, setTree_nextQuoteID]
                  exact hq2
                have hwf4 := wf_consume_state bk bk4 side price lvl lvl' h hfl
                  hsub hlp' (Or.inr hl4) hi4 hq4
                refine ⟨(wf_replenish bk4 side o hwf4.1).1, ?_⟩
                intro p' hp'
                rcases (wf_replenish bk4 side o hwf4.1).2 p' hp' with
                  ⟨info, halk, he⟩ | hm
                · rw [hi4] at halk
                  exact Or.inl (he.trans (hinfo info halk))
                · exact Or.inr (hwf4.2.subset hm)
              · simp only [if_neg hpe]
                refine hstep _ (wf_replenish bk2 side o hwf2.1).1 ?_
                intro p2 hp2
                rcases (wf_replenish bk2 side o hwf2.1).2 p2 hp2 with
                  ⟨info, halk, he⟩ | hm
                · rw [hi2] at halk
                  exact Or.inl (he.trans (hinfo info halk))
                · exact Or.inr (hwf2.2.subset hm)
            | some oo =>
              simp only [halo]
              set bs2 := { bk2.tree side with
                orderMap := aerase (bk2.tree side).orderMap o.idNum
                nOrders := (bk2.tree side).nOrders - 1 } with hbs2
              set bk3 := bk2.setTree side bs2 with hbk3
              have hl3 : (bk3.tree side).levels =
                  updateLevel ((bk.tree side).levels) price (fun _ => lvl') := by
                rw [hbk3, tree_setTree_same, hbs2]
                exact hl2
              have hi3 : bk3.icebergs = bk.icebergs := by
                rw [hbk3, setTree_icebergs]
                exact hi2
              have hq3 : bk3.nextQuoteID = bk.nextQuoteID := by
                rw [hbk3, setTree_nextQuoteID]
                exact hq2
              have hwf3 := wf_consume_state bk bk3 side price lvl lvl' h hfl
                hsub hlp' (Or.inl hl3) hi3 hq3
              by_cases hpe : lvl'.queue.isEmpty = true
              · simp only [if_pos hpe]
                set bk4 := bk3.setTree side { bk3.tree side with
                  levels := dropLevel (bk3.tree side).levels price } with hbk4
                have hl4 : (bk4.tree side).levels =
                    dropLevel (updateLevel ((bk.tree side).levels) price
                      (fun _ => lvl')) price := by
                  rw [hbk4, tree_setTree_same]
                  show dropLevel (bk3.tree side).levels price = _
                  rw [hl3]
                have hi4 : bk4.icebergs = bk.icebergs := by
                  rw [hbk4, setTree_icebergs]
                  exact hi3
                have hq4 : bk4.nextQuoteID = bk.nextQuoteID := by
                  rw [hbk4, setTree_nextQuoteID]
                  exact hq3
                have hwf4 := wf_consume_state bk bk4 side price lvl lvl' h hfl
                  hsub hlp' (Or.inr hl4) hi4 hq4
                refine ⟨(wf_replenish bk4 side o hwf4.1).1, ?_⟩
                intro p' hp'
                rcases (wf_replenish bk4 side o hwf4.1).2 p' hp' with
                  ⟨info, halk, he⟩ | hm
                · rw [hi4] at halk
                  exact Or.inl (he.trans (hinfo info halk))
                · exact Or.inr (hwf4.2.subset hm)
              · simp only [if_neg hpe]
                refine hstep _ (wf_replenish bk3 side o hwf3.1).1 ?_
                intro p2 hp2
                rcases (wf_replenish bk3 side o hwf3.1).2 p2 hp2 with
                  ⟨info, halk, he⟩ | hm
                · rw [hi3] at halk
                  exact Or.inl (he.trans (hinfo info halk))
                · exact Or.inr (hwf3.2.subset hm)

/-- Crossing loop of `_process_limit`, bid taker: ask-side `sideWF` is
preserved, trade prices are nondecreasing, every trade executes at or
above the pre-loop best ask, and every surviving ask tick is at or above
some pre-loop ask tick. -/
theorem pll_mono_bid (price tid : Int) :
    ∀ (fuel : Nat) (bk : OrderBook) (qty : Int), sideWF bk Side.ask →
      sideWF (processLimitLoop bk Side.bid price qty tid fuel).1 Side.ask ∧
      List.Chain' (fun a b => a ≤ b)
        (((processLimitLoop bk Side.bid price qty tid fuel).2.2).map
          (fun t => t.price)) ∧
      (∀ t ∈ (processLimitLoop bk Side.bid price qty tid fuel).2.2,
        ∃ ba, bk.getBestAsk = some ba ∧ ba ≤ t.price) ∧
      (∀ p' ∈ pricesOf (processLimitLoop bk Side.bid price qty tid fuel).1
          Side.ask, ∃ p ∈ pricesOf bk Side.ask, p ≤ p') := by
  intro fuel
  induction fuel with
  | zero =>
    intro bk qty h
    exact ⟨h, by simp [processLimitLoop], by simp [processLimitLoop],
      fun p' hp' => ⟨p', hp', le_refl _⟩⟩
  | succ fuel ih =>
    intro bk qty h
    by_cases hq : qty ≤ 0
    · have hres : processLimitLoop bk Side.bid price qty tid (fuel + 1) =
          (bk, qty, []) := by
        simp [processLimitLoop, hq]
      rw [hres]
      exact ⟨h, by simp, by simp, fun p' hp' => ⟨p', hp', le_refl _⟩⟩
    · cases hba : bk.getBestAsk with
      | none =>
        have hres : processLimitLoop bk Side.bid price qty tid (fuel + 1) =
            (bk, qty, []) := by
          simp [processLimitLoop, hq, hba]
        rw [hres]
        exact ⟨h, by simp, by simp, fun p' hp' => ⟨p', hp', le_refl _⟩⟩
      | some ba =>
        by_cases hgt : ba > price
        · have hres : processLimitLoop bk Side.bid price qty tid (fuel + 1) =
              (bk, qty, []) := by
            simp [processLimitLoop, hq, hba, hgt]
          rw [hres]
          exact ⟨h, by simp, by simp, fun p' hp' => ⟨p', hp', le_refl _⟩⟩
        · simp only [processLimitLoop, if_neg hq, hba, if_neg hgt]
          rcases hr : processPriceLevel bk Side.ask ba qty tid fuel with
            ⟨bkr, qtyr, trs⟩
          simp only [hr]
          have hppl := ppl_wf Side.ask ba tid fuel bk qty h
          rw [hr] at hppl
          have hppl1 : sideWF bkr Side.ask := hppl.1
          have hppl2 : ∀ p' ∈ pricesOf bkr Side.ask,
              p' = ba ∨ p' ∈ pricesOf bk Side.ask := hppl.2
          have h0 := ppl_trades_price Side.ask ba tid fuel bk qty
          rw [hr] at h0
          have htba : ∀ t ∈ trs, t.price = ba := h0
          have hgeba : ∀ p2 ∈ pricesOf bkr Side.ask, ba ≤ p2 := by
            intro p2 hp2
            rcases hppl2 p2 hp2 with he | hm
            · omega
            · exact getBestAsk_le bk ba h hba p2 hm
          obtain ⟨hwf2, hch2, htr2, hpr2⟩ := ih bkr qtyr hppl1
          refine ⟨hwf2, ?_, ?_, ?_⟩
          · rw [List.map_append]
            refine List.Chain'.append ?_ hch2 ?_
            · refine chain_le_of_const ba _ ?_
              intro x hx
              obtain ⟨t, ht, he⟩ := List.mem_map.mp hx
              rw [← he]
              exact htba t ht
            · intro x hx y hy
              have hx' : x ∈ trs.map (fun t => t.price) :=
                mem_of_getLast_opt _ _ hx
              obtain ⟨t, ht, hxe⟩ := List.mem_map.mp hx'
              have hy' : y ∈
                  ((processLimitLoop bkr Side.bid price qtyr tid fuel).2.2).map
                    (fun t => t.price) := mem_of_head_opt _ _ hy
              obtain ⟨t2, ht2, hye⟩ := List.mem_map.mp hy'
              obtain ⟨ba2, hba2, hle2⟩ := htr2 t2 ht2
              have hmid := hgeba ba2 (getBestAsk_mem bkr ba2 hba2)
              have hxe' : t.price = x := hxe
              have hye' : t2.price = y := hye
              have hxba : t.price = ba := htba t ht
              omega
          · intro t ht
            rcases List.mem_append.mp ht with ht | ht
            · exact ⟨ba, rfl, le_of_eq (htba t ht).symm⟩
            · obtain ⟨ba2, hba2, hle2⟩ := htr2 t ht
              have hmid := hgeba ba2 (getBestAsk_mem bkr ba2 hba2)
              exact ⟨ba, rfl, by omega⟩
          · intro p' hp'
            obtain ⟨p2, hp2, hle⟩ := hpr2 p' hp'
            rcases hppl2 p2 hp2 with he | hm
            · exact ⟨ba, getBestAsk_mem bk ba hba, by omega⟩
            · exact ⟨p2, hm, hle⟩

/-- Crossing loop of `_process_limit`, ask taker: bid-side `sideWF` is
preserved, trade prices are nonincreasing, every trade executes at or
below the pre-loop best bid, and every surviving bid tick is at or below
some pre-loop bid tick. -/
theorem pll_mono_ask (price tid : Int) :
    ∀ (fuel : Nat) (bk : OrderBook) (qty : Int), sideWF bk Side.bid →
      sideWF (processLimitLoop bk Side.ask price qty tid fuel).1 Side.bid ∧
      List.Chain' (fun a b => b ≤ a)
        (((processLimitLoop bk Side.ask price qty tid fuel).2.2).map
          (fun t => t.price)) ∧
      (∀ t ∈ (processLimitLoop bk Side.ask price qty tid fuel).2.2,
        ∃ bb, bk.getBestBid = some bb ∧ t.price ≤ bb) ∧
      (∀ p' ∈ pricesOf (processLimitLoop bk Side.ask price qty tid fuel).1
          Side.bid, ∃ p ∈ pricesOf bk Side.bid, p' ≤ p) := by
  intro fuel
  induction fuel with
  | zero =>
    intro bk qty h
    exact ⟨h, by simp [processLimitLoop], by simp [processLimitLoop],
      fun p' hp' => ⟨p', hp', le_refl _⟩⟩
  | succ fuel ih =>
    intro bk qty h
    by_cases hq : qty ≤ 0
    · have hres : processLimitLoop bk Side.ask price qty tid (fuel + 1) =
          (bk, qty, []) := by
        simp [processLimitLoop, hq]
      rw [hres]
      exact ⟨h, by simp, by simp, fun p' hp' => ⟨p', hp', le_refl _⟩⟩
    · cases hbb : bk.getBestBid with
      | none =>
        have hres : processLimitLoop bk Side.ask price qty tid (fuel + 1) =
            (bk, qty, []) := by
          simp [processLimitLoop, hq, hbb]
        rw [hres]
        exact ⟨h, by simp, by simp, fun p' hp' => ⟨p', hp', le_refl _⟩⟩
      | some bb =>
        by_cases hlt : bb < price
        · have hres : processLimitLoop bk Side.ask price qty tid (fuel + 1) =
              (bk, qty, []) := by
            simp [processLimitLoop, hq, hbb, hlt]
          rw [hres]
          exact ⟨h, by simp, by simp, fun p' hp' => ⟨p', hp', le_refl _⟩⟩
        · simp only [processLimitLoop, if_neg hq, hbb, if_neg hlt]
          rcases hr : processPriceLevel bk Side.bid bb qty tid fuel with
            ⟨bkr, qtyr, trs⟩
          simp only [hr]
          have hppl := ppl_wf Side.bid bb tid fuel bk qty h
          rw [hr] at hppl
          have hppl1 : sideWF bkr Side.bid := hppl.1
          have hppl2 : ∀ p' ∈ pricesOf bkr Side.bid,
              p' = bb ∨ p' ∈ pricesOf bk Side.bid := hppl.2
          have h0 := ppl_trades_price Side.bid bb tid fuel bk qty
          rw [hr] at h0
          have htbb : ∀ t ∈ trs, t.price = bb := h0
          have hlebb : ∀ p2 ∈ pricesOf bkr Side.bid, p2 ≤ bb := by
            intro p2 hp2
            rcases hppl2 p2 hp2 with he | hm
            · omega
            · exact getBestBid_ge bk bb h hbb p2 hm
          obtain ⟨hwf2, hch2, htr2, hpr2⟩ := ih bkr qtyr hppl1
          refine ⟨hwf2, ?_, ?_, ?_⟩
          · rw [List.map_append]
            refine List.Chain'.append ?_ hch2 ?_
            · refine chain_ge_of_const bb _ ?_
              intro x hx
              obtain ⟨t, ht, he⟩ := List.mem_map.mp hx
              rw [← he]
              exact htbb t ht
            · intro x hx y hy
              have hx' : x ∈ trs.map (fun t => t.price) :=
                mem_of_getLast_opt _ _ hx
              obtain ⟨t, ht, hxe⟩ := List.mem_map.mp hx'
              have hy' : y ∈
                  ((processLimitLoop bkr Side.ask price qtyr tid fuel).2.2).map
                    (fun t => t.price) := mem_of_head_opt _ _ hy
              obtain ⟨t2, ht2, hye⟩ := List.mem_map.mp hy'
              obtain ⟨bb2, hbb2, hle2⟩ := htr2 t2 ht2
              have hmid := hlebb bb2 (getBestBid_mem bkr bb2 hbb2)
              have hxe' : t.price = x := hxe
              have hye' : t2.price = y := hye
              have hxbb : t.price = bb := htbb t ht
              omega
          · intro t ht
            rcases List.mem_append.mp ht with ht | ht
            · exact ⟨bb, rfl, le_of_eq (htbb t ht)⟩
            · obtain ⟨bb2, hbb2, hle2⟩ := htr2 t ht
              have hmid := hlebb bb2 (getBestBid_mem bkr bb2 hbb2)
              exact ⟨bb, rfl, by omega⟩
          · intro p' hp'
            obtain ⟨p2, hp2, hle⟩ := hpr2 p' hp'
            rcases hppl2 p2 hp2 with he | hm
            · exact ⟨bb, getBestBid_mem bk bb hbb, by omega⟩
            · exact ⟨p2, hm, hle⟩

/-- The `_process_market` loop, bid taker: same monotonicity facts as the
limit crossing loop. -/
theorem pml_mono_bid (tid : Int) :
    ∀ (fuel : Nat) (bk : OrderBook) (qty : Int), sideWF bk Side.ask →
      sideWF (processMarketLoop bk Side.bid qty tid fuel).1 Side.ask ∧
      List.Chain' (fun a b => a ≤ b)
        (((processMarketLoop bk Side.bid qty tid fuel).2.2).map
          (fun t => t.price)) ∧
      (∀ t ∈ (processMarketLoop bk Side.bid qty tid fuel).2.2,
        ∃ ba, bk.getBestAsk = some ba ∧ ba ≤ t.price) ∧
      (∀ p' ∈ pricesOf (processMarketLoop bk Side.bid qty tid fuel).1
          Side.ask, ∃ p ∈ pricesOf bk Side.ask, p ≤ p') := by
  intro fuel
  induction fuel with
  | zero =>
    intro bk qty h
    exact ⟨h, by simp [processMarketLoop], by simp [processMarketLoop],
      fun p' hp' => ⟨p', hp', le_refl _⟩⟩
  | succ fuel ih =>
    intro bk qty h
    by_cases hq : qty ≤ 0
    · have hres : processMarketLoop bk Side.bid qty tid (fuel + 1) =
          (bk, qty, []) := by
        simp [processMarketLoop, hq]
      rw [hres]
      exact ⟨h, by simp, by simp, fun p' hp' => ⟨p', hp', le_refl _⟩⟩
    · cases hba : bk.getBestAsk with
      | none =>
        have hres : processMarketLoop bk Side.bid qty tid (fuel + 1) =
            (bk, qty, []) := by
          simp [processMarketLoop, hq, hba]
        rw [hres]
        exact ⟨h, by simp, by simp, fun p' hp' => ⟨p', hp', le_refl _⟩⟩
      | some ba =>
        simp only [processMarketLoop, if_neg hq, hba]
        rcases hr : processPriceLevel bk Side.ask ba qty tid fuel with
          ⟨bkr, qtyr, trs⟩
        simp only [hr]
        have hppl := ppl_wf Side.ask ba tid fuel bk qty h
        rw [hr] at hppl
        have hppl1 : sideWF bkr Side.ask := hppl.1
        have hppl2 : ∀ p' ∈ pricesOf bkr Side.ask,
            p' = ba ∨ p' ∈ pricesOf bk Side.ask := hppl.2
        have h0 := ppl_trades_price Side.ask ba tid fuel bk qty
        rw [hr] at h0
        have htba : ∀ t ∈ trs, t.price = ba := h0
        have hgeba : ∀ p2 ∈ pricesOf bkr Side.ask, ba ≤ p2 := by
          intro p2 hp2
          rcases hppl2 p2 hp2 with he | hm
          · omega
          · exact getBestAsk_le bk ba h hba p2 hm
        obtain ⟨hwf2, hch2, htr2, hpr2⟩ := ih bkr qtyr hppl1
        refine ⟨hwf2, ?_, ?_, ?_⟩
        · rw [List.map_append]
          refine List.Chain'.append ?_ hch2 ?_
          · refine chain_le_of_const ba _ ?_
            intro x hx
            obtain ⟨t, ht, he⟩ := List.mem_map.mp hx
            rw [← he]
            exact htba t ht
          · intro x hx y hy
            have hx' : x ∈ trs.map (fun t => t.price) :=
              mem_of_getLast_opt _ _ hx
            obtain ⟨t, ht, hxe⟩ := List.mem_map.mp hx'
            have hy' : y ∈
                ((processMarketLoop bkr Side.bid qtyr tid fuel).2.2).map
                  (fun t => t.price) := mem_of_head_opt _ _ hy
            obtain ⟨t2, ht2, hye⟩ := List.mem_map.mp hy'
            obtain ⟨ba2, hba2, hle2⟩ := htr2 t2 ht2
            have hmid := hgeba ba2 (getBestAsk_mem bkr ba2 hba2)
            have hxe' : t.price = x := hxe
            have hye' : t2.price = y := hye
            have hxba : t.price = ba := htba t ht
            omega
        · intro t ht
          rcases List.mem_append.mp ht with ht | ht
          · exact ⟨ba, rfl, le_of_eq (htba t ht).symm⟩
          · obtain ⟨ba2, hba2, hle2⟩ := htr2 t ht
            have hmid := hgeba ba2 (getBestAsk_mem bkr ba2 hba2)
            exact ⟨ba, rfl, by omega⟩
        · intro p' hp'
          obtain ⟨p2, hp2, hle⟩ := hpr2 p' hp'
          rcases hppl2 p2 hp2 with he | hm
          · exact ⟨ba, getBestAsk_mem bk ba hba, by omega⟩
          · exact ⟨p2, hm, hle⟩

/-- The `_process_market` loop, ask taker: dual monotonicity facts. -/
theorem pml_mono_ask (tid : Int) :
    ∀ (fuel : Nat) (bk : OrderBook) (qty : Int), sideWF bk Side.bid →
      sideWF (processMarketLoop bk Side.ask qty tid fuel).1 Side.bid ∧
      List.Chain' (fun a b => b ≤ a)
        (((processMarketLoop bk Side.ask qty tid fuel).2.2).map
          (fun t => t.price)) ∧
      (∀ t ∈ (processMarketLoop bk Side.ask qty tid fuel).2.2,
        ∃ bb, bk.getBestBid = some bb ∧ t.price ≤ bb) ∧
      (∀ p' ∈ pricesOf (processMarketLoop bk Side.ask qty tid fuel).1
          Side.bid, ∃ p ∈ pricesOf bk Side.bid, p' ≤ p) := by
  intro fuel
  induction fuel with
  | zero =>
    intro bk qty h
    exact ⟨h, by simp [processMarketLoop], by simp [processMarketLoop],
      fun p' hp' => ⟨p', hp', le_refl _⟩⟩
  | succ fuel ih =>
    intro bk qty h
    by_cases hq : qty ≤ 0
    · have hres : processMarketLoop bk Side.ask qty tid (fuel + 1) =
          (bk, qty, []) := by
        simp [processMarketLoop, hq]
      rw [hres]
      exact ⟨h, by simp, by simp, fun p' hp' => ⟨p', hp', le_refl _⟩⟩
    · cases hbb : bk.getBestBid with
      | none =>
        have hres : processMarketLoop bk Side.ask qty tid (fuel + 1) =
            (bk, qty, []) := by
          simp [processMarketLoop, hq, hbb]
        rw [hres]
        exact ⟨h, by simp, by simp, fun p' hp' => ⟨p', hp', le_refl _⟩⟩
      | some bb =>
        simp only [processMarketLoop, if_neg hq, hbb]
        rcases hr : processPriceLevel bk Side.bid bb qty tid fuel with
          ⟨bkr, qtyr, trs⟩
        simp only [hr]
        have hppl := ppl_wf Side.bid bb tid fuel bk qty h
        rw [hr] at hppl
        have hppl1 : sideWF bkr Side.bid := hppl.1
        have hppl2 : ∀ p' ∈ pricesOf bkr Side.bid,
            p' = bb ∨ p' ∈ pricesOf bk Side.bid := hppl.2
        have h0 := ppl_trades_price Side.bid bb tid fuel bk qty
        rw [hr] at h0
        have htbb : ∀ t ∈ trs, t.price = bb := h0
        have hlebb : ∀ p2 ∈ pricesOf bkr Side.bid, p2 ≤ bb := by
          intro p2 hp2
          rcases hppl2 p2 hp2 with he | hm
          · omega
          · exact getBestBid_ge bk bb h hbb p2 hm
        obtain ⟨hwf2, hch2, htr2, hpr2⟩ := ih bkr qtyr hppl1
        refine ⟨hwf2, ?_, ?_, ?_⟩
        · rw [List.map_append]
          refine List.Chain'.append ?_ hch2 ?_
          · refine chain_ge_of_const bb _ ?_
            intro x hx
            obtain ⟨t, ht, he⟩ := List.mem_map.mp hx
            rw [← he]
            exact htbb t ht
          · intro x hx y hy
            have hx' : x ∈ trs.map (fun t => t.price) :=
              mem_of_getLast_opt _ _ hx
            obtain ⟨t, ht, hxe⟩ := List.mem_map.mp hx'
            have hy' : y ∈
                ((processMarketLoop bkr Side.ask qtyr tid fuel).2.2).map
                  (fun t => t.price) := mem_of_head_opt _ _ hy
            obtain ⟨t2, ht2, hye⟩ := List.mem_map.mp hy'
            obtain ⟨bb2, hbb2, hle2⟩ := htr2 t2 ht2
            have hmid := hlebb bb2 (getBestBid_mem bkr bb2 hbb2)
            have hxe' : t.price = x := hxe
            have hye' : t2.price = y := hye
            have hxbb : t.price = bb := htbb t ht
            omega
        · intro t ht
          rcases List.mem_append.mp ht with ht | ht
          · exact ⟨bb, rfl, le_of_eq (htbb t ht)⟩
          · obtain ⟨bb2, hbb2, hle2⟩ := htr2 t ht
            have hmid := hlebb bb2 (getBestBid_mem bkr bb2 hbb2)
            exact ⟨bb, rfl, by omega⟩
        · intro p' hp'
          obtain ⟨p2, hp2, hle⟩ := hpr2 p' hp'
          rcases hppl2 p2 hp2 with he | hm
          · exact ⟨bb, getBestBid_mem bk bb hbb, by omega⟩
          · exact ⟨p2, hm, hle⟩

theorem processLimitCore_trades (bk : OrderBook) (q : Quote) (idN ts : Nat)
    (price : Int) (fuel : Nat) :
    (processLimitCore bk q idN ts price fuel).2.1 =
      (processLimitLoop bk q.side price q.qty q.tid fuel).2.2 := by
  by_cases hioc : q.tif = TIF.IOC
  · simp [processLimitCore, hioc]
  · by_cases hqL : (processLimitLoop bk q.side price q.qty q.tid fuel).2.1 ≤ 0
    · simp [processLimitCore, hioc, hqL]
    · simp [processLimitCore, hioc, hqL]

/-- The trade list returned by `_process_limit` is empty (a guard fired) or
is exactly the crossing loop's trade list at some effective price. -/
theorem processLimit_trades (bk : OrderBook) (q : Quote) (idN ts fuel : Nat) :
    (processLimit bk q idN ts fuel).2.1 = [] ∨
    ∃ price, (processLimit bk q idN ts fuel).2.1 =
      (processLimitLoop bk q.side price q.qty q.tid fuel).2.2 := by
  by_cases hfok : q.tif = TIF.FOK ∧ q.qty > sumDepthFok bk q.side q.price
  · left
    simp [processLimit, hfok]
  · by_cases hguard : (q.post_only && isMarketable bk q.side q.price) = true
    · by_cases hmode : q.post_only_mode = POMode.reject
      · left
        simp [processLimit, hfok, hguard, hmode]
      · by_cases hmk2 : isMarketable bk q.side
          (repriceToPassive bk q.side q.price) = true
        · left
          simp [processLimit, hfok, hguard, hmode, hmk2]
        · right
          refine ⟨repriceToPassive bk q.side q.price, ?_⟩
          simp only [processLimit, if_neg hfok, hguard, if_true, if_neg hmode]
          rw [if_neg (by simpa using hmk2)]
          exact processLimitCore_trades bk q idN ts
            (repriceToPassive bk q.side q.price) fuel
    · right
      refine ⟨q.price, ?_⟩
      simp only [processLimit, if_neg hfok]
      rw [if_neg (by simpa using hguard)]
      exact processLimitCore_trades bk q idN ts q.price fuel

/-- Price-priority conclusions lifted to `processOrder`, bid taker. -/
theorem processOrder_mono_bid (bk : OrderBook) (q : Quote) (fuel : Nat)
    (h : sideWF bk Side.ask) (hs : q.side = Side.bid) :
    List.Chain' (fun a b => a ≤ b)
      (((processOrder bk q fuel).2.1).map (fun t => t.price)) ∧
    ∀ t ∈ (processOrder bk q fuel).2.1,
      ∃ ba, bk.getBestAsk = some ba ∧ ba ≤ t.price := by
  cases hid : q.idNum with
  | none =>
    cases hty : q.type_ with
    | market =>
      obtain ⟨hwf2, hch2, htr2, hpr2⟩ := pml_mono_bid q.tid fuel
        { bk with time := bk.time + 1, nextQuoteID := bk.nextQuoteID + 1 } q.qty
        (sideWF_bump bk _ Side.ask h rfl rfl rfl (Nat.le_succ _))
      constructor
      · simpa [processOrder, hid, hty, hs] using hch2
      · intro t ht
        have ht' : t ∈ (processMarketLoop
            { bk with time := bk.time + 1, nextQuoteID := bk.nextQuoteID + 1 }
            Side.bid q.qty q.tid fuel).2.2 := by
          simpa [processOrder, hid, hty, hs] using ht
        exact htr2 t ht'
    | limit =>
      rcases processLimit_trades
          { bk with time := bk.time + 1, nextQuoteID := bk.nextQuoteID + 1 } q
          bk.nextQuoteID (q.timestamp.getD bk.time) fuel with he | ⟨price, he⟩
      · constructor
        · have hres : (processOrder bk q fuel).2.1 = [] := by
            simp only [processOrder, hid, hty]
            exact he
          rw [hres]
          simp
        · intro t ht
          have ht' : t ∈ (processLimit
              { bk with time := bk.time + 1, nextQuoteID := bk.nextQuoteID + 1 }
              q bk.nextQuoteID (q.timestamp.getD bk.time) fuel).2.1 := by
            simpa [processOrder, hid, hty] using ht
          rw [he] at ht'
          simp at ht'
      · rw [hs] at he
        obtain ⟨hwf2, hch2, htr2, hpr2⟩ := pll_mono_bid price q.tid fuel
          { bk with time := bk.time + 1, nextQuoteID := bk.nextQuoteID + 1 } q.qty
          (sideWF_bump bk _ Side.ask h rfl rfl rfl (Nat.le_succ _))
        constructor
        · have hres : (processOrder bk q fuel).2.1 =
              (processLimitLoop
                { bk with time := bk.time + 1, nextQuoteID := bk.nextQuoteID + 1 }
                Side.bid price q.qty q.tid fuel).2.2 := by
            simp only [processOrder, hid, hty]
            exact he
          rw [hres]
          exact hch2
        · intro t ht
          have ht' : t ∈ (processLimitLoop
              { bk with time := bk.time + 1, nextQuoteID := bk.nextQuoteID + 1 }
              Side.bid price q.qty q.tid fuel).2.2 := by
            have := ht
            simp only [processOrder, hid, hty] at this
            rw [he] at this
            exact this
          exact htr2 t ht'
  | some i =>
    cases hty : q.type_ with
    | market =>
      obtain ⟨hwf2, hch2, htr2, hpr2⟩ := pml_mono_bid q.tid fuel
        { bk with time := bk.time + 1 } q.qty
        (sideWF_bump bk _ Side.ask h rfl rfl rfl (le_refl _))
      constructor
      · simpa [processOrder, hid, hty, hs] using hch2
      · intro t ht
        have ht' : t ∈ (processMarketLoop { bk with time := bk.time + 1 }
            Side.bid q.qty q.tid fuel).2.2 := by
          simpa [processOrder, hid, hty, hs] using ht
        exact htr2 t ht'
    | limit =>
      rcases processLimit_trades { bk with time := bk.time + 1 } q
          i (q.timestamp.getD bk.time) fuel with he | ⟨price, he⟩
      · constructor
        · have hres : (processOrder bk q fuel).2.1 = [] := by
            simp only [processOrder, hid, hty]
            exact he
          rw [hres]
          simp
        · intro t ht
          have ht' : t ∈ (processLimit { bk with time := bk.time + 1 }
              q i (q.timestamp.getD bk.time) fuel).2.1 := by
            simpa [processOrder, hid, hty] using ht
          rw [he] at ht'
          simp at ht'
      · rw [hs] at he
        obtain ⟨hwf2, hch2, htr2, hpr2⟩ := pll_mono_bid price q.tid fuel
          { bk with time := bk.time + 1 } q.qty
          (sideWF_bump bk _ Side.ask h rfl rfl rfl (le_refl _))
        constructor
        · have hres : (processOrder bk q fuel).2.1 =
              (processLimitLoop { bk with time := bk.time + 1 }
                Side.bid price q.qty q.tid fuel).2.2 := by
            simp only [processOrder, hid, hty]
            exact he
          rw [hres]
          exact hch2
        · intro t ht
          have ht' : t ∈ (processLimitLoop { bk with time := bk.time + 1 }
              Side.bid price q.qty q.tid fuel).2.2 := by
            have := ht
            simp only [processOrder, hid, hty] at this
            rw [he] at this
            exact this
          exact htr2 t ht'

/-- Price-priority conclusions lifted to `processOrder`, ask taker. -/
theorem processOrder_mono_ask (bk : OrderBook) (q : Quote) (fuel : Nat)
    (h : sideWF bk Side.bid) (hs : q.side = Side.ask) :
    List.Chain' (fun a b => b ≤ a)
      (((processOrder bk q fuel).2.1).map (fun t => t.price)) ∧
    ∀ t ∈ (processOrder bk q fuel).2.1,
      ∃ bb, bk.getBestBid = some bb ∧ t.price ≤ bb := by
  cases hid : q.idNum with
  | none =>
    cases hty : q.type_ with
    | market =>
      obtain ⟨hwf2, hch2, htr2, hpr2⟩ := pml_mono_ask q.tid fuel
        { bk with time := bk.time + 1, nextQuoteID := bk.nextQuoteID + 1 } q.qty
        (sideWF_bump bk _ Side.bid h rfl rfl rfl (Nat.le_succ _))
      constructor
      · simpa [processOrder, hid, hty, hs] using hch2
      · intro t ht
        have ht' : t ∈ (processMarketLoop
            { bk with time := bk.time + 1, nextQuoteID := bk.nextQuoteID + 1 }
            Side.ask q.qty q.tid fuel).2.2 := by
          simpa [processOrder, hid, hty, hs] using ht
        exact htr2 t ht'
    | limit =>
      rcases processLimit_trades
          { bk with time := bk.time + 1, nextQuoteID := bk.nextQuoteID + 1 } q
          bk.nextQuoteID (q.timestamp.getD bk.time) fuel with he | ⟨price, he⟩
      · constructor
        · have hres : (processOrder bk q fuel).2.1 = [] := by
            simp only [processOrder, hid, hty]
            exact he
          rw [hres]
          simp
        · intro t ht
          have ht' : t ∈ (processLimit
              { bk with time := bk.time + 1, nextQuoteID := bk.nextQuoteID + 1 }
              q bk.nextQuoteID (q.timestamp.getD bk.time) fuel).2.1 := by
            simpa [processOrder, hid, hty] using ht
          rw [he] at ht'
          simp at ht'
      · rw [hs] at he
        obtain ⟨hwf2, hch2, htr2, hpr2⟩ := pll_mono_ask price q.tid fuel
          { bk with time := bk.time + 1, nextQuoteID := bk.nextQuoteID + 1 } q.qty
          (sideWF_bump bk _ Side.bid h rfl rfl rfl (Nat.le_succ _))
        constructor
        · have hres : (processOrder bk q fuel).2.1 =
              (processLimitLoop
                { bk with time := bk.time + 1, nextQuoteID := bk.nextQuoteID + 1 }
                Side.ask price q.qty q.tid fuel).2.2 := by
            simp only [processOrder, hid, hty]
            exact he
          rw [hres]
          exact hch2
        · intro t ht
          have ht' : t ∈ (processLimitLoop
              { bk with time := bk.time + 1, nextQuoteID := bk.nextQuoteID + 1 }
              Side.ask price q.qty q.tid fuel).2.2 := by
            have := ht
            simp only [processOrder, hid, hty] at this
            rw [he] at this
            exact this
          exact htr2 t ht'
  | some i =>
    cases hty : q.type_ with
    | market =>
      obtain ⟨hwf2, hch2, htr2, hpr2⟩ := pml_mono_ask q.tid fuel
        { bk with time := bk.time + 1 } q.qty
        (sideWF_bump bk _ Side.bid h rfl rfl rfl (le_refl _))
      constructor
      · simpa [processOrder, hid, hty, hs] using hch2
      · intro t ht
        have ht' : t ∈ (processMarketLoop { bk with time := bk.time + 1 }
            Side.ask q.qty q.tid fuel).2.2 := by
          simpa [processOrder, hid, hty, hs] using ht
        exact htr2 t ht'
    | limit =>
      rcases processLimit_trades { bk with time := bk.time + 1 } q
          i (q.timestamp.getD bk.time) fuel with he | ⟨price, he⟩
      · constructor
        · have hres : (processOrder bk q fuel).2.1 = [] := by
            simp only [processOrder, hid, hty]
            exact he
          rw [hres]
          simp
        · intro t ht
          have ht' : t ∈ (processLimit { bk with time := bk.time + 1 }
              q i (q.timestamp.getD bk.time) fuel).2.1 := by
            simpa [processOrder, hid, hty] using ht
          rw [he] at ht'
          simp at ht'
      · rw [hs] at he
        obtain ⟨hwf2, hch2, htr2, hpr2⟩ := pll_mono_ask price q.tid fuel
          { bk with time := bk.time + 1 } q.qty
          (sideWF_bump bk _ Side.bid h rfl rfl rfl (le_refl _))
        constructor
        · have hres : (processOrder bk q fuel).2.1 =
              (processLimitLoop { bk with time := bk.time + 1 }
                Side.ask price q.qty q.tid fuel).2.2 := by
            simp only [processOrder, hid, hty]
            exact he
          rw [hres]
          exact hch2
        · intro t ht
          have ht' : t ∈ (processLimitLoop { bk with time := bk.time + 1 }
              Side.ask price q.qty q.tid fuel).2.2 := by
            have := ht
            simp only [processOrder, hid, hty] at this
            rw [he] at this
            exact this
          exact htr2 t ht'

/-- `consume_head` only ever touches the first-arrived order of the FIFO
queue: a partial fill rewrites the head in place, a full fill pops exactly
the head, and the tail is untouched either way. -/
theorem consumeHead_fifo (l : PriceLevel) (hd : Order) (tl : List Order)
    (need : Int) (hq : l.queue = hd :: tl) (hpos : 0 < need) :
    (need < hd.qty →
      (l.consumeHead need).2.2.queue = { hd with qty := hd.qty - need } :: tl ∧
      (l.consumeHead need).2.1 = none) ∧
    (hd.qty ≤ need →
      (l.consumeHead need).2.2.queue = tl ∧
      (l.consumeHead need).2.1 = some { hd with qty := 0 }) := by
  obtain ⟨p, queue, v⟩ := l
  simp only at hq
  subst hq
  constructor
  · intro hlt
    have hn : ¬ need ≤ 0 := by omega
    have hmin : min need hd.qty = need := by omega
    have hz : ¬ hd.qty - need = 0 := by omega
    simp [PriceLevel.consumeHead, hn, hmin, hz]
  · intro hge
    have hn : ¬ need ≤ 0 := by omega
    have hmin : min need hd.qty = hd.qty := by omega
    simp [PriceLevel.consumeHead, hn, hmin]

/-- `insert_order` appends the new order at the tail of the FIFO queue of
its tick's level (creating the level if absent). -/
theorem insertOrder_queue (bs : BookSide) (o : Order) :
    ∃ l', findLevel ((bs.insertOrder o).levels) o.price = some l' ∧
      l'.queue =
        ((findLevel bs.levels o.price).map (fun l => l.queue)).getD [] ++ [o] := by
  show ∃ l', findLevel (updateLevel (ensureLevel bs.levels o.price) o.price
    (fun l => l.append o)) o.price = some l' ∧ _
  rw [findLevel_updateLevel_self _ _ _ (fun l => append_price l o),
    findLevel_ensureLevel_self]
  cases hf : findLevel bs.levels o.price with
  | none =>
    refine ⟨(PriceLevel.mk o.price [] 0).append o, by simp [hf], ?_⟩
    simp [PriceLevel.append]
  | some l =>
    refine ⟨l.append o, by simp [hf], ?_⟩
    simp [PriceLevel.append]

/-- `_iceberg_replenish_if_needed` with hidden quantity remaining: the
fresh clip carries the brand-new id (the current id counter) and lands at
the very tail of the queue at the entry's tick, after every previously
resting order there. -/
theorem icebergReplenish_appends (bk : OrderBook) (side : Side) (o : Order)
    (info : IceInfo) (halk : alookup bk.icebergs o.idNum = some info)
    (hrem : 0 < info.remaining) :
    ∃ l', findLevel (((icebergReplenishIfNeeded bk side o).tree side).levels)
        info.price = some l' ∧
      l'.queue =
        ((findLevel ((bk.tree side).levels) info.price).map
          (fun l => l.queue)).getD [] ++
        [⟨bk.nextQuoteID, info.tid, info.price,
          min info.display info.remaining, bk.time⟩] := by
  simp only [icebergReplenishIfNeeded, halk]
  rw [if_neg (by omega)]
  by_cases hr : info.remaining - min info.display info.remaining > 0
  · rw [if_pos hr]
    cases side
    · exact insertOrder_queue bk.bids
        ⟨bk.nextQuoteID, info.tid, info.price,
          min info.display info.remaining, bk.time⟩
    · exact insertOrder_queue bk.asks
        ⟨bk.nextQuoteID, info.tid, info.price,
          min info.display info.remaining, bk.time⟩
  · rw [if_neg hr]
    cases side
    · exact insertOrder_queue bk.bids
        ⟨bk.nextQuoteID, info.tid, info.price,
          min info.display info.remaining, bk.time⟩
    · exact insertOrder_queue bk.asks
        ⟨bk.nextQuoteID, info.tid, info.price,
          min info.display info.remaining, bk.time⟩

/-- C6.  Price-time priority.  Price priority: on a well-formed book
(strictly ascending ticks, orders at their level's tick, registry ticks
consistent, ids below the id counter), a bid-side submission produces
trades at nondecreasing ticks, each at or above the pre-submission best
ask — the numerically lowest resting ask tick is consumed before any
higher one; symmetrically an ask-side submission trades at nonincreasing
ticks, each at or below the pre-submission best bid.  Time priority:
within one tick `consume_head` only ever consumes the first-arrived
(head) order of the FIFO queue, leaving the tail untouched, and an
iceberg replenishment is a new arrival: its clip carries the brand-new id
(the current id counter, exceeding every resting id on a well-formed
side) and is appended at the very tail of the queue at the entry's tick,
after all previously resting orders there. -/
theorem price_time_priority (bk : OrderBook) (q : Quote) (fuel : Nat) :
    (sideWF bk Side.ask → q.side = Side.bid →
      List.Chain' (fun a b => a ≤ b)
        (((processOrder bk q fuel).2.1).map (fun t => t.price)) ∧
      ∀ t ∈ (processOrder bk q fuel).2.1,
        ∃ ba, bk.getBestAsk = some ba ∧ ba ≤ t.price) ∧
    (sideWF bk Side.bid → q.side = Side.ask →
      List.Chain' (fun a b => b ≤ a)
        (((processOrder bk q fuel).2.1).map (fun t => t.price)) ∧
      ∀ t ∈ (processOrder bk q fuel).2.1,
        ∃ bb, bk.getBestBid = some bb ∧ t.price ≤ bb) ∧
    (∀ (l : PriceLevel) (hd : Order) (tl : List Order) (need : Int),
      l.queue = hd :: tl → 0 < need →
      (need < hd.qty →
        (l.consumeHead need).2.2.queue =
          { hd with qty := hd.qty - need } :: tl ∧
        (l.consumeHead need).2.1 = none) ∧
      (hd.qty ≤ need →
        (l.consumeHead need).2.2.queue = tl ∧
        (l.consumeHead need).2.1 = some { hd with qty := 0 })) ∧
    (∀ (side : Side) (o : Order) (info : IceInfo),
      alookup bk.icebergs o.idNum = some info → 0 < info.remaining →
      (∃ l', findLevel
          (((icebergReplenishIfNeeded bk side o).tree side).levels)
          info.price = some l' ∧
        l'.queue =
          ((findLevel ((bk.tree side).levels) info.price).map
            (fun l => l.queue)).getD [] ++
          [⟨bk.nextQuoteID, info.tid, info.price,
            min info.display info.remaining, bk.time⟩]) ∧
      (sideWF bk side → ∀ l ∈ (bk.tree side).levels, ∀ x ∈ l.queue,
        x.idNum < bk.nextQuoteID)) := by
  refine ⟨fun h hs => processOrder_mono_bid bk q fuel h hs,
    fun h hs => processOrder_mono_ask bk q fuel h hs,
    fun l hd tl need hq hpos => consumeHead_fifo l hd tl need hq hpos,
    fun side o info halk hrem =>
      ⟨icebergReplenish_appends bk side o info halk hrem, ?_⟩⟩
  intro h l hl x hx
  exact h.2.2.2.1 l hl x hx

/-- A well-formed two-level ask book for the C6 witness: asks 2@101
(id 1) and 4@103 (id 2), id counter 3. -/
def c6Book : OrderBook :=
  { tape := []
    bids := ⟨[], [], 0⟩
    asks := ⟨[⟨101, [⟨1, 9, 101, 2, 0⟩], 2⟩, ⟨103, [⟨2, 8, 103, 4, 1⟩], 4⟩],
      [(1, ⟨1, 9, 101, 2, 0⟩), (2, ⟨2, 8, 103, 4, 1⟩)], 2⟩
    time := 2
    nextQuoteID := 3
    icebergs := [] }

theorem price_time_priority_witness :
    sideWF c6Book Side.ask ∧ (mkLimit Side.bid 9 105 7).side = Side.bid ∧
    (List.Chain' (fun a b => a ≤ b)
      (((processOrder c6Book (mkLimit Side.bid 9 105 7) 30).2.1).map
        (fun t => t.price)) ∧
     ∀ t ∈ (processOrder c6Book (mkLimit Side.bid 9 105 7) 30).2.1,
       ∃ ba, c6Book.getBestAsk = some ba ∧ ba ≤ t.price) :=
  ⟨⟨by simp [pricesOf, c6Book, OrderBook.tree, List.chain'_cons],
    by decide, by decide, by decide, by decide⟩, rfl,
    (price_time_priority c6Book (mkLimit Side.bid 9 105 7) 30).1
      ⟨by simp [pricesOf, c6Book, OrderBook.tree, List.chain'_cons],
       by decide, by decide, by decide, by decide⟩ rfl⟩

end Lobby
